import Mathlib

/-!
# A verification development for `json.cpp`

The file embeds the JSON value class of `json.cpp` (the container `LinkedList`, the
tagged record `json::impl`, the accessors and mutators of `json`, the serializer
`operator<<` and the parser `operator>>`) and proves or refutes statements of its
specification.

Conventions of the embedding.

* A `std::string` is a `List Char`; a `char` is a `Char`.
* The platform type `double`, together with the two stream conversions the source takes from
  the standard library (`lhs >> num` and `os << rhs.get_number()`), is a parameter:
  a type `D` with a zero and a record `DoubleIO D`.
* A `std::istream` is the list of characters not yet extracted together with the state
  bits `eofbit` and `failbit`.
* An exception is a value of `Exception`; an operation that can throw returns `Except`.
* A `LinkedList` is embedded twice: with its nodes and pointers (`LinkedList`), and as the
  sequence of its elements, which is how the value record holds it.
* A `json` object is identified with the `impl` record its `pimpl` owns.  All six data
  members of `impl` are kept, also those that are not active for the current `type`.
* A parameter passed by reference is given by its value where the function reads it before
  it changes the receiver (`push_back`, `push_front`, `insert`).  `set_string` and the copy
  assignment read it after they destroyed a part of the receiver: `json.set_string` and
  `json.assign_index` are for an argument outside the receiver, `json.set_string_ref` and
  `json.assign_operand` follow an argument inside it.
-/

namespace Pel

/-! ## Characters -/

/-- The function `std::isspace` in the default "C" locale. -/
def isspace (c : Char) : Bool :=
  c = ' ' || c = '\t' || c = '\n' || c = Char.ofNat 11 || c = Char.ofNat 12 || c = '\r'

/-- The function `std::isdigit`. -/
def isdigit (c : Char) : Bool :=
  '0'.toNat ≤ c.toNat && c.toNat ≤ '9'.toNat

/-! ## Exceptions -/

/-- The exceptions of the source.  Every `throw json_exception{...}` of `json.cpp` is one of
the first eleven kinds (the names are those of the specification's error taxonomy, the
message texts are in the source); `runtime_error` is the `std::runtime_error` of
`LinkedList::back`. -/
inductive Exception where
  /-- Thrown by `get_number`, `get_bool`, `get_string`. -/
  | TypeMismatch
  /-- Thrown by `push_front`, `push_back`, `begin_list`, `end_list`. -/
  | NotAList
  /-- Thrown by both `operator[]`, `insert`, `begin_dictionary`, `end_dictionary`. -/
  | NotADictionary
  /-- Thrown by the read-only `operator[]`: "Key not found in json dictionary". -/
  | KeyNotFound
  /-- Thrown by `operator*` of the four iterators on a null `current`. -/
  | DereferenceError
  /-- Parser: "valore null non valido". -/
  | InvalidNull
  /-- Parser: "valore booleano true non valido" and "valore booleano false non valido". -/
  | InvalidBool
  /-- Parser: "valore numerico non valido". -/
  | InvalidNumber
  /-- Parser: "lista non valida". -/
  | InvalidArray
  /-- Parser: "dizionario non valido". -/
  | InvalidObject
  /-- Parser: "carattere non valido". -/
  | UnexpectedCharacter
  /-- The `std::runtime_error` of `LinkedList::back` on an empty list. -/
  | runtime_error
  deriving DecidableEq, Repr

/-! ## The container

`LinkedList<T>` is embedded with its pointers: the nodes live in a store, a `Node*` is an
index into it.  The value record below keeps of a list only its element sequence
(`LinkedList.to_list`); the theorems `push_back_refines`, `push_front_refines` and
`back_refines` relate the two views. -/

/-- A `LinkedList<T>::Node`.  A `Node*` is the index of the node in the store of allocated
nodes, and `nullptr` is `none`. -/
structure Node (T : Type) where
  data : T
  next : Option Nat

/-- The class template `LinkedList<T>`: the nodes allocated by `new Node(data)`, in the
order of their allocation, and the two data members `head` and `tail`. -/
structure LinkedList (T : Type) where
  store : List (Node T)
  head : Option Nat
  tail : Option Nat

namespace LinkedList

variable {T : Type}

/-- The constructor `LinkedList()`. -/
def ctor : LinkedList T := ⟨[], none, none⟩

/-- The assignment `p->next = q` in a store. -/
def set_next : List (Node T) → Nat → Option Nat → List (Node T)
  | [], _, _ => []
  | nd :: rest, 0, q => ⟨nd.data, q⟩ :: rest
  | nd :: rest, p + 1, q => nd :: set_next rest p q

/-- The function `LinkedList::push_back`; `none` when it dereferences a null `tail`. -/
def push_back (l : LinkedList T) (data : T) : Option (LinkedList T) :=
  let newNode := l.store.length
  let store := l.store ++ [⟨data, none⟩]
  match l.head with
  | none => some ⟨store, some newNode, some newNode⟩
  | some _ =>
    match l.tail with
    | some t => some ⟨set_next store t (some newNode), l.head, some newNode⟩
    | none => none

/-- The function `LinkedList::push_front`. -/
def push_front (l : LinkedList T) (data : T) : LinkedList T :=
  let newNode := l.store.length
  match l.head with
  | none => ⟨l.store ++ [⟨data, none⟩], some newNode, some newNode⟩
  | some h => ⟨l.store ++ [⟨data, some h⟩], some newNode, l.tail⟩

/-- The function `LinkedList::isEmpty`. -/
def isEmpty (l : LinkedList T) : Bool := l.head.isNone

/-- The function `LinkedList::back`, as the node whose `data` the returned reference
denotes. -/
def back (l : LinkedList T) : Except Exception Nat :=
  match l.tail with
  | some t => Except.ok t
  | none => Except.error Exception.runtime_error

/-- The traversal `for (it = begin(); it != end(); ++it)` collecting `*it`, from the node
`p` on, for at most `fuel` nodes. -/
def walk (store : List (Node T)) : Nat → Option Nat → List T
  | 0, _ => []
  | _ + 1, none => []
  | fuel + 1, some p =>
    match store[p]? with
    | some nd => nd.data :: walk store fuel nd.next
    | none => []

/-- The element sequence of a list: the traversal from `head`. -/
def to_list (l : LinkedList T) : List T := walk l.store l.store.length l.head

/-- The nodes met from `p` on by following `next` up to `nullptr`. -/
inductive Chain (store : List (Node T)) : Option Nat → List Nat → Prop where
  | null : Chain store none []
  | node (p : Nat) (nd : Node T) (ps : List Nat) :
      store[p]? = some nd → Chain store nd.next ps → Chain store (some p) (p :: ps)

/-- The representation invariant of `LinkedList`: the nodes reachable from `head` form a
finite chain without repetition that ends in `nullptr`, and `tail` is its last node
(`nullptr` when the chain is empty). -/
def WF (l : LinkedList T) : Prop :=
  ∃ ps : List Nat, Chain l.store l.head ps ∧ ps.Nodup ∧ l.tail = ps.getLast?

end LinkedList

/-! ## The value record -/

/-- The enumeration `JsonType`. -/
inductive JsonType where
  | Null | Number | Bool | String | List | Dict
  deriving DecidableEq, Repr

/-- A `json` object, given by the data members of the `impl` its `pimpl` points to.
The two `LinkedList` members are given by their element sequences, from `head` on. -/
inductive json (D : Type) where
  | impl (type : JsonType) (numberValue : D) (boolValue : Bool) (stringValue : List Char)
      (listValue : List (json D)) (dictValue : List (List Char × json D))

namespace json

variable {D : Type}

/-- Member `type` of `impl`. -/
def type : json D → JsonType
  | impl t _ _ _ _ _ => t

/-- Member `numberValue` of `impl`. -/
def numberValue : json D → D
  | impl _ n _ _ _ _ => n

/-- Member `boolValue` of `impl`. -/
def boolValue : json D → Bool
  | impl _ _ b _ _ _ => b

/-- Member `stringValue` of `impl`. -/
def stringValue : json D → List Char
  | impl _ _ _ s _ _ => s

/-- Member `listValue` of `impl`, as the sequence of its elements. -/
def listValue : json D → List (json D)
  | impl _ _ _ _ l _ => l

/-- Member `dictValue` of `impl`, as the sequence of its entries. -/
def dictValue : json D → List (List Char × json D)
  | impl _ _ _ _ _ d => d

/-- The default constructor `json::json()`: a fresh `impl` with its default member
initialisers. -/
def ctor [Zero D] : json D :=
  impl JsonType.Null 0 false [] [] []

/-- The member function `impl::clear_data`. -/
def clear_data : json D → json D
  | impl t n b s l d =>
    match t with
    | JsonType.String => impl t n b [] l d
    | JsonType.Bool => impl t n b s l d
    | JsonType.Number => impl t n b s l d
    | JsonType.List => impl t n b s [] d
    | JsonType.Dict => impl t n b s l []
    | JsonType.Null => impl t n b s l d

/-- Predicate `json::is_list`. -/
def is_list (v : json D) : Bool := v.type = JsonType.List

/-- Predicate `json::is_dictionary`. -/
def is_dictionary (v : json D) : Bool := v.type = JsonType.Dict

/-- Predicate `json::is_string`. -/
def is_string (v : json D) : Bool := v.type = JsonType.String

/-- Predicate `json::is_number`. -/
def is_number (v : json D) : Bool := v.type = JsonType.Number

/-- Predicate `json::is_bool`. -/
def is_bool (v : json D) : Bool := v.type = JsonType.Bool

/-- Predicate `json::is_null`. -/
def is_null (v : json D) : Bool := v.type = JsonType.Null

/-- Accessor `json::get_number` (both overloads read the same member). -/
def get_number (v : json D) : Except Exception D :=
  if v.is_number then Except.ok v.numberValue else Except.error Exception.TypeMismatch

/-- Accessor `json::get_bool`. -/
def get_bool (v : json D) : Except Exception Bool :=
  if v.is_bool then Except.ok v.boolValue else Except.error Exception.TypeMismatch

/-- Accessor `json::get_string`. -/
def get_string (v : json D) : Except Exception (List Char) :=
  if v.is_string then Except.ok v.stringValue else Except.error Exception.TypeMismatch

/-- Mutator `json::set_string`, for an argument that is no part of the receiver: `x` is the
value of the string the parameter `std::string const&` refers to.  An argument inside the
receiver is followed in `json.set_string_ref`. -/
def set_string (v : json D) (x : List Char) : json D :=
  match v.clear_data with
  | impl _ n b _ l d => impl JsonType.String n b x l d

/-- Mutator `json::set_bool`. -/
def set_bool (v : json D) (x : Bool) : json D :=
  match v.clear_data with
  | impl _ n _ s l d => impl JsonType.Bool n x s l d

/-- Mutator `json::set_number`. -/
def set_number (v : json D) (x : D) : json D :=
  match v.clear_data with
  | impl _ _ b s l d => impl JsonType.Number x b s l d

/-- Mutator `json::set_null`. -/
def set_null (v : json D) : json D :=
  match v.clear_data with
  | impl _ n b s l d => impl JsonType.Null n b s l d

/-- Mutator `json::set_list`: the member `listValue` is move-assigned a fresh empty list. -/
def set_list (v : json D) : json D :=
  match v.clear_data with
  | impl _ n b s _ d => impl JsonType.List n b s [] d

/-- Mutator `json::set_dictionary`. -/
def set_dictionary (v : json D) : json D :=
  match v.clear_data with
  | impl _ n b s l _ => impl JsonType.Dict n b s l []

/-- Mutator `json::push_front`: `LinkedList::push_front` puts a copy of `x` before `head`. -/
def push_front (v x : json D) : Except Exception (json D) :=
  if !v.is_list then Except.error Exception.NotAList
  else
    match v with
    | impl t n b s l d => Except.ok (impl t n b s (x :: l) d)

/-- Mutator `json::push_back`: `LinkedList::push_back` puts a copy of `x` after `tail`. -/
def push_back (v x : json D) : Except Exception (json D) :=
  if !v.is_list then Except.error Exception.NotAList
  else
    match v with
    | impl t n b s l d => Except.ok (impl t n b s (l ++ [x]) d)

/-- Mutator `json::insert`: `LinkedList::push_back` on `dictValue`. -/
def insert (v : json D) (x : List Char × json D) : Except Exception (json D) :=
  if !v.is_dictionary then Except.error Exception.NotADictionary
  else
    match v with
    | impl t n b s l d => Except.ok (impl t n b s l (d ++ [x]))

/-- The search loop of the read-only `operator[]`:
`for (it = begin(); it != end(); ++it) if (it->first == key) return it->second;`. -/
def find_value (key : List Char) : List (List Char × json D) → Option (json D)
  | [] => none
  | (k, x) :: rest => if k = key then some x else find_value key rest

/-- The read-only `json::operator[]`. -/
def operator_index_const (v : json D) (key : List Char) : Except Exception (json D) :=
  if !v.is_dictionary then Except.error Exception.NotADictionary
  else
    match find_value key v.dictValue with
    | some x => Except.ok x
    | none => Except.error Exception.KeyNotFound

/-- The search loop of the mutable `operator[]`; the result is the position, counted from
`head`, of the node whose `second` the returned reference denotes. -/
def find_position (key : List Char) : List (List Char × json D) → Option Nat
  | [] => none
  | (k, _) :: rest =>
    if k = key then some 0
    else
      match find_position key rest with
      | some i => some (i + 1)
      | none => none

/-- The function `LinkedList::back` on an element sequence: the position of the node `tail`
points to, and `std::runtime_error` when `tail` is null. -/
def back_position {T : Type} : List T → Except Exception Nat
  | [] => Except.error Exception.runtime_error
  | _ :: rest => Except.ok rest.length

/-- The mutable `json::operator[]`.  The returned `json&` is given as the position of the
entry of `dictValue` whose value it refers to, next to the object after the call. -/
def operator_index [Zero D] (v : json D) (key : List Char) : Except Exception (json D × Nat) :=
  if !v.is_dictionary then Except.error Exception.NotADictionary
  else
    match find_position key v.dictValue with
    | some i => Except.ok (v, i)
    | none =>
      match v with
      | impl t n b s l d =>
        let d1 := d ++ [(key, ctor)]
        match back_position d1 with
        | Except.ok i => Except.ok (impl t n b s l d1, i)
        | Except.error e => Except.error e

/-- Writing `x` to the `second` of the entry at position `i` of an entry sequence. -/
def set_second (x : json D) : List (List Char × json D) → Nat → List (List Char × json D)
  | [], _ => []
  | (k, _) :: rest, 0 => (k, x) :: rest
  | e :: rest, i + 1 => e :: set_second x rest i

/-- Copy assignment `ref = x` through a reference `ref` obtained from the mutable
`operator[]` of `v`: the referred `json` gets a new `impl` copied from `x`, the value that
`*other.pimpl` has after `delete pimpl`. -/
def assign_ref (v : json D) (ref : Nat) (x : json D) : json D :=
  match v with
  | impl t n b s l d => impl t n b s l (set_second x d ref)

/-- The statement `v[key] = x;` for an operand of value `x` that is no part of `v` and does
not contain it.  An operand inside `v` is followed in `json.assign_operand`. -/
def assign_index [Zero D] (v : json D) (key : List Char) (x : json D) :
    Except Exception (json D) :=
  match v.operator_index key with
  | Except.ok (v1, ref) => Except.ok (v1.assign_ref ref x)
  | Except.error e => Except.error e

/-! ### Iterators

The four iterator classes hold one data member, the node pointer `current`.  Over an
element sequence a node pointer is the position of the node counted from `head`, and
`nullptr` is `none`. -/

/-- The position `LinkedList::get_head` returns: the first node, or `nullptr`. -/
def get_head {T : Type} : List T → Option Nat
  | [] => none
  | _ :: _ => some 0

/-- The member `next` of the node at position `i`. -/
def node_next {T : Type} (l : List T) (i : Nat) : Option Nat :=
  if i + 1 < l.length then some (i + 1) else none

/-- The function `json::begin_list` (both overloads). -/
def begin_list (v : json D) : Except Exception (Option Nat) :=
  if !v.is_list then Except.error Exception.NotAList
  else Except.ok (get_head v.listValue)

/-- The function `json::end_list` (both overloads). -/
def end_list (v : json D) : Except Exception (Option Nat) :=
  if !v.is_list then Except.error Exception.NotAList
  else Except.ok none

/-- The function `json::begin_dictionary` (both overloads). -/
def begin_dictionary (v : json D) : Except Exception (Option Nat) :=
  if !v.is_dictionary then Except.error Exception.NotADictionary
  else Except.ok (get_head v.dictValue)

/-- The function `json::end_dictionary` (both overloads). -/
def end_dictionary (v : json D) : Except Exception (Option Nat) :=
  if !v.is_dictionary then Except.error Exception.NotADictionary
  else Except.ok none

/-- The pre-increment `operator++` of the iterators, over the sequence `l` they walk. -/
def iterator_incr {T : Type} (l : List T) (current : Option Nat) : Option Nat :=
  match current with
  | some i => node_next l i
  | none => none

/-- The dereference `operator*` of the iterators, over the sequence `l` they walk. -/
def iterator_deref {T : Type} (l : List T) (current : Option Nat) : Except Exception T :=
  match current with
  | some i =>
    match l.get? i with
    | some x => Except.ok x
    | none => Except.error Exception.DereferenceError
  | none => Except.error Exception.DereferenceError

/-- The client loop `for (it = first; it != last; ++it) out.push_back(*it);` over the
sequence `l`, run for at most `fuel` rounds. -/
def iterate {T : Type} (l : List T) (last : Option Nat) : Nat → Option Nat → List T
  | 0, _ => []
  | fuel + 1, it =>
    if it = last then []
    else
      match iterator_deref l it with
      | Except.ok x => x :: iterate l last fuel (iterator_incr l it)
      | Except.error _ => []

/-- The elements met by iterating a list value from `begin_list()` to `end_list()`. -/
def iterate_list (v : json D) : Except Exception (List (json D)) :=
  match v.begin_list, v.end_list with
  | Except.ok first, Except.ok last =>
    Except.ok (iterate v.listValue last (v.listValue.length + 1) first)
  | Except.error e, _ => Except.error e
  | _, Except.error e => Except.error e

/-- The entries met by iterating a dictionary value from `begin_dictionary()` to
`end_dictionary()`. -/
def iterate_dictionary (v : json D) : Except Exception (List (List Char × json D)) :=
  match v.begin_dictionary, v.end_dictionary with
  | Except.ok first, Except.ok last =>
    Except.ok (iterate v.dictValue last (v.dictValue.length + 1) first)
  | Except.error e, _ => Except.error e
  | _, Except.error e => Except.error e

end json

/-! ## The standard streams -/

/-- The two conversions of `double` the source takes from the standard library:
`get` is the scan of `lhs >> num` on the characters ahead (its result is the value, when
the conversion succeeds, and the number of characters extracted), `put` is the text
`os << x` writes. -/
structure DoubleIO (D : Type) where
  get : List Char → Option D × Nat
  put : D → List Char

/-- A `std::istream`: the characters not yet extracted and the state bits. -/
structure istream where
  buf : List Char
  eofbit : Bool
  failbit : Bool
  deriving DecidableEq, Repr

namespace istream

/-- A stream over the text `t`, in the good state. -/
def of_text (t : List Char) : istream := ⟨t, false, false⟩

/-- The function `good()`. -/
def good (s : istream) : Bool := !s.eofbit && !s.failbit

/-- The function `fail()`. -/
def fail (s : istream) : Bool := s.failbit

/-- The call `lhs.get(ch)`: the stream after it and the character stored in `ch`; on
failure `ch` is left as it was (`none`) and the stream converts to `false`. -/
def get (s : istream) : istream × Option Char :=
  if s.good then
    match s.buf with
    | c :: rest => (⟨rest, false, false⟩, some c)
    | [] => (⟨[], true, true⟩, none)
  else (⟨s.buf, s.eofbit, true⟩, none)

/-- The loop `while (lhs.get(ch) && std::isspace(ch)) {}` on a good stream over `buf`: the
stream after it and the last character stored in `ch`, if any was. -/
def get_while_space_buf : List Char → Option Char → istream × Option Char
  | [], last => (⟨[], true, true⟩, last)
  | c :: rest, _ =>
    if isspace c then get_while_space_buf rest (some c) else (⟨rest, false, false⟩, some c)

/-- The loop `while (lhs.get(ch) && std::isspace(ch)) {}`: the stream after it and the
last character stored in `ch`; `none` when no `get` succeeded, so that `ch` is as before. -/
def get_while_space (s : istream) : istream × Option Char :=
  if s.good then get_while_space_buf s.buf none
  else (⟨s.buf, s.eofbit, true⟩, none)

/-- The loop `while (lhs.get(c) && c != '\"') str += c;` on a good stream over `buf`. -/
def get_until_quote_buf : List Char → istream × List Char
  | [] => (⟨[], true, true⟩, [])
  | c :: rest =>
    if c = '"' then (⟨rest, false, false⟩, [])
    else
      let r := get_until_quote_buf rest
      (r.1, c :: r.2)

/-- The loop `while (lhs.get(c) && c != '\"') str += c;`: the stream after it and `str`. -/
def get_until_quote (s : istream) : istream × List Char :=
  if s.good then get_until_quote_buf s.buf
  else (⟨s.buf, s.eofbit, true⟩, [])

/-- The call `lhs.read(buffer, n)`: the stream after it and, when the stream then converts
to `true`, the `n` characters stored in `buffer`. -/
def read (s : istream) (n : Nat) : istream × Option (List Char) :=
  if s.good then
    if n ≤ s.buf.length then (⟨s.buf.drop n, false, false⟩, some (s.buf.take n))
    else (⟨[], true, true⟩, none)
  else (⟨s.buf, s.eofbit, true⟩, none)

/-- The call `lhs.putback(c)`: `eofbit` is cleared first; on a stream that is then not good
nothing is put back and `failbit` is set. -/
def putback (s : istream) (c : Char) : istream :=
  if !s.failbit then ⟨c :: s.buf, false, false⟩
  else ⟨s.buf, false, true⟩

/-- The number of characters the stream can still deliver: none once `failbit` is set. -/
def cap (s : istream) : Nat := if s.failbit then 0 else s.buf.length

/-- The extraction `lhs >> key` into an empty `std::string`: leading whitespace is skipped,
then characters are extracted up to the next whitespace or the end of the input. -/
def extract_string (s : istream) : istream × List Char :=
  if s.good then
    match s.buf.dropWhile isspace with
    | [] => (⟨[], true, true⟩, [])
    | c :: rest =>
      let token := (c :: rest).takeWhile (fun x => !isspace x)
      let after := (c :: rest).dropWhile (fun x => !isspace x)
      (⟨after, after.isEmpty, false⟩, token)
  else (⟨s.buf, s.eofbit, true⟩, [])

/-- The extraction `lhs >> num` into a `double`: leading whitespace is skipped, then the
library scans a number; `failbit` is set when the conversion fails (`num` is then zero),
`eofbit` when the scan reaches the end of the input. -/
def extract_double {D : Type} [Zero D] (io : DoubleIO D) (s : istream) : istream × D :=
  if s.good then
    match s.buf.dropWhile isspace with
    | [] => (⟨[], true, true⟩, 0)
    | c :: rest =>
      let after := (c :: rest).drop (io.get (c :: rest)).2
      match (io.get (c :: rest)).1 with
      | some x => (⟨after, after.isEmpty, false⟩, x)
      | none => (⟨after, after.isEmpty, true⟩, 0)
  else (⟨s.buf, s.eofbit, true⟩, 0)

end istream

/-! ## The serializer -/

section serializer

variable {D : Type}

mutual

/-- The serializer `operator<<(std::ostream&, json const&)`, as the text it writes to `os`.
The chain of tests is the one of the source. -/
def format (io : DoubleIO D) : json D → List Char
  | json.impl t n b s l d =>
    if t = JsonType.String then ['"'] ++ s ++ ['"']
    else if t = JsonType.Bool then (if b then "true".toList else "false".toList)
    else if t = JsonType.Number then io.put n
    else if t = JsonType.Null then "null".toList
    else if t = JsonType.List then ['['] ++ format_list io true l ++ [']']
    else if t = JsonType.Dict then ['{'] ++ format_dictionary io true d ++ ['}']
    else []

/-- The loop over `begin_list()` .. `end_list()` of the serializer; `first` is its flag. -/
def format_list (io : DoubleIO D) : Bool → List (json D) → List Char
  | _, [] => []
  | first, x :: rest =>
    (if !first then ", ".toList else []) ++ format io x ++ format_list io false rest

/-- The loop over `begin_dictionary()` .. `end_dictionary()` of the serializer. -/
def format_dictionary (io : DoubleIO D) : Bool → List (List Char × json D) → List Char
  | _, [] => []
  | first, (k, x) :: rest =>
    (if !first then ", ".toList else []) ++ (['"'] ++ k ++ "\": ".toList ++ format io x)
      ++ format_dictionary io false rest

end

/-! ### The reference definition of the specification -/

mutual

/-- The serializer as the specification defines it, by recursion on the value: `null`;
`true` or `false`; the library text of a number; a string between quotes, not escaped; the
elements of an Array joined by a comma and a space, between brackets; the entries of an
Object joined in the same way, between braces. -/
def format_spec (io : DoubleIO D) : json D → List Char
  | json.impl t n b s l d =>
    match t with
    | JsonType.Null => "null".toList
    | JsonType.Bool => if b then "true".toList else "false".toList
    | JsonType.Number => io.put n
    | JsonType.String => "\"".toList ++ s ++ "\"".toList
    | JsonType.List =>
      "[".toList ++ ", ".toList.intercalate (format_spec_elements io l) ++ "]".toList
    | JsonType.Dict =>
      "\x7b".toList ++ ", ".toList.intercalate (format_spec_entries io d) ++ "\x7d".toList

/-- The formats of the elements of an Array, in order. -/
def format_spec_elements (io : DoubleIO D) : List (json D) → List (List Char)
  | [] => []
  | x :: rest => format_spec io x :: format_spec_elements io rest

/-- The texts of the entries of an Object, in insertion order: the key between quotes, a
colon, a space, and the format of the value. -/
def format_spec_entries (io : DoubleIO D) : List (List Char × json D) → List (List Char)
  | [] => []
  | (k, x) :: rest =>
    ("\"".toList ++ k ++ "\": ".toList ++ format_spec io x) :: format_spec_entries io rest

end

end serializer

/-! ## The parser -/

/-- How a call of `operator>>` ends. -/
inductive Outcome where
  /-- The call returns `lhs`. -/
  | returned
  /-- The call throws. -/
  | thrown (e : Exception)
  /-- The call reads its local `ch` although no `get` has stored a character in it: the
  value tested by the dispatch is indeterminate. -/
  | indeterminate
  /-- The bound on the number of nested calls and loop rounds is used up. -/
  | out_of_fuel
  deriving DecidableEq, Repr

/-- The state a call of `operator>>` leaves: the stream, the destination `rhs` as it is
when the call returns or throws, and how the call ends. -/
structure ParseResult (D : Type) where
  lhs : istream
  rhs : json D
  outcome : Outcome

section parser

variable {D : Type} [Zero D]

/-- The branches `n`, `t`, `f` of the parser after the dispatch: `lhs.read(buffer, k)`,
the comparison with `word`, the whitespace loop and the mutator `set`. -/
def parse_keyword (lhs : istream) (rhs : json D) (k : Nat) (word : List Char)
    (set : json D → json D) (e : Exception) : ParseResult D :=
  match lhs.read k with
  | (lhs1, some buffer) =>
    if buffer = word then ⟨(lhs1.get_while_space).1, set rhs, Outcome.returned⟩
    else ⟨lhs1, rhs, Outcome.thrown e⟩
  | (lhs1, none) => ⟨lhs1, rhs, Outcome.thrown e⟩

mutual

/-- The parser `operator>>(std::istream&, json&)`, with a bound `fuel` on the depth of
nested calls and loop rounds.  The destination is reset first (`rhs = json();`), so the
result does not depend on its previous value. -/
def parse_fuel (io : DoubleIO D) : Nat → istream → ParseResult D
  | 0, lhs => ⟨lhs, json.ctor, Outcome.out_of_fuel⟩
  | fuel + 1, lhs =>
    let rhs : json D := json.ctor
    match lhs.get_while_space with
    | (lhs1, none) => ⟨lhs1, rhs, Outcome.indeterminate⟩
    | (lhs1, some ch) =>
      if ch = 'n' then
        parse_keyword lhs1 rhs 4 "null".toList json.set_null Exception.InvalidNull
      else if ch = 't' then
        parse_keyword lhs1 rhs 4 "true".toList (fun r => r.set_bool true)
          Exception.InvalidBool
      else if ch = 'f' then
        parse_keyword lhs1 rhs 5 "false".toList (fun r => r.set_bool false)
          Exception.InvalidBool
      else if ch = '"' then
        let r := lhs1.get_until_quote
        ⟨(r.1.get_while_space).1, rhs.set_string r.2, Outcome.returned⟩
      else if isdigit ch || ch = '-' then
        let r := (lhs1.putback ch).extract_double io
        if r.1.fail then ⟨r.1, rhs, Outcome.thrown Exception.InvalidNumber⟩
        else ⟨r.1, rhs.set_number r.2, Outcome.returned⟩
      else if ch = '[' then
        let rhs1 := rhs.set_list
        let r := lhs1.get_while_space
        let ch1 := r.2.getD ch
        if ch1 ≠ ']' then parse_list_loop io fuel (r.1.putback ch1) rhs1 ch1
        else ⟨r.1, rhs1, Outcome.returned⟩
      else if ch = '{' then
        let rhs1 := rhs.set_dictionary
        let r := lhs1.get_while_space
        let ch1 := r.2.getD ch
        if ch1 ≠ '}' then parse_dictionary_loop io fuel (r.1.putback ch1) rhs1 ch1
        else ⟨r.1, rhs1, Outcome.returned⟩
      else ⟨lhs1, rhs, Outcome.thrown Exception.UnexpectedCharacter⟩

/-- The loop `while (true)` of the list branch; `ch` is the local of the enclosing call. -/
def parse_list_loop (io : DoubleIO D) : Nat → istream → json D → Char → ParseResult D
  | 0, lhs, rhs, _ => ⟨lhs, rhs, Outcome.out_of_fuel⟩
  | fuel + 1, lhs, rhs, ch =>
    let item := parse_fuel io fuel lhs
    match item.outcome with
    | Outcome.returned =>
      match rhs.push_back item.rhs with
      | Except.error e => ⟨item.lhs, rhs, Outcome.thrown e⟩
      | Except.ok rhs1 =>
        let r := item.lhs.get_while_space
        let ch1 := r.2.getD ch
        if ch1 = ',' then
          let r2 := r.1.get_while_space
          parse_list_loop io fuel r2.1 rhs1 (r2.2.getD ch1)
        else if ch1 = ']' then ⟨r.1, rhs1, Outcome.returned⟩
        else ⟨r.1, rhs1, Outcome.thrown Exception.InvalidArray⟩
    | o => ⟨item.lhs, rhs, o⟩

/-- The loop `while (true)` of the dictionary branch. -/
def parse_dictionary_loop (io : DoubleIO D) : Nat → istream → json D → Char → ParseResult D
  | 0, lhs, rhs, _ => ⟨lhs, rhs, Outcome.out_of_fuel⟩
  | fuel + 1, lhs, rhs, ch =>
    let k := lhs.extract_string
    let r := k.1.get_while_space
    let ch1 := r.2.getD ch
    if ch1 = ':' then
      let r2 := r.1.get_while_space
      let ch2 := r2.2.getD ch1
      let value := parse_fuel io fuel r2.1
      match value.outcome with
      | Outcome.returned =>
        match rhs.assign_index k.2 value.rhs with
        | Except.error e => ⟨value.lhs, rhs, Outcome.thrown e⟩
        | Except.ok rhs1 =>
          let r3 := value.lhs.get_while_space
          let ch3 := r3.2.getD ch2
          if ch3 = ',' then
            let r4 := r3.1.get_while_space
            parse_dictionary_loop io fuel r4.1 rhs1 (r4.2.getD ch3)
          else if ch3 = '}' then ⟨r3.1, rhs1, Outcome.returned⟩
          else ⟨r3.1, rhs1, Outcome.thrown Exception.InvalidObject⟩
      | o => ⟨value.lhs, rhs, o⟩
    else ⟨r.1, rhs, Outcome.thrown Exception.InvalidObject⟩

end

/-- The parser run on a stream over the text `t`.  The bound `2 * t.length + 1` is never
used up (`parse_outcome_ne_out_of_fuel`). -/
def parse (io : DoubleIO D) (t : List Char) : ParseResult D :=
  parse_fuel io (2 * t.length + 1) (istream.of_text t)

end parser

/-! ## An instance of the number conversions

Closed evaluations need the two library conversions on some numbers.  `integer_io` gives
them on integers written as digit runs: there the scan of `lhs >> num` extracts an
optional minus sign and the digits that follow, and `os << x` writes an integer-valued
double below one million in plain decimal. -/

/-- The value of a run of decimal digits. -/
def digits_value (ds : List Char) : Nat :=
  ds.foldl (fun acc c => 10 * acc + (c.toNat - '0'.toNat)) 0

/-- The scan of an optional minus sign and a run of digits; it fails when no digit follows. -/
def integer_get (s : List Char) : Option Int × Nat :=
  match s with
  | '-' :: rest =>
    let ds := rest.takeWhile isdigit
    if ds.isEmpty then (none, 1) else (some (-(digits_value ds : Int)), ds.length + 1)
  | _ =>
    let ds := s.takeWhile isdigit
    if ds.isEmpty then (none, 0) else (some (digits_value ds : Int), ds.length)

/-- The library conversions on integers. -/
def integer_io : DoubleIO Int :=
  ⟨integer_get, fun x => (toString x).toList⟩

/-! ## Observations of a value -/

/-- What a client observes of a value through the read-only interface: the six predicates,
the three typed accessors, the iteration over the elements and over the entries, and the
serialized text. -/
structure Observation (D : Type) where
  is_null : Bool
  is_bool : Bool
  is_number : Bool
  is_string : Bool
  is_list : Bool
  is_dictionary : Bool
  number : Except Exception D
  bool : Except Exception Bool
  string : Except Exception (List Char)
  elements : Except Exception (List (json D))
  entries : Except Exception (List (List Char × json D))
  text : List Char

/-- The observations of the value `v`. -/
def observe {D : Type} (io : DoubleIO D) (v : json D) : Observation D :=
  { is_null := v.is_null
    is_bool := v.is_bool
    is_number := v.is_number
    is_string := v.is_string
    is_list := v.is_list
    is_dictionary := v.is_dictionary
    number := v.get_number
    bool := v.get_bool
    string := v.get_string
    elements := v.iterate_list
    entries := v.iterate_dictionary
    text := format io v }

/-! ## The pointer member and the move operations -/

/-- A `json` object with its one data member, the pointer `pimpl`; `none` is `nullptr`. -/
structure json_object (D : Type) where
  pimpl : Option (json D)

namespace json_object

variable {D : Type}

/-- The move constructor `json::json(json&& other)`: the constructed object, and `other`
after the call. -/
def move_ctor (other : json_object D) : json_object D × json_object D :=
  (⟨other.pimpl⟩, ⟨none⟩)

/-- The move assignment `json::operator=(json&& other)` between two distinct objects (the
test `this != &other` holds): the assigned object, whose old `impl` is deleted, and `other`
after the call. -/
def move_assign (_self other : json_object D) : json_object D × json_object D :=
  (⟨other.pimpl⟩, ⟨none⟩)

/-- The move constructor `impl::impl(impl&& other)` (the move assignment of `impl` has the
same effect): the constructed record, which takes over the members of `other`, and `other`
after the call, with its `type` set to `JsonType::Null`, its two lists emptied by the move
of `LinkedList`, and its string left with the unspecified content `residue`. -/
def impl_move (other : json D) (residue : List Char) : json D × json D :=
  match other with
  | json.impl t n b s l d => (json.impl t n b s l d, json.impl JsonType.Null n b residue [] [])

/-- The expression `pimpl->type` of the predicates; `none` when `pimpl` is `nullptr`, where
the dereference has no defined result. -/
def type (o : json_object D) : Option JsonType :=
  match o.pimpl with
  | some v => some v.type
  | none => none

/-- Predicate `json::is_null` on an object given with its pointer. -/
def is_null (o : json_object D) : Option Bool :=
  match o.type with
  | some t => some (decide (t = JsonType.Null))
  | none => none

/-- Predicate `json::is_list` on an object given with its pointer. -/
def is_list (o : json_object D) : Option Bool :=
  match o.type with
  | some t => some (decide (t = JsonType.List))
  | none => none

end json_object

/-! ## Objects with distinct keys -/

section unique_keys

variable {D : Type}

mutual

/-- Every Object in the tree of the value has pairwise distinct keys.  The tree of a value
is its active member: the elements of an Array, the entries of an Object. -/
def json.unique_keys : json D → Prop
  | json.impl t _ _ _ l d =>
    (t = JsonType.List → elements_unique_keys l) ∧
    (t = JsonType.Dict → (d.map Prod.fst).Nodup ∧ entries_unique_keys d)

/-- Every element of the sequence has distinct keys in all its Objects. -/
def elements_unique_keys : List (json D) → Prop
  | [] => True
  | x :: rest => x.unique_keys ∧ elements_unique_keys rest

/-- Every value of the entry sequence has distinct keys in all its Objects. -/
def entries_unique_keys : List (List Char × json D) → Prop
  | [] => True
  | (_, x) :: rest => x.unique_keys ∧ entries_unique_keys rest

end

/-- The reference effect of the statement `obj[k] = x;` on the entry sequence of `obj`:
the value of the first entry with key `k` is replaced in place, and when no entry has key
`k` the entry `(k, x)` is put at the end. -/
def store_entry (k : List Char) (x : json D) :
    List (List Char × json D) → List (List Char × json D)
  | [] => [(k, x)]
  | (k0, y) :: rest => if k0 = k then (k0, x) :: rest else (k0, y) :: store_entry k x rest

/-- The statements `obj[k] = x;` for the pairs `(k, x)` of `es`, in order. -/
def json.assign_all [Zero D] (v : json D) (es : List (List Char × json D)) :
    Except Exception (json D) :=
  es.foldlM (fun acc e => acc.assign_index e.1 e.2) v

end unique_keys

/-! ## Arguments passed by reference

`json::set_string` takes its argument as `std::string const&` and the copy assignment
`json::operator=` takes its operand as `json const&`: both read the argument after they have
destroyed a part of the receiver, so what they do depends on where the argument lives.  The
definitions `json.set_string` and `json.assign_index` above give the case of an argument that
is no part of the receiver, which is the one of the calls in `operator>>` (the arguments there
are the locals `str` and `value`).  The definitions of this section follow the statements of
the two functions for an argument inside the receiver as well; `none` and
`Assigned.undefined` stand for a read of storage that the function has already destroyed. -/

section references

variable {D : Type}

/-- What the parameter `std::string const& x` of `json::set_string` refers to: a string that
is no part of the receiver, the member `stringValue` of the receiver (the reference
`get_string` returns), or a string of value `x` stored in a node of the member `listValue` or
`dictValue` of the receiver (a key, or a string inside an element or an entry value). -/
inductive StringRef where
  | outside (x : List Char)
  | own
  | in_list (x : List Char)
  | in_dict (x : List Char)
  deriving DecidableEq, Repr

/-- The string the reference denotes once `clear_data` has run on a receiver of kind `t`,
with `cleared` the receiver after it: `clear_data` empties `stringValue` of a String, and it
destroys the nodes of `listValue` of a List and of `dictValue` of a Dict, with the strings
stored in them. -/
def StringRef.read (t : JsonType) (cleared : json D) : StringRef → Option (List Char)
  | StringRef.outside x => some x
  | StringRef.own => some cleared.stringValue
  | StringRef.in_list x => if t = JsonType.List then none else some x
  | StringRef.in_dict x => if t = JsonType.Dict then none else some x

/-- Mutator `json::set_string` with its reference parameter: `clear_data` runs first, then
the kind is set, then `stringValue` is assigned from the reference. -/
def json.set_string_ref (v : json D) (x : StringRef) : Option (json D) :=
  match v.clear_data with
  | json.impl _ n b s l d =>
    match x.read v.type (json.impl JsonType.String n b s l d) with
    | some s1 => some (json.impl JsonType.String n b s1 l d)
    | none => none

/-- A step from a `json` object to an object stored in it: the element at a position of its
`listValue`, or the value of the entry at a position of its `dictValue`. -/
inductive Step where
  | element (i : Nat)
  | entry (i : Nat)
  deriving DecidableEq, Repr

/-- The right operand of the statement `obj[key] = other;`: an object of value `x` that is no
part of `obj` and does not contain it, or the object reached from `obj` by the steps `p` (the
empty path is `obj` itself).  An object that contains `obj` has no constructor of its own:
its copy copies `obj`, as the copy of the empty path does. -/
inductive Operand (D : Type) where
  | outside (x : json D)
  | within (p : List Step)

/-- How the statement `obj[key] = other;` ends: `obj` after it, an exception, or undefined
behaviour (a `pimpl` is dereferenced after its `delete`). -/
inductive Assigned (D : Type) where
  | done (v : json D)
  | thrown (e : Exception)
  | undefined

/-- The object one step below `v`. -/
def json.child (v : json D) : Step → Option (json D)
  | Step.element i => v.listValue.get? i
  | Step.entry i => (v.dictValue.get? i).map Prod.snd

/-- The object reached from `v` by a path; `none` when the path leads to no object. -/
def json.descend : json D → List Step → Option (json D)
  | v, [] => some v
  | v, s :: p =>
    match v.child s with
    | some c => json.descend c p
    | none => none

/-- The entry sequence after `delete pimpl` in the value of the entry at position `i`: that
value, with all it owns, is destroyed and its `pimpl` dangles (`none`); the other values are
as before. -/
def delete_second :
    List (List Char × json D) → Nat → List (List Char × Option (json D))
  | [], _ => []
  | (k, _) :: rest, 0 => (k, none) :: rest.map (fun e => (e.1, some e.2))
  | (k, x) :: rest, i + 1 => (k, some x) :: delete_second rest i

/-- The copy constructor of `LinkedList<std::pair<std::string, json>>`: it copies the entries
in order, each value by `json(json const&)`, which dereferences the `pimpl` of the value. -/
def copy_entries :
    List (List Char × Option (json D)) → Option (List (List Char × json D))
  | [] => some []
  | (_, none) :: _ => none
  | (k, some x) :: rest =>
    match copy_entries rest with
    | some rest1 => some ((k, x) :: rest1)
    | none => none

/-- The test `this != &other` of `json::operator=`, for `this` the value of the entry at
position `i` of `obj`: the operand is that same object. -/
def Operand.is_target : Operand D → Nat → Bool
  | Operand.within [Step.entry j], i => decide (j = i)
  | _, _ => false

/-- The value `new impl(*other.pimpl)` copies, read after `delete pimpl` ran in the value of
the entry at position `i` of `obj`.  The copy of `obj` itself copies every entry, the one at
`i` too; an operand below the entry at `i` was destroyed with it. -/
def Operand.read (obj : json D) (i : Nat) : Operand D → Option (json D)
  | Operand.outside x => some x
  | Operand.within [] =>
    match obj with
    | json.impl t n b s l d =>
      match copy_entries (delete_second d i) with
      | some d1 => some (json.impl t n b s l d1)
      | none => none
  | Operand.within (Step.element j :: p) =>
    match obj.listValue.get? j with
    | some y => y.descend p
    | none => none
  | Operand.within (Step.entry j :: p) =>
    match (delete_second obj.dictValue i).get? j with
    | some (_, some y) => y.descend p
    | _ => none

/-- The statement `obj[key] = other;`: the mutable `operator[]`, then `json::operator=` on
the reference it returns, which does nothing when the operand is the same object and
otherwise runs `delete pimpl; pimpl = new impl(*other.pimpl);`.  The steps of an operand
inside `obj` are counted in `obj` after `operator[]`, which moves no node. -/
def json.assign_operand [Zero D] (v : json D) (key : List Char) (other : Operand D) :
    Assigned D :=
  match v.operator_index key with
  | Except.error e => Assigned.thrown e
  | Except.ok (v1, i) =>
    if other.is_target i then Assigned.done v1
    else
      match other.read v1 i with
      | some x => Assigned.done (v1.assign_ref i x)
      | none => Assigned.undefined

end references

/-! # Theorems -/

/-! ## The container refines its element sequence -/

namespace LinkedList

variable {T : Type}

theorem set_next_length (store : List (Node T)) (p : Nat) (q : Option Nat) :
    (set_next store p q).length = store.length := by
  induction store generalizing p with
  | nil => rfl
  | cons nd rest ih =>
    cases p with
    | zero => rfl
    | succ p => simp [set_next, ih]

theorem get?_set_next_ne (store : List (Node T)) (p i : Nat) (q : Option Nat) (h : i ≠ p) :
    (set_next store p q)[i]? = store[i]? := by
  induction store generalizing p i with
  | nil => rfl
  | cons nd rest ih =>
    cases p with
    | zero =>
      cases i with
      | zero => exact absurd rfl h
      | succ i => simp [set_next]
    | succ p =>
      cases i with
      | zero => simp [set_next]
      | succ i =>
        simp only [set_next, List.getElem?_cons_succ]
        exact ih p i (fun e => h (by rw [e]))

theorem get?_set_next_eq (store : List (Node T)) (p : Nat) (q : Option Nat) (nd : Node T)
    (h : store[p]? = some nd) : (set_next store p q)[p]? = some ⟨nd.data, q⟩ := by
  induction store generalizing p with
  | nil => simp at h
  | cons n0 rest ih =>
    cases p with
    | zero =>
      simp only [List.getElem?_cons_zero, Option.some.injEq] at h
      simp [set_next, h]
    | succ p =>
      simp only [List.getElem?_cons_succ] at h
      simp only [set_next, List.getElem?_cons_succ]
      exact ih p h

theorem Chain.lt_length {store : List (Node T)} {p : Option Nat} {ps : List Nat}
    (h : Chain store p ps) : ∀ a ∈ ps, a < store.length := by
  induction h with
  | null => intro a ha; simp at ha
  | node p nd ps hget _ ih =>
    intro a ha
    rcases List.mem_cons.mp ha with rfl | ha
    · exact (List.getElem?_eq_some.mp hget).1
    · exact ih a ha

theorem Chain.append_store {store : List (Node T)} {p : Option Nat} {ps : List Nat}
    (h : Chain store p ps) (extra : List (Node T)) : Chain (store ++ extra) p ps := by
  induction h with
  | null => exact Chain.null
  | node p nd ps hget _ ih =>
    refine Chain.node p nd ps ?_ ih
    have hlt := (List.getElem?_eq_some.mp hget).1
    rw [List.getElem?_append_left hlt]
    exact hget

theorem nodup_length_le {ps : List Nat} {n : Nat} (hn : ps.Nodup) (hlt : ∀ a ∈ ps, a < n) :
    ps.length ≤ n := by
  have hsub : ps ⊆ List.range n := fun a ha => List.mem_range.mpr (hlt a ha)
  have := (List.subperm_of_subset hn hsub).length_le
  simpa using this

theorem walk_chain {store : List (Node T)} {p : Option Nat} {ps : List Nat}
    (h : Chain store p ps) : ∀ fuel, ps.length ≤ fuel →
      walk store fuel p = ps.filterMap (fun a => (store[a]?).map Node.data) := by
  induction h with
  | null => intro fuel _; cases fuel <;> rfl
  | node p nd ps hget _ ih =>
    intro fuel hfuel
    cases fuel with
    | zero => simp at hfuel
    | succ fuel =>
      simp only [walk, hget, List.filterMap_cons, Option.map_some']
      rw [ih fuel (by simpa using hfuel)]

theorem to_list_eq {l : LinkedList T} {ps : List Nat} (h : Chain l.store l.head ps)
    (hn : ps.Nodup) :
    l.to_list = ps.filterMap (fun a => (l.store[a]?).map Node.data) :=
  walk_chain h _ (nodup_length_le hn h.lt_length)


theorem map_data_set_next (store : List (Node T)) (p i : Nat) (q : Option Nat) :
    ((set_next store p q)[i]?).map Node.data = (store[i]?).map Node.data := by
  by_cases h : i = p
  · subst h
    cases hg : store[i]? with
    | none =>
      have : (set_next store i q)[i]? = none := by
        rw [List.getElem?_eq_none_iff] at hg ⊢
        rw [set_next_length]; exact hg
      rw [this]
    | some nd => rw [get?_set_next_eq store i q nd hg]; rfl
  · rw [get?_set_next_ne store p i q h]

theorem Chain.nil_inv {store : List (Node T)} {p : Option Nat} (h : Chain store p []) :
    p = none := by
  cases h; rfl

theorem Chain.link_last {S : List (Node T)} {q : Option Nat} {ps : List Nat}
    (h : Chain S q ps) : ∀ (t n : Nat) (x : T), ps.Nodup → ps.getLast? = some t → n ∉ ps →
      S[n]? = some ⟨x, none⟩ → Chain (set_next S t (some n)) q (ps ++ [n]) := by
  induction h with
  | null => intro t n x _ hl; simp at hl
  | node p nd ps hget hrest ih =>
    intro t n x hn hl hnot hnew
    have hnp : n ≠ p := fun e => hnot (by rw [e]; exact List.mem_cons_self _ _)
    have hnps : n ∉ ps := fun hmem => hnot (List.mem_cons_of_mem _ hmem)
    cases ps with
    | nil =>
      have hnext : nd.next = none := hrest.nil_inv
      have ht : t = p := by simpa using hl.symm
      subst ht
      refine Chain.node t ⟨nd.data, some n⟩ [n] (get?_set_next_eq S t (some n) nd hget) ?_
      refine Chain.node n ⟨x, none⟩ [] ?_ Chain.null
      rw [get?_set_next_ne S t n (some n) hnp]; exact hnew
    | cons p1 ps1 =>
      have hl1 : (p1 :: ps1).getLast? = some t := by
        simpa [List.getLast?_cons_cons] using hl
      have htmem : t ∈ p1 :: ps1 := List.mem_of_getLast?_eq_some hl1
      have hpt : p ≠ t := fun e => (List.nodup_cons.mp hn).1 (by rw [e]; exact htmem)
      refine Chain.node p nd _ ?_ (ih t n x (List.nodup_cons.mp hn).2 hl1 hnps hnew)
      rw [get?_set_next_ne S t p (some n) hpt]; exact hget


theorem Chain.cons_inv {store : List (Node T)} {q : Option Nat} {a : Nat} {ps : List Nat}
    (h : Chain store q (a :: ps)) :
    ∃ nd, q = some a ∧ store[a]? = some nd ∧ Chain store nd.next ps := by
  generalize e : a :: ps = qs at h
  cases h with
  | null => cases e
  | node p nd ps1 hget hrest =>
    cases e
    exact ⟨nd, rfl, hget, hrest⟩

theorem Chain.head_none {store : List (Node T)} {ps : List Nat} (h : Chain store none ps) :
    ps = [] := by
  generalize e : (none : Option Nat) = q at h
  cases h with
  | null => rfl
  | node p nd ps1 hget hrest => cases e

theorem getLast?_filterMap_data {store : List (Node T)} {p : Option Nat} {ps : List Nat}
    (h : Chain store p ps) :
    (ps.filterMap (fun a => (store[a]?).map Node.data)).getLast?
      = ps.getLast?.bind (fun t => (store[t]?).map Node.data) := by
  induction h with
  | null => rfl
  | node p nd ps hget hrest ih =>
    cases ps with
    | nil => simp [hget]
    | cons p1 ps1 =>
      obtain ⟨nd1, _, hget1, _⟩ := hrest.cons_inv
      simp only [List.filterMap_cons, hget, hget1, Option.map_some', List.getLast?_cons_cons]
      simp only [List.filterMap_cons, hget1, Option.map_some'] at ih
      exact ih

theorem push_back_refines (l : LinkedList T) (x : T) (h : WF l) :
    ∃ l1, l.push_back x = some l1 ∧ WF l1 ∧ l1.to_list = l.to_list ++ [x] := by
  obtain ⟨ps, hc, hn, ht⟩ := h
  have hlt := hc.lt_length
  have hfresh : l.store.length ∉ ps := fun hm => Nat.lt_irrefl _ (hlt _ hm)
  have hnew : (l.store ++ [(⟨x, none⟩ : Node T)])[l.store.length]? = some ⟨x, none⟩ := by
    simp
  cases hh : l.head with
  | none =>
    rw [hh] at hc
    have hps : ps = [] := hc.head_none
    have hc1 : Chain (l.store ++ [(⟨x, none⟩ : Node T)]) (some l.store.length) [l.store.length] :=
      Chain.node _ ⟨x, none⟩ [] hnew Chain.null
    have hn1 : [l.store.length].Nodup := List.nodup_singleton _
    refine ⟨⟨l.store ++ [⟨x, none⟩], some l.store.length, some l.store.length⟩,
      by simp only [push_back, hh], ⟨[l.store.length], hc1, hn1, rfl⟩, ?_⟩
    have e1 := to_list_eq (l := ⟨l.store ++ [⟨x, none⟩], some l.store.length,
      some l.store.length⟩) hc1 hn1
    have e0 := to_list_eq (l := l) (by rw [hh]; exact hc) hn
    rw [e1, e0, hps]
    simp
  | some hd =>
    have hps : ps ≠ [] := by
      intro e; rw [e, hh] at hc; exact Option.noConfusion hc.nil_inv
    obtain ⟨t, htl⟩ : ∃ t, ps.getLast? = some t := by
      cases hq : ps.getLast? with
      | none => exact absurd (List.getLast?_eq_none_iff.mp hq) hps
      | some t => exact ⟨t, rfl⟩
    have htail : l.tail = some t := by rw [ht, htl]
    have hc1 := (hc.append_store [(⟨x, none⟩ : Node T)]).link_last t l.store.length x hn htl
      hfresh hnew
    have hn1 : (ps ++ [l.store.length]).Nodup := by
      rw [List.nodup_append]
      refine ⟨hn, by simp, ?_⟩
      intro a ha hb
      rw [List.mem_singleton] at hb
      exact hfresh (hb ▸ ha)
    refine ⟨⟨set_next (l.store ++ [⟨x, none⟩]) t (some l.store.length), l.head,
      some l.store.length⟩, by simp only [push_back, hh, htail], ⟨_, ?_, hn1, by simp⟩, ?_⟩
    · exact hc1
    · have e1 := to_list_eq (l := ⟨set_next (l.store ++ [⟨x, none⟩]) t (some l.store.length),
        l.head, some l.store.length⟩) hc1 hn1
      rw [e1, to_list_eq hc hn, List.filterMap_append]
      congr 1
      · apply List.filterMap_congr
        intro a ha
        rw [map_data_set_next, List.getElem?_append_left (hlt a ha)]
      · simp [map_data_set_next]

theorem push_front_refines (l : LinkedList T) (x : T) (h : WF l) :
    WF (l.push_front x) ∧ (l.push_front x).to_list = x :: l.to_list := by
  obtain ⟨ps, hc, hn, ht⟩ := h
  have hlt := hc.lt_length
  have hfresh : l.store.length ∉ ps := fun hm => Nat.lt_irrefl _ (hlt _ hm)
  have hn1 : (l.store.length :: ps).Nodup := List.nodup_cons.mpr ⟨hfresh, hn⟩
  have key : ∀ nx : Option Nat, nx = l.head →
      Chain (l.store ++ [(⟨x, nx⟩ : Node T)]) (some l.store.length) (l.store.length :: ps) := by
    intro nx e
    refine Chain.node _ ⟨x, nx⟩ ps (by simp) ?_
    rw [e]; exact hc.append_store _
  have data : ∀ nx : Option Nat,
      (l.store.length :: ps).filterMap
          (fun a => ((l.store ++ [(⟨x, nx⟩ : Node T)])[a]?).map Node.data)
        = x :: ps.filterMap (fun a => (l.store[a]?).map Node.data) := by
    intro nx
    rw [List.filterMap_cons]
    simp only [List.getElem?_concat_length, Option.map_some']
    congr 1
    apply List.filterMap_congr
    intro a ha
    rw [List.getElem?_append_left (hlt a ha)]
  cases hh : l.head with
  | none =>
    have hps : ps = [] := by rw [hh] at hc; exact hc.head_none
    have hc1 := key none hh.symm
    refine ⟨⟨_, by simpa only [push_front, hh] using hc1, hn1, by simp [push_front, hh, hps]⟩, ?_⟩
    have e1 := to_list_eq (l := l.push_front x) (by simpa only [push_front, hh] using hc1) hn1
    rw [e1, to_list_eq hc hn]
    simpa only [push_front, hh] using data none
  | some hd =>
    have hps : ps ≠ [] := by
      intro e; rw [e, hh] at hc; exact Option.noConfusion hc.nil_inv
    have hc1 := key (some hd) hh.symm
    refine ⟨⟨_, by simpa only [push_front, hh] using hc1, hn1, ?_⟩, ?_⟩
    · simp only [push_front, hh]
      rw [ht]
      cases ps with
      | nil => exact absurd rfl hps
      | cons a as => rw [List.getLast?_cons_cons]
    · have e1 := to_list_eq (l := l.push_front x) (by simpa only [push_front, hh] using hc1) hn1
      rw [e1, to_list_eq hc hn]
      simpa only [push_front, hh] using data (some hd)

theorem back_refines (l : LinkedList T) (h : WF l) :
    (l.to_list = [] → l.back = Except.error Exception.runtime_error) ∧
    (l.to_list ≠ [] → ∃ t, l.back = Except.ok t ∧
      (l.store[t]?).map Node.data = l.to_list.getLast?) := by
  obtain ⟨ps, hc, hn, ht⟩ := h
  have hl := to_list_eq hc hn
  have hlast := getLast?_filterMap_data hc
  cases ps with
  | nil =>
    refine ⟨fun _ => by simp [back, ht], fun hne => absurd (by simpa using hl) hne⟩
  | cons a as =>
    obtain ⟨t, htl⟩ : ∃ t, (a :: as).getLast? = some t := by
      cases hq : (a :: as).getLast? with
      | none => simp at hq
      | some t => exact ⟨t, rfl⟩
    constructor
    · intro he
      rw [he] at hl
      obtain ⟨nd, _, hget, _⟩ := hc.cons_inv
      simp [hget] at hl
    · intro _
      refine ⟨t, by simp only [back, ht, htl], ?_⟩
      rw [hl, hlast, htl]; rfl

end LinkedList

/-! ## The serializer and its reference definition -/

section serializer_theorems

variable {D : Type}

theorem intercalate_cons_cons {α : Type} (sep a b : List α) (rest : List (List α)) :
    sep.intercalate (a :: b :: rest) = a ++ sep ++ sep.intercalate (b :: rest) := by
  simp [List.intercalate, List.intersperse]

theorem intercalate_cons_eq {α : Type} (sep a : List α) (rest : List (List α)) :
    sep.intercalate (a :: rest)
      = a ++ ((if rest.isEmpty then [] else sep) ++ sep.intercalate rest) := by
  cases rest with
  | nil => simp [List.intercalate]
  | cons b rest => simp [intercalate_cons_cons]

theorem format_spec_elements_isEmpty (io : DoubleIO D) (l : List (json D)) :
    (format_spec_elements io l).isEmpty = l.isEmpty := by
  cases l <;> rfl

theorem format_spec_entries_isEmpty (io : DoubleIO D) (d : List (List Char × json D)) :
    (format_spec_entries io d).isEmpty = d.isEmpty := by
  cases d with
  | nil => rfl
  | cons e rest => cases e; rfl

mutual

theorem format_refines (io : DoubleIO D) : ∀ v : json D, format io v = format_spec io v
  | json.impl t n b s l d => by
    cases t <;> simp [format, format_spec, format_list_refines io true l,
      format_dictionary_refines io true d]

theorem format_list_refines (io : DoubleIO D) : ∀ (first : Bool) (l : List (json D)),
    format_list io first l
      = (if first || l.isEmpty then [] else ", ".toList)
          ++ ", ".toList.intercalate (format_spec_elements io l)
  | first, [] => by cases first <;> simp [format_list, format_spec_elements, List.intercalate]
  | first, x :: rest => by
    rw [format_list, format_refines io x, format_list_refines io false rest,
      format_spec_elements, intercalate_cons_eq, format_spec_elements_isEmpty]
    cases first <;> cases rest <;> simp

theorem format_dictionary_refines (io : DoubleIO D) :
    ∀ (first : Bool) (d : List (List Char × json D)),
    format_dictionary io first d
      = (if first || d.isEmpty then [] else ", ".toList)
          ++ ", ".toList.intercalate (format_spec_entries io d)
  | first, [] => by
    cases first <;> simp [format_dictionary, format_spec_entries, List.intercalate]
  | first, (k, x) :: rest => by
    rw [format_dictionary, format_refines io x, format_dictionary_refines io false rest,
      format_spec_entries, intercalate_cons_eq, format_spec_entries_isEmpty]
    cases first <;> cases rest <;> simp

end

end serializer_theorems

/-! ## Sequences, iteration and lookup -/

section sequence_theorems

variable {D : Type}

theorem get_head_eq {T : Type} (l : List T) :
    json.get_head l = if 0 < l.length then some 0 else none := by
  cases l <;> simp [json.get_head]

theorem iterate_from {T : Type} (l : List T) : ∀ (fuel i : Nat), l.length < fuel + i →
    json.iterate l none fuel (if i < l.length then some i else none) = l.drop i := by
  intro fuel
  induction fuel with
  | zero =>
    intro i h
    have : l.length ≤ i := by omega
    simp [json.iterate, List.drop_eq_nil_of_le this]
  | succ fuel ih =>
    intro i h
    by_cases hi : i < l.length
    · have hget : l.get? i = some l[i] := by simp [List.getElem?_eq_getElem hi]
      rw [json.iterate, if_pos hi, if_neg (by simp)]
      simp only [json.iterator_deref, hget, json.iterator_incr, json.node_next]
      rw [ih (i + 1) (by omega), List.drop_eq_getElem_cons hi]
    · have : l.length ≤ i := by omega
      simp [json.iterate, hi, List.drop_eq_nil_of_le this]

theorem iterate_all {T : Type} (l : List T) :
    json.iterate l none (l.length + 1) (json.get_head l) = l := by
  rw [get_head_eq, iterate_from l (l.length + 1) 0 (by omega), List.drop_zero]

theorem foldlM_push_back (xs : List (json D)) : ∀ (t : JsonType) (n : D) (b : Bool)
    (s : List Char) (l : List (json D)) (d : List (List Char × json D)), t = JsonType.List →
    xs.foldlM json.push_back (json.impl t n b s l d) = Except.ok (json.impl t n b s (l ++ xs) d) := by
  induction xs with
  | nil => intro t n b s l d _; simp [List.foldlM]; rfl
  | cons x xs ih =>
    intro t n b s l d ht
    subst ht
    rw [List.foldlM_cons]
    simp only [json.push_back, json.is_list, json.type, decide_True, Bool.not_true,
      Bool.false_eq_true, if_false]
    have := ih JsonType.List n b s (l ++ [x]) d rfl
    simpa [bind, Except.bind] using this

theorem foldlM_insert (es : List (List Char × json D)) : ∀ (t : JsonType) (n : D) (b : Bool)
    (s : List Char) (l : List (json D)) (d : List (List Char × json D)), t = JsonType.Dict →
    es.foldlM json.insert (json.impl t n b s l d) = Except.ok (json.impl t n b s l (d ++ es)) := by
  induction es with
  | nil => intro t n b s l d _; simp [List.foldlM]; rfl
  | cons e es ih =>
    intro t n b s l d ht
    subst ht
    rw [List.foldlM_cons]
    simp only [json.insert, json.is_dictionary, json.type, decide_True, Bool.not_true,
      Bool.false_eq_true, if_false]
    have := ih JsonType.Dict n b s l (d ++ [e]) rfl
    simpa [bind, Except.bind] using this

theorem find_value_first (key : List Char) (x : json D) :
    ∀ (pre post : List (List Char × json D)), (∀ e ∈ pre, e.1 ≠ key) →
      json.find_value key (pre ++ (key, x) :: post) = some x := by
  intro pre
  induction pre with
  | nil => intro post _; simp [json.find_value]
  | cons e pre ih =>
    intro post h
    obtain ⟨k, y⟩ := e
    have hk : k ≠ key := h (k, y) (List.mem_cons_self _ _)
    simp only [List.cons_append, json.find_value, if_neg hk]
    exact ih post (fun e he => h e (List.mem_cons_of_mem _ he))

theorem find_value_none (key : List Char) : ∀ d : List (List Char × json D),
    json.find_value key d = none ↔ ∀ e ∈ d, e.1 ≠ key := by
  intro d
  induction d with
  | nil => exact ⟨fun _ e he => absurd he (List.not_mem_nil e), fun _ => rfl⟩
  | cons e d ih =>
    obtain ⟨k, y⟩ := e
    by_cases hk : k = key
    · constructor
      · intro h
        rw [json.find_value, if_pos hk] at h
        exact Option.noConfusion h
      · intro h
        exact absurd hk (h (k, y) (List.mem_cons_self _ _))
    · rw [json.find_value, if_neg hk, ih]
      constructor
      · intro h e he
        rcases List.mem_cons.mp he with rfl | he
        · exact hk
        · exact h e he
      · intro h e he
        exact h e (List.mem_cons_of_mem _ he)

theorem find_position_none (key : List Char) : ∀ d : List (List Char × json D),
    (∀ e ∈ d, e.1 ≠ key) → json.find_position key d = none := by
  intro d
  induction d with
  | nil => intro _; rfl
  | cons e d ih =>
    intro h
    obtain ⟨k, y⟩ := e
    have hk : k ≠ key := h (k, y) (List.mem_cons_self _ _)
    simp only [json.find_position, if_neg hk, ih (fun e he => h e (List.mem_cons_of_mem _ he))]

theorem back_position_concat {T : Type} (l : List T) (x : T) :
    json.back_position (l ++ [x]) = Except.ok l.length := by
  cases l with
  | nil => rfl
  | cons a l => simp [json.back_position]

theorem set_second_concat (x y : json D) (key : List Char) :
    ∀ d : List (List Char × json D),
      json.set_second x (d ++ [(key, y)]) d.length = d ++ [(key, x)] := by
  intro d
  induction d with
  | nil => rfl
  | cons e d ih =>
    obtain ⟨k, z⟩ := e
    have e1 : json.set_second x ((k, z) :: d ++ [(key, y)]) ((k, z) :: d).length
        = (k, z) :: json.set_second x (d ++ [(key, y)]) d.length := rfl
    rw [e1, ih]
    rfl

theorem find_value_some (key : List Char) (x : json D) : ∀ d : List (List Char × json D),
    json.find_value key d = some x →
      ∃ pre post, d = pre ++ (key, x) :: post ∧ ∀ e ∈ pre, e.1 ≠ key := by
  intro d
  induction d with
  | nil => intro h; exact Option.noConfusion h
  | cons e d ih =>
    obtain ⟨k, y⟩ := e
    intro h
    by_cases hk : k = key
    · rw [json.find_value, if_pos hk] at h
      cases h
      exact ⟨[], d, by rw [hk]; rfl, fun e he => absurd he (List.not_mem_nil e)⟩
    · rw [json.find_value, if_neg hk] at h
      obtain ⟨pre, post, hd, hpre⟩ := ih h
      refine ⟨(k, y) :: pre, post, by rw [hd]; rfl, ?_⟩
      intro e he
      rcases List.mem_cons.mp he with rfl | he
      · exact hk
      · exact hpre e he

theorem set_list_shape (v : json D) :
    ∃ n b s d, v.set_list = json.impl JsonType.List n b s [] d := by
  cases v with
  | impl t n b s l d => cases t <;> exact ⟨_, _, _, _, rfl⟩

theorem set_dictionary_shape (v : json D) :
    ∃ n b s l, v.set_dictionary = json.impl JsonType.Dict n b s l [] := by
  cases v with
  | impl t n b s l d => cases t <;> exact ⟨_, _, _, _, rfl⟩

theorem iterate_list_of_list (n : D) (b : Bool) (s : List Char) (l : List (json D))
    (d : List (List Char × json D)) :
    (json.impl JsonType.List n b s l d).iterate_list = Except.ok l := by
  simp only [json.iterate_list, json.begin_list, json.end_list, json.is_list, json.type,
    json.listValue, decide_True, Bool.not_true, Bool.false_eq_true, if_false, iterate_all]

theorem iterate_dictionary_of_dictionary (n : D) (b : Bool) (s : List Char) (l : List (json D))
    (d : List (List Char × json D)) :
    (json.impl JsonType.Dict n b s l d).iterate_dictionary = Except.ok d := by
  simp only [json.iterate_dictionary, json.begin_dictionary, json.end_dictionary,
    json.is_dictionary, json.type, json.dictValue, decide_True, Bool.not_true,
    Bool.false_eq_true, if_false, iterate_all]

theorem wf_ctor {T : Type} : (LinkedList.ctor : LinkedList T).WF :=
  ⟨[], LinkedList.Chain.null, List.nodup_nil, rfl⟩

end sequence_theorems

/-! ## The stream operations -/

section stream_theorems

theorem get_while_space_buf_some (buf : List Char) : ∀ x : Char,
    ∃ y, (istream.get_while_space_buf buf (some x)).2 = some y := by
  induction buf with
  | nil => intro x; exact ⟨x, rfl⟩
  | cons a l ih =>
    intro x
    by_cases h : isspace a = true
    · simp only [istream.get_while_space_buf, h, if_true]; exact ih a
    · simp only [istream.get_while_space_buf, h]; exact ⟨a, rfl⟩

theorem get_while_space_buf_last (buf : List Char) (c : Char) :
    istream.get_while_space_buf buf (some c)
      = ((istream.get_while_space_buf buf none).1,
          some ((istream.get_while_space_buf buf none).2.getD c)) := by
  cases buf with
  | nil => rfl
  | cons a rest =>
    by_cases ha : isspace a = true
    · simp only [istream.get_while_space_buf, ha, if_true]
      obtain ⟨y, hy⟩ := get_while_space_buf_some rest a
      exact Prod.ext rfl (by simp [hy])
    · simp only [istream.get_while_space_buf, ha]
      rfl

/-- The whitespace loop, unfolded once: one `get`, the test `isspace`, and the loop again. -/
theorem get_while_space_step (s : istream) :
    s.get_while_space =
      match s.get with
      | (s1, some c) =>
        if isspace c then ((s1.get_while_space).1, some ((s1.get_while_space).2.getD c))
        else (s1, some c)
      | (s1, none) => (s1, none) := by
  obtain ⟨buf, e, f⟩ := s
  cases e <;> cases f <;> try rfl
  cases buf with
  | nil => rfl
  | cons c rest =>
    simp only [istream.get_while_space, istream.get, istream.good, Bool.not_false, Bool.and_self,
      if_true, istream.get_while_space_buf]
    by_cases hc : isspace c = true
    · simp only [hc, if_true]
      exact get_while_space_buf_last rest c
    · simp only [hc]
      rfl

/-- The string loop, unfolded once: one `get`, the test for the quote, and the loop again. -/
theorem get_until_quote_step (s : istream) :
    s.get_until_quote =
      match s.get with
      | (s1, some c) =>
        if c = '"' then (s1, []) else ((s1.get_until_quote).1, c :: (s1.get_until_quote).2)
      | (s1, none) => (s1, []) := by
  obtain ⟨buf, e, f⟩ := s
  cases e <;> cases f <;> try rfl
  cases buf with
  | nil => rfl
  | cons c rest =>
    simp only [istream.get_until_quote, istream.get, istream.good, Bool.not_false, Bool.and_self,
      if_true, istream.get_until_quote_buf]

theorem get_while_space_buf_cap (buf : List Char) : ∀ last : Option Char,
    (istream.get_while_space_buf buf last).1.cap ≤ buf.length ∧
    ((istream.get_while_space_buf buf last).2 = none →
      (istream.get_while_space_buf buf last).1.failbit = true) ∧
    (last = none → ∀ c, (istream.get_while_space_buf buf last).2 = some c →
      (istream.get_while_space_buf buf last).1.cap + 1 ≤ buf.length) := by
  induction buf with
  | nil =>
    intro last
    refine ⟨Nat.le_refl _, fun _ => rfl, ?_⟩
    intro hl c hc
    rw [hl] at hc
    exact Option.noConfusion hc
  | cons a rest ih =>
    intro last
    by_cases ha : isspace a = true
    · simp only [istream.get_while_space_buf, ha, if_true, List.length_cons]
      obtain ⟨h1, h2, _⟩ := ih (some a)
      exact ⟨Nat.le_succ_of_le h1, h2, fun _ _ _ => Nat.succ_le_succ h1⟩
    · simp only [istream.get_while_space_buf, ha, List.length_cons]
      refine ⟨?_, ?_, ?_⟩
      · simp [istream.cap]
      · intro h; exact Option.noConfusion h
      · intro _ _ _; simp [istream.cap]

theorem get_while_space_cap (s : istream) :
    (s.get_while_space).1.cap ≤ s.cap ∧
    ((s.get_while_space).2 = none → (s.get_while_space).1.failbit = true) ∧
    (∀ c, (s.get_while_space).2 = some c → (s.get_while_space).1.cap + 1 ≤ s.cap) := by
  obtain ⟨buf, e, f⟩ := s
  cases e <;> cases f
  · obtain ⟨h1, h2, h3⟩ := get_while_space_buf_cap buf none
    exact ⟨h1, h2, h3 rfl⟩
  all_goals
    refine ⟨by simp [istream.get_while_space, istream.good, istream.cap], fun _ => rfl, ?_⟩
    intro c hc
    simp [istream.get_while_space, istream.good] at hc

theorem get_while_space_putback_cap (s : istream) (ch : Char) :
    (((s.get_while_space).1).putback ((s.get_while_space).2.getD ch)).cap ≤ s.cap := by
  obtain ⟨h1, h2, h3⟩ := get_while_space_cap s
  cases hr : (s.get_while_space).2 with
  | none =>
    have hf := h2 hr
    simp [istream.putback, hf, istream.cap]
  | some c =>
    have hc := h3 c hr
    by_cases hf : (s.get_while_space).1.failbit = true
    · simp [istream.putback, hf, istream.cap]
    · simp only [istream.cap, hf] at hc
      simp only [istream.putback, hf, istream.cap, Bool.not_false, if_true, Bool.false_eq_true,
        if_false, List.length_cons]
      simpa [istream.cap] using hc

theorem read_cap (s : istream) (n : Nat) : (s.read n).1.cap ≤ s.cap := by
  obtain ⟨buf, e, f⟩ := s
  cases e <;> cases f <;> simp [istream.read, istream.good, istream.cap]
  split <;> simp

theorem get_until_quote_buf_cap (buf : List Char) :
    (istream.get_until_quote_buf buf).1.cap ≤ buf.length := by
  induction buf with
  | nil => simp [istream.get_until_quote_buf, istream.cap]
  | cons c rest ih =>
    by_cases hc : c = '"'
    · simp [istream.get_until_quote_buf, hc, istream.cap]
    · simp only [istream.get_until_quote_buf, hc, if_false, List.length_cons]
      exact Nat.le_succ_of_le ih

theorem get_until_quote_cap (s : istream) : (s.get_until_quote).1.cap ≤ s.cap := by
  obtain ⟨buf, e, f⟩ := s
  cases e <;> cases f <;> simp [istream.get_until_quote, istream.good, istream.cap]
  simpa [istream.cap] using get_until_quote_buf_cap buf

theorem dropWhile_length_le {α : Type} (p : α → Bool) (l : List α) :
    (l.dropWhile p).length ≤ l.length := by
  induction l with
  | nil => simp
  | cons a l ih =>
    rw [List.dropWhile_cons]
    split
    · exact Nat.le_succ_of_le ih
    · exact Nat.le_refl _

theorem extract_string_cap (s : istream) : (s.extract_string).1.cap ≤ s.cap := by
  obtain ⟨buf, e, f⟩ := s
  cases e <;> cases f <;> simp [istream.extract_string, istream.good, istream.cap]
  cases h : List.dropWhile isspace buf with
  | nil => simp
  | cons c rest =>
    have h1 := dropWhile_length_le isspace buf
    have h2 := dropWhile_length_le (fun x => !isspace x) (c :: rest)
    rw [h] at h1
    simp only [Bool.false_eq_true, if_false]
    exact Nat.le_trans h2 h1

theorem extract_double_cap {D : Type} [Zero D] (io : DoubleIO D) (s : istream) :
    ((s.extract_double io).1).cap ≤ s.cap := by
  obtain ⟨buf, e, f⟩ := s
  cases e <;> cases f <;> simp [istream.extract_double, istream.good, istream.cap]
  cases h : List.dropWhile isspace buf with
  | nil => simp
  | cons c rest =>
    have h1 := dropWhile_length_le isspace buf
    rw [h] at h1
    simp only
    cases (io.get (c :: rest)).1 with
    | none => simp
    | some x =>
      simp only [Bool.false_eq_true, if_false, List.length_drop]
      exact Nat.le_trans (Nat.sub_le _ _) h1

end stream_theorems

/-! ## The parser never uses up its bound -/

section fuel_theorems

variable {D : Type}

theorem putback_cap (s : istream) (c : Char) : (s.putback c).cap ≤ s.cap + 1 := by
  obtain ⟨buf, e, f⟩ := s
  cases f <;> simp [istream.putback, istream.cap]

theorem cap_of_failbit (s : istream) (h : s.failbit = true) : s.cap = 0 := by
  simp [istream.cap, h]

theorem parse_keyword_bound (lhs : istream) (rhs : json D) (k : Nat) (word : List Char)
    (set : json D → json D) (e : Exception) :
    (parse_keyword lhs rhs k word set e).outcome ≠ Outcome.out_of_fuel ∧
    (parse_keyword lhs rhs k word set e).lhs.cap ≤ lhs.cap := by
  have h1 := read_cap lhs k
  cases hr : lhs.read k with
  | mk lhs1 buffer =>
    rw [hr] at h1
    cases buffer with
    | none => simp only [parse_keyword, hr]; exact ⟨by simp, h1⟩
    | some buffer =>
      simp only [parse_keyword, hr]
      split
      · exact ⟨by simp, Nat.le_trans (get_while_space_cap lhs1).1 h1⟩
      · exact ⟨by simp, h1⟩

theorem parse_fuel_bound [Zero D] (io : DoubleIO D) : ∀ fuel : Nat,
    (∀ lhs : istream, 2 * lhs.cap + 1 ≤ fuel →
      (parse_fuel io fuel lhs).outcome ≠ Outcome.out_of_fuel ∧
      (parse_fuel io fuel lhs).lhs.cap ≤ lhs.cap ∧
      ((parse_fuel io fuel lhs).outcome = Outcome.returned → 1 ≤ lhs.cap)) ∧
    (∀ (lhs : istream) (rhs : json D) (ch : Char), 2 * lhs.cap + 2 ≤ fuel →
      (parse_list_loop io fuel lhs rhs ch).outcome ≠ Outcome.out_of_fuel ∧
      (parse_list_loop io fuel lhs rhs ch).lhs.cap ≤ lhs.cap) ∧
    (∀ (lhs : istream) (rhs : json D) (ch : Char), 2 * lhs.cap + 2 ≤ fuel →
      (parse_dictionary_loop io fuel lhs rhs ch).outcome ≠ Outcome.out_of_fuel ∧
      (parse_dictionary_loop io fuel lhs rhs ch).lhs.cap ≤ lhs.cap) := by
  intro fuel
  induction fuel with
  | zero =>
    refine ⟨?_, ?_, ?_⟩
    · intro lhs h; omega
    · intro lhs rhs ch h; omega
    · intro lhs rhs ch h; omega
  | succ f ih =>
    obtain ⟨ihP, ihL, ihD⟩ := ih
    refine ⟨?_, ?_, ?_⟩
    · intro lhs hfuel
      obtain ⟨g1, g2, g3⟩ := get_while_space_cap lhs
      cases hr : lhs.get_while_space with
      | mk lhs1 r =>
        rw [hr] at g1 g2 g3
        cases r with
        | none =>
          simp only [parse_fuel, hr]
          exact ⟨by simp, g1, by simp⟩
        | some ch =>
          have hpos : lhs1.cap + 1 ≤ lhs.cap := g3 ch rfl
          have hone : 1 ≤ lhs.cap := by omega
          simp only [parse_fuel, hr]
          split_ifs with c1 c2 c3 c4 c5 c6 c7 c8 c9 c10 <;> try dsimp only
          · obtain ⟨k1, k2⟩ := parse_keyword_bound lhs1 (json.ctor : json D) 4 "null".toList
              json.set_null Exception.InvalidNull
            exact ⟨k1, by omega, fun _ => hone⟩
          · obtain ⟨k1, k2⟩ := parse_keyword_bound lhs1 (json.ctor : json D) 4 "true".toList
              (fun r => r.set_bool true) Exception.InvalidBool
            exact ⟨k1, by omega, fun _ => hone⟩
          · obtain ⟨k1, k2⟩ := parse_keyword_bound lhs1 (json.ctor : json D) 5 "false".toList
              (fun r => r.set_bool false) Exception.InvalidBool
            exact ⟨k1, by omega, fun _ => hone⟩
          · have q1 := get_until_quote_cap lhs1
            have q2 := (get_while_space_cap (lhs1.get_until_quote).1).1
            exact ⟨by simp, by omega, fun _ => hone⟩
          · have q1 := extract_double_cap io (lhs1.putback ch)
            have q2 := putback_cap lhs1 ch
            exact ⟨by simp, by omega, fun _ => hone⟩
          · have q1 := extract_double_cap io (lhs1.putback ch)
            have q2 := putback_cap lhs1 ch
            exact ⟨by simp, by omega, fun _ => hone⟩
          · have q1 := get_while_space_putback_cap lhs1 ch
            obtain ⟨k1, k2⟩ := ihL (((lhs1.get_while_space).1).putback
              ((lhs1.get_while_space).2.getD ch)) ((json.ctor : json D).set_list)
              ((lhs1.get_while_space).2.getD ch) (by omega)
            exact ⟨k1, by omega, fun _ => hone⟩
          · have q1 := (get_while_space_cap lhs1).1
            exact ⟨by simp, by omega, fun _ => hone⟩
          · have q1 := get_while_space_putback_cap lhs1 ch
            obtain ⟨k1, k2⟩ := ihD (((lhs1.get_while_space).1).putback
              ((lhs1.get_while_space).2.getD ch)) ((json.ctor : json D).set_dictionary)
              ((lhs1.get_while_space).2.getD ch) (by omega)
            exact ⟨k1, by omega, fun _ => hone⟩
          · have q1 := (get_while_space_cap lhs1).1
            exact ⟨by simp, by omega, fun _ => hone⟩
          · exact ⟨by simp, by omega, fun _ => hone⟩
    · intro lhs rhs ch hfuel
      obtain ⟨p1, p2, p3⟩ := ihP lhs (by omega)
      cases ho : (parse_fuel io f lhs).outcome with
      | returned =>
        have hone := p3 ho
        obtain ⟨g1, g2, g3⟩ := get_while_space_cap (parse_fuel io f lhs).lhs
        have g4 := (get_while_space_cap ((parse_fuel io f lhs).lhs.get_while_space).1).1
        have hlow : ((parse_fuel io f lhs).lhs.get_while_space).1.cap + 1 ≤ lhs.cap := by
          cases hq : ((parse_fuel io f lhs).lhs.get_while_space).2 with
          | none => rw [cap_of_failbit _ (g2 hq)]; exact hone
          | some c => exact Nat.le_trans (g3 c hq) p2
        cases hpb : rhs.push_back (parse_fuel io f lhs).rhs with
        | error e =>
          simp only [parse_list_loop, ho, hpb]
          exact ⟨by simp, p2⟩
        | ok rhs1 =>
          simp only [parse_list_loop, ho, hpb]
          split_ifs with c1 c2 <;> try dsimp only
          · obtain ⟨k1, k2⟩ := ihL
              (((parse_fuel io f lhs).lhs.get_while_space).1.get_while_space).1 rhs1
              (((((parse_fuel io f lhs).lhs.get_while_space).1.get_while_space).2).getD
                ((((parse_fuel io f lhs).lhs.get_while_space).2).getD ch)) (by omega)
            exact ⟨k1, by omega⟩
          · exact ⟨by simp, by omega⟩
          · exact ⟨by simp, by omega⟩
      | thrown e =>
        simp only [parse_list_loop, ho]
        exact ⟨by simp, p2⟩
      | indeterminate =>
        simp only [parse_list_loop, ho]
        exact ⟨by simp, p2⟩
      | out_of_fuel => exact absurd ho p1
    · intro lhs rhs ch hfuel
      have e1 := extract_string_cap lhs
      have e2 := (get_while_space_cap (lhs.extract_string).1).1
      have e3 := (get_while_space_cap ((lhs.extract_string).1.get_while_space).1).1
      obtain ⟨p1, p2, p3⟩ := ihP
        ((((lhs.extract_string).1.get_while_space).1).get_while_space).1 (by omega)
      by_cases c0 : ((lhs.extract_string).1.get_while_space).2.getD ch = ':'
      · generalize hv : parse_fuel io f
          ((((lhs.extract_string).1.get_while_space).1).get_while_space).1 = value at p1 p2 p3
        cases ho : value.outcome with
        | returned =>
          have hone := p3 ho
          obtain ⟨g1, g2, g3⟩ := get_while_space_cap value.lhs
          have g4 := (get_while_space_cap (value.lhs.get_while_space).1).1
          have hlow : (value.lhs.get_while_space).1.cap + 1 ≤ lhs.cap := by
            cases hq : (value.lhs.get_while_space).2 with
            | none => rw [cap_of_failbit _ (g2 hq)]; omega
            | some c => have := g3 c hq; omega
          cases hpb : rhs.assign_index (lhs.extract_string).2 value.rhs with
          | error e =>
            simp only [parse_dictionary_loop, c0, if_true, hv, ho, hpb]
            exact ⟨by simp, by omega⟩
          | ok rhs1 =>
            simp only [parse_dictionary_loop, c0, if_true, hv, ho, hpb]
            split_ifs with c1 c2 <;> try dsimp only
            · obtain ⟨k1, k2⟩ := ihD ((value.lhs.get_while_space).1.get_while_space).1 rhs1
                ((((value.lhs.get_while_space).1.get_while_space).2).getD
                  (((value.lhs.get_while_space).2).getD
                    (((((lhs.extract_string).1.get_while_space).1).get_while_space).2.getD
                      ':'))) (by omega)
              exact ⟨k1, by omega⟩
            · exact ⟨by simp, by omega⟩
            · exact ⟨by simp, by omega⟩
        | thrown e =>
          simp only [parse_dictionary_loop, c0, if_true, hv, ho]
          exact ⟨by simp, by omega⟩
        | indeterminate =>
          simp only [parse_dictionary_loop, c0, if_true, hv, ho]
          exact ⟨by simp, by omega⟩
        | out_of_fuel => exact absurd ho p1
      · simp only [parse_dictionary_loop, c0, if_false]
        exact ⟨by simp, by omega⟩

/-- The bound `parse` gives to `parse_fuel` is never used up: the model of the parser ends
as the code does, by returning, by throwing, or at the read of the indeterminate `ch`. -/
theorem parse_outcome_ne_out_of_fuel [Zero D] (io : DoubleIO D) (t : List Char) :
    (parse io t).outcome ≠ Outcome.out_of_fuel :=
  ((parse_fuel_bound io (2 * t.length + 1)).1 (istream.of_text t)
    (by simp [istream.cap, istream.of_text])).1

end fuel_theorems

/-! ## The claims -/

section claims

variable {D : Type} [Zero D]

/-- C1 (round trip), evaluated on the default-constructed value: the serializer writes
`null` for it, and the parser run on that text throws `InvalidNull` instead of producing a
Null value, because the branch `n` reads four more characters after the `n` it has
already extracted.  The round trip `parse (format v) = v` fails for `v` Null. -/
theorem roundtrip_null_throws (io : DoubleIO D) :
    format io (json.ctor : json D) = "null".toList ∧
    (parse io (format io (json.ctor : json D))).outcome
      = Outcome.thrown Exception.InvalidNull := by
  constructor <;> rfl

/-- C2 (arrays of numbers), evaluated on `[1, 2, 3]`: the parse throws
`UnexpectedCharacter` with the destination holding the Array of the single Number 1,
because the whitespace loop after the comma extracts the `2` and does not put it back, so
the next element is parsed from `, 3]`.  The one-element text `[1]` is parsed to the Array
of the Number 1. -/
theorem parse_three_numbers_throws :
    (parse integer_io "[1, 2, 3]".toList).outcome
      = Outcome.thrown Exception.UnexpectedCharacter ∧
    (parse integer_io "[1, 2, 3]".toList).rhs
      = json.impl JsonType.List 0 false [] [json.impl JsonType.Number 1 false [] [] []] [] ∧
    (parse integer_io "[1, 2, 3]".toList).lhs.buf = " 3]".toList ∧
    (parse integer_io "[1]".toList).outcome = Outcome.returned ∧
    (parse integer_io "[1]".toList).rhs
      = json.impl JsonType.List 0 false [] [json.impl JsonType.Number 1 false [] [] []] [] := by
  refine ⟨?_, ?_, ?_, ?_, ?_⟩ <;> rfl

/-- C3 (keywords), evaluated on the three texts: parsing `null` throws `InvalidNull`, and
parsing `true` and `false` throws `InvalidBool`, since `lhs.read` asks for the whole word
after its first character is already extracted; the texts the parser does accept for the
three values are `nnull`, `ttrue` and `ffalse`. -/
theorem parse_keywords_throw (io : DoubleIO D) :
    (parse io "null".toList).outcome = Outcome.thrown Exception.InvalidNull ∧
    (parse io "true".toList).outcome = Outcome.thrown Exception.InvalidBool ∧
    (parse io "false".toList).outcome = Outcome.thrown Exception.InvalidBool ∧
    (parse io "nnull".toList).outcome = Outcome.returned ∧
    (parse io "nnull".toList).rhs.is_null = true ∧
    (parse io "ttrue".toList).outcome = Outcome.returned ∧
    (parse io "ttrue".toList).rhs.get_bool = Except.ok true ∧
    (parse io "ffalse".toList).outcome = Outcome.returned ∧
    (parse io "ffalse".toList).rhs.get_bool = Except.ok false := by
  refine ⟨?_, ?_, ?_, ?_, ?_, ?_, ?_, ?_, ?_⟩ <;> rfl

/-- C4 (one-entry objects), evaluated on `{k : 5}`: the parse throws
`UnexpectedCharacter` with the destination an empty Object, because the whitespace loop
after the colon extracts the `5` and does not put it back, so the value is parsed from
`}`.  On `{k : 55}` the parse returns the Object with the entry `k` of value Number 5. -/
theorem parse_object_entry_throws :
    (parse integer_io "\x7bk : 5\x7d".toList).outcome
      = Outcome.thrown Exception.UnexpectedCharacter ∧
    (parse integer_io "\x7bk : 5\x7d".toList).rhs
      = json.impl JsonType.Dict 0 false [] [] [] ∧
    (parse integer_io "\x7bk : 55\x7d".toList).outcome = Outcome.returned ∧
    (parse integer_io "\x7bk : 55\x7d".toList).rhs
      = json.impl JsonType.Dict 0 false [] []
          [("k".toList, json.impl JsonType.Number 5 false [] [] [])] := by
  refine ⟨?_, ?_, ?_, ?_⟩ <;> rfl

/-- C5 (serializer): for every value the text `operator<<` writes is the text of the
reference definition `format_spec` (Null `null`; Boolean `true` or `false`; Number the
library text; String the characters between quotes, unescaped; Array the element formats
joined by a comma and a space between brackets; Object the entries `"key": value` joined
the same way, in insertion order, between braces).  An empty Object on which `obj["x"]` is
assigned a Number `x` is written `{"x": ` followed by the text of `x` and `}`, which for
the Number 5 is `{"x": 5}`.  The serializer is a function of the value and returns only
the text, so the value is not modified. -/
theorem serializer_matches_reference (io : DoubleIO D) (v : json D) (x : D) :
    format io v = format_spec io v ∧
    format io ((json.ctor : json D).set_list) = "[]".toList ∧
    format io ((json.ctor : json D).set_dictionary) = "\x7b\x7d".toList ∧
    (∃ obj, (json.ctor : json D).set_dictionary.assign_index "x".toList
        ((json.ctor : json D).set_number x) = Except.ok obj ∧
      format io obj = "\x7b\"x\": ".toList ++ io.put x ++ "\x7d".toList) ∧
    (∃ obj, (json.ctor : json Int).set_dictionary.assign_index "x".toList
        ((json.ctor : json Int).set_number 5) = Except.ok obj ∧
      format integer_io obj = "\x7b\"x\": 5\x7d".toList) := by
  refine ⟨format_refines io v, rfl, rfl, ⟨_, rfl, ?_⟩, ⟨_, rfl, ?_⟩⟩
  · simp [format, format_dictionary, format_list, json.assign_ref, json.set_second,
      json.set_number, json.clear_data, json.ctor]
  · rfl

/-- C6 (type safety): of the six predicates exactly one is true on every value; each of
`get_number`, `get_bool`, `get_string` returns the stored member when its predicate is
true and throws `TypeMismatch` when it is false; after `set_number`, `set_bool`,
`set_string` the matching accessor returns the value just stored; `get_bool` on a
default-constructed value and `get_number` on a String value throw `TypeMismatch`. -/
theorem type_safety (v : json D) (x : D) (b : Bool) (s : List Char) :
    [v.is_null, v.is_bool, v.is_number, v.is_string, v.is_list, v.is_dictionary].count true = 1 ∧
    ((v.is_number = true ∧ v.get_number = Except.ok v.numberValue) ∨
      (v.is_number = false ∧ v.get_number = Except.error Exception.TypeMismatch)) ∧
    ((v.is_bool = true ∧ v.get_bool = Except.ok v.boolValue) ∨
      (v.is_bool = false ∧ v.get_bool = Except.error Exception.TypeMismatch)) ∧
    ((v.is_string = true ∧ v.get_string = Except.ok v.stringValue) ∨
      (v.is_string = false ∧ v.get_string = Except.error Exception.TypeMismatch)) ∧
    (v.set_number x).get_number = Except.ok x ∧
    (v.set_bool b).get_bool = Except.ok b ∧
    (v.set_string s).get_string = Except.ok s ∧
    (json.ctor : json D).get_bool = Except.error Exception.TypeMismatch ∧
    (v.set_string s).get_number = Except.error Exception.TypeMismatch := by
  cases v with
  | impl t n b0 s0 l d =>
    cases t <;>
      simp [json.is_null, json.is_bool, json.is_number, json.is_string, json.is_list,
        json.is_dictionary, json.type, json.get_number, json.get_bool, json.get_string,
        json.set_number, json.set_bool, json.set_string, json.clear_data, json.ctor,
        json.numberValue, json.boolValue, json.stringValue]

end claims

section container_claims

variable {D : Type}

/-- C7 (order of pushes): on a list value with element sequence `v.listValue`,
`push_back x` returns and makes the sequence `v.listValue ++ [x]`, `push_front x` returns
and makes it `x :: v.listValue`, the other members unchanged; on every `LinkedList` that
satisfies the representation invariant and holds that sequence, `LinkedList::push_back`
and `LinkedList::push_front` keep the invariant and produce these two sequences; after
`set_list` on any value and the calls `push_back` of `xs` in order, iterating from
`begin_list()` to `end_list()` yields exactly `xs`. -/
theorem push_back_push_front_order (v v0 x : json D) (xs : List (json D))
    (ll : LinkedList (json D)) (hv : v.is_list = true) (hw : ll.WF)
    (hrep : ll.to_list = v.listValue) :
    v.push_back x = Except.ok (json.impl v.type v.numberValue v.boolValue v.stringValue
      (v.listValue ++ [x]) v.dictValue) ∧
    v.push_front x = Except.ok (json.impl v.type v.numberValue v.boolValue v.stringValue
      (x :: v.listValue) v.dictValue) ∧
    (∃ l1, ll.push_back x = some l1 ∧ l1.WF ∧ l1.to_list = v.listValue ++ [x]) ∧
    ((ll.push_front x).WF ∧ (ll.push_front x).to_list = x :: v.listValue) ∧
    (∃ v2, xs.foldlM json.push_back v0.set_list = Except.ok v2 ∧
      v2.iterate_list = Except.ok xs) := by
  refine ⟨?_, ?_, ?_, ?_, ?_⟩
  · cases v with
    | impl t n b s l d =>
      simp only [json.is_list, json.type] at hv
      simp [json.push_back, json.is_list, json.type, hv, json.numberValue, json.boolValue,
        json.stringValue, json.listValue, json.dictValue]
  · cases v with
    | impl t n b s l d =>
      simp only [json.is_list, json.type] at hv
      simp [json.push_front, json.is_list, json.type, hv, json.numberValue, json.boolValue,
        json.stringValue, json.listValue, json.dictValue]
  · rw [← hrep]; exact LinkedList.push_back_refines ll x hw
  · rw [← hrep]; exact LinkedList.push_front_refines ll x hw
  · obtain ⟨n, b, s, d, h0⟩ := set_list_shape v0
    refine ⟨json.impl JsonType.List n b s ([] ++ xs) d, ?_, ?_⟩
    · rw [h0]; exact foldlM_push_back xs JsonType.List n b s [] d rfl
    · rw [iterate_list_of_list, List.nil_append]

/-- Witness of C7: an empty list value, the empty `LinkedList`, and two pushed values. -/
theorem push_back_push_front_order_witness :
    ((json.ctor : json Int).set_list).is_list = true ∧
    (LinkedList.ctor : LinkedList (json Int)).WF ∧
    (LinkedList.ctor : LinkedList (json Int)).to_list = ((json.ctor : json Int).set_list).listValue ∧
    (∃ v2, [(json.ctor : json Int).set_number 1, (json.ctor : json Int).set_number 2].foldlM
        json.push_back ((json.ctor : json Int).set_bool true).set_list = Except.ok v2 ∧
      v2.iterate_list
        = Except.ok [(json.ctor : json Int).set_number 1, (json.ctor : json Int).set_number 2]) :=
  ⟨rfl, wf_ctor, rfl,
    (push_back_push_front_order ((json.ctor : json Int).set_list)
      ((json.ctor : json Int).set_bool true) (json.ctor : json Int)
      [(json.ctor : json Int).set_number 1, (json.ctor : json Int).set_number 2]
      LinkedList.ctor rfl wf_ctor rfl).2.2.2.2⟩

/-- C8 (order of inserts): on a dictionary value with entry sequence `v.dictValue`,
`insert (k, x)` returns and makes the sequence `v.dictValue ++ [(k, x)]`, whether or not
an entry with key `k` is present, the earlier entries and the other members unchanged; on
every `LinkedList` that satisfies the representation invariant and holds that sequence,
`LinkedList::push_back` keeps the invariant and produces this sequence; after
`set_dictionary` on any value and the calls `insert` of `es` in order, iterating from
`begin_dictionary()` to `end_dictionary()` yields exactly `es`. -/
theorem insert_appends_in_order (v v0 x : json D) (k : List Char)
    (es : List (List Char × json D)) (ll : LinkedList (List Char × json D))
    (hv : v.is_dictionary = true) (hw : ll.WF) (hrep : ll.to_list = v.dictValue) :
    v.insert (k, x) = Except.ok (json.impl v.type v.numberValue v.boolValue v.stringValue
      v.listValue (v.dictValue ++ [(k, x)])) ∧
    (∃ l1, ll.push_back (k, x) = some l1 ∧ l1.WF ∧ l1.to_list = v.dictValue ++ [(k, x)]) ∧
    (∃ v2, es.foldlM json.insert v0.set_dictionary = Except.ok v2 ∧
      v2.iterate_dictionary = Except.ok es) := by
  refine ⟨?_, ?_, ?_⟩
  · cases v with
    | impl t n b s l d =>
      simp only [json.is_dictionary, json.type] at hv
      simp [json.insert, json.is_dictionary, json.type, hv, json.numberValue, json.boolValue,
        json.stringValue, json.listValue, json.dictValue]
  · rw [← hrep]; exact LinkedList.push_back_refines ll (k, x) hw
  · obtain ⟨n, b, s, l, h0⟩ := set_dictionary_shape v0
    refine ⟨json.impl JsonType.Dict n b s l ([] ++ es), ?_, ?_⟩
    · rw [h0]; exact foldlM_insert es JsonType.Dict n b s l [] rfl
    · rw [iterate_dictionary_of_dictionary, List.nil_append]

/-- Witness of C8: a dictionary value that already holds the key `a`, into which a second
entry with key `a` is inserted. -/
theorem insert_appends_in_order_witness :
    (json.impl JsonType.Dict (0 : Int) false [] [] [("a".toList, json.ctor)]).is_dictionary = true ∧
    (LinkedList.mk [⟨("a".toList, (json.ctor : json Int)), none⟩] (some 0) (some 0)).WF ∧
    (LinkedList.mk [⟨("a".toList, (json.ctor : json Int)), none⟩] (some 0) (some 0)).to_list
      = (json.impl JsonType.Dict (0 : Int) false [] [] [("a".toList, json.ctor)]).dictValue ∧
    (json.impl JsonType.Dict (0 : Int) false [] [] [("a".toList, json.ctor)]).insert
        ("a".toList, (json.ctor : json Int).set_number 7)
      = Except.ok (json.impl JsonType.Dict 0 false [] []
          [("a".toList, json.ctor), ("a".toList, (json.ctor : json Int).set_number 7)]) :=
  ⟨rfl,
    ⟨[0], LinkedList.Chain.node 0 ⟨("a".toList, json.ctor), none⟩ [] rfl LinkedList.Chain.null,
      List.nodup_singleton 0, rfl⟩,
    rfl,
    (insert_appends_in_order
      (json.impl JsonType.Dict (0 : Int) false [] [] [("a".toList, json.ctor)]) json.ctor
      ((json.ctor : json Int).set_number 7) "a".toList []
      (LinkedList.mk [⟨("a".toList, (json.ctor : json Int)), none⟩] (some 0) (some 0)) rfl
      ⟨[0], LinkedList.Chain.node 0 ⟨("a".toList, json.ctor), none⟩ [] rfl LinkedList.Chain.null,
        List.nodup_singleton 0, rfl⟩
      rfl).1⟩

/-- C9 (indexed read): on a dictionary value the read-only `operator[]` with key `k`
returns `x` exactly when `(k, x)` is the first entry, in insertion order, whose key is `k`
(entries before it have other keys, entries after it are not looked at), and throws
`KeyNotFound` exactly when no entry has key `k`.  The operator returns the value only; the
dictionary is not modified. -/
theorem indexed_read_first_match (v x : json D) (k : List Char)
    (hv : v.is_dictionary = true) :
    (v.operator_index_const k = Except.ok x ↔
      ∃ pre post, v.dictValue = pre ++ (k, x) :: post ∧ ∀ e ∈ pre, e.1 ≠ k) ∧
    (v.operator_index_const k = Except.error Exception.KeyNotFound ↔
      ∀ e ∈ v.dictValue, e.1 ≠ k) ∧
    ((∃ y, v.operator_index_const k = Except.ok y) ∨
      v.operator_index_const k = Except.error Exception.KeyNotFound) := by
  have hd : (!v.is_dictionary) = false := by rw [hv]; rfl
  refine ⟨⟨?_, ?_⟩, ⟨?_, ?_⟩, ?_⟩
  · intro h
    rw [json.operator_index_const, hd] at h
    cases hf : json.find_value k v.dictValue with
    | none => rw [hf] at h; simp at h
    | some y =>
      rw [hf] at h
      simp only [Bool.false_eq_true, if_false, Except.ok.injEq] at h
      subst h
      exact find_value_some k y v.dictValue hf
  · rintro ⟨pre, post, hdv, hpre⟩
    rw [json.operator_index_const, hd, hdv, find_value_first k x pre post hpre]
    rfl
  · intro h
    rw [json.operator_index_const, hd] at h
    cases hf : json.find_value k v.dictValue with
    | none => exact (find_value_none k v.dictValue).mp hf
    | some y => rw [hf] at h; simp at h
  · intro h
    rw [json.operator_index_const, hd, (find_value_none k v.dictValue).mpr h]
    rfl
  · rw [json.operator_index_const, hd]
    cases hf : json.find_value k v.dictValue with
    | none => right; rfl
    | some y => left; exact ⟨y, rfl⟩

/-- Witness of C9: a dictionary value with two entries of key `a`; the read returns the
value of the first. -/
theorem indexed_read_first_match_witness :
    (json.impl JsonType.Dict (0 : Int) false [] []
      [("b".toList, json.ctor), ("a".toList, (json.ctor : json Int).set_number 1),
        ("a".toList, (json.ctor : json Int).set_number 2)]).is_dictionary = true ∧
    (json.impl JsonType.Dict (0 : Int) false [] []
      [("b".toList, json.ctor), ("a".toList, (json.ctor : json Int).set_number 1),
        ("a".toList, (json.ctor : json Int).set_number 2)]).operator_index_const "a".toList
      = Except.ok ((json.ctor : json Int).set_number 1) :=
  ⟨rfl,
    (indexed_read_first_match
      (json.impl JsonType.Dict (0 : Int) false [] []
        [("b".toList, json.ctor), ("a".toList, (json.ctor : json Int).set_number 1),
          ("a".toList, (json.ctor : json Int).set_number 2)])
      ((json.ctor : json Int).set_number 1) "a".toList rfl).1.mpr
      ⟨[("b".toList, json.ctor)], [("a".toList, (json.ctor : json Int).set_number 2)], rfl,
        by
          intro e he
          rw [List.mem_singleton] at he
          rw [he]
          decide⟩⟩

end container_claims

/-! ## Indexed write, mutators and kind errors -/

section mutator_claims

variable {D : Type}

theorem find_position_first (key : List Char) (y : json D) :
    ∀ (pre post : List (List Char × json D)), (∀ e ∈ pre, e.1 ≠ key) →
      json.find_position key (pre ++ (key, y) :: post) = some pre.length := by
  intro pre
  induction pre with
  | nil => intro post _; simp [json.find_position]
  | cons e pre ih =>
    intro post h
    obtain ⟨k, z⟩ := e
    have hk : k ≠ key := h (k, z) (List.mem_cons_self _ _)
    have e1 : json.find_position key ((k, z) :: pre ++ (key, y) :: post)
        = match json.find_position key (pre ++ (key, y) :: post) with
          | some i => some (i + 1)
          | none => none := by
      show json.find_position key ((k, z) :: (pre ++ (key, y) :: post)) = _
      rw [json.find_position, if_neg hk]
    rw [e1, ih post (fun e he => h e (List.mem_cons_of_mem _ he))]
    rfl

theorem set_second_first (x y : json D) (key : List Char) :
    ∀ (pre post : List (List Char × json D)),
      json.set_second x (pre ++ (key, y) :: post) pre.length = pre ++ (key, x) :: post := by
  intro pre
  induction pre with
  | nil => intro post; rfl
  | cons e pre ih =>
    intro post
    obtain ⟨k, z⟩ := e
    have e1 : json.set_second x ((k, z) :: pre ++ (key, y) :: post) ((k, z) :: pre).length
        = (k, z) :: json.set_second x (pre ++ (key, y) :: post) pre.length := rfl
    rw [e1, ih]
    rfl

theorem first_entry_split (key : List Char) (d : List (List Char × json D))
    (h : ∃ e ∈ d, e.1 = key) :
    ∃ pre y post, d = pre ++ (key, y) :: post ∧ ∀ e ∈ pre, e.1 ≠ key := by
  cases hf : json.find_value key d with
  | none =>
    obtain ⟨e, he, hk⟩ := h
    exact absurd hk ((find_value_none key d).mp hf e he)
  | some y =>
    obtain ⟨pre, post, hd, hpre⟩ := find_value_some key y d hf
    exact ⟨pre, y, post, hd, hpre⟩

end mutator_claims

section kind_claims

variable {D : Type} [Zero D]

/-- C13 (wrong-kind errors): `push_front`, `push_back`, `begin_list` and `end_list` throw
`NotAList` exactly when the value is not a list; `insert`, the read-only and the mutable
`operator[]`, `begin_dictionary` and `end_dictionary` throw `NotADictionary` exactly when
the value is not a dictionary.  In each of them the test of the kind is the first
statement, so the throw happens before any member is written: the value is as before. -/
theorem wrong_kind_errors (v x : json D) (k : List Char) :
    (v.push_front x = Except.error Exception.NotAList ↔ v.is_list = false) ∧
    (v.push_back x = Except.error Exception.NotAList ↔ v.is_list = false) ∧
    (v.begin_list = Except.error Exception.NotAList ↔ v.is_list = false) ∧
    (v.end_list = Except.error Exception.NotAList ↔ v.is_list = false) ∧
    (v.insert (k, x) = Except.error Exception.NotADictionary ↔ v.is_dictionary = false) ∧
    (v.operator_index_const k = Except.error Exception.NotADictionary ↔
      v.is_dictionary = false) ∧
    (v.operator_index k = Except.error Exception.NotADictionary ↔ v.is_dictionary = false) ∧
    (v.begin_dictionary = Except.error Exception.NotADictionary ↔ v.is_dictionary = false) ∧
    (v.end_dictionary = Except.error Exception.NotADictionary ↔ v.is_dictionary = false) := by
  cases v with
  | impl t n b s l d =>
    refine ⟨?_, ?_, ?_, ?_, ?_, ?_, ?_, ?_, ?_⟩
    · cases t <;> simp [json.push_front, json.is_list, json.type]
    · cases t <;> simp [json.push_back, json.is_list, json.type]
    · cases t <;> simp [json.begin_list, json.is_list, json.type]
    · cases t <;> simp [json.end_list, json.is_list, json.type]
    · cases t <;> simp [json.insert, json.is_dictionary, json.type]
    · cases t <;> simp [json.operator_index_const, json.is_dictionary, json.type]
      cases json.find_value k (json.dictValue (json.impl JsonType.Dict n b s l d)) <;> simp
    · cases t <;> simp [json.operator_index, json.is_dictionary, json.type]
      cases json.find_position k (json.dictValue (json.impl JsonType.Dict n b s l d)) with
      | some i => simp
      | none => simp [back_position_concat]
    · cases t <;> simp [json.begin_dictionary, json.is_dictionary, json.type]
    · cases t <;> simp [json.end_dictionary, json.is_dictionary, json.type]

end kind_claims

/-! ## The result of the parser does not depend on the bound -/

section fuel_independence

variable {D : Type} [Zero D]

/-- The dispatch of `operator>>` on the character `ch` stored by the first whitespace
loop, as a function of the stream after that loop. -/
theorem parse_fuel_succ (io : DoubleIO D) (fuel : Nat) (lhs : istream) :
    parse_fuel io (fuel + 1) lhs =
      match lhs.get_while_space with
      | (lhs1, none) => ⟨lhs1, json.ctor, Outcome.indeterminate⟩
      | (lhs1, some ch) =>
        if ch = 'n' then
          parse_keyword lhs1 json.ctor 4 "null".toList json.set_null Exception.InvalidNull
        else if ch = 't' then
          parse_keyword lhs1 json.ctor 4 "true".toList (fun r => r.set_bool true)
            Exception.InvalidBool
        else if ch = 'f' then
          parse_keyword lhs1 json.ctor 5 "false".toList (fun r => r.set_bool false)
            Exception.InvalidBool
        else if ch = '"' then
          ⟨((lhs1.get_until_quote).1.get_while_space).1,
            (json.ctor : json D).set_string (lhs1.get_until_quote).2, Outcome.returned⟩
        else if isdigit ch || ch = '-' then
          if ((lhs1.putback ch).extract_double io).1.fail then
            ⟨((lhs1.putback ch).extract_double io).1, json.ctor,
              Outcome.thrown Exception.InvalidNumber⟩
          else
            ⟨((lhs1.putback ch).extract_double io).1,
              (json.ctor : json D).set_number ((lhs1.putback ch).extract_double io).2,
              Outcome.returned⟩
        else if ch = '[' then
          if (lhs1.get_while_space).2.getD ch ≠ ']' then
            parse_list_loop io fuel
              ((lhs1.get_while_space).1.putback ((lhs1.get_while_space).2.getD ch))
              (json.ctor : json D).set_list ((lhs1.get_while_space).2.getD ch)
          else ⟨(lhs1.get_while_space).1, (json.ctor : json D).set_list, Outcome.returned⟩
        else if ch = '{' then
          if (lhs1.get_while_space).2.getD ch ≠ '}' then
            parse_dictionary_loop io fuel
              ((lhs1.get_while_space).1.putback ((lhs1.get_while_space).2.getD ch))
              (json.ctor : json D).set_dictionary ((lhs1.get_while_space).2.getD ch)
          else
            ⟨(lhs1.get_while_space).1, (json.ctor : json D).set_dictionary, Outcome.returned⟩
        else ⟨lhs1, json.ctor, Outcome.thrown Exception.UnexpectedCharacter⟩ := by
  simp only [parse_fuel]

/-- One round of the loop of the list branch. -/
theorem parse_list_loop_succ (io : DoubleIO D) (fuel : Nat) (lhs : istream) (rhs : json D)
    (ch : Char) :
    parse_list_loop io (fuel + 1) lhs rhs ch =
      match (parse_fuel io fuel lhs).outcome with
      | Outcome.returned =>
        match rhs.push_back (parse_fuel io fuel lhs).rhs with
        | Except.error e => ⟨(parse_fuel io fuel lhs).lhs, rhs, Outcome.thrown e⟩
        | Except.ok rhs1 =>
          if ((parse_fuel io fuel lhs).lhs.get_while_space).2.getD ch = ',' then
            parse_list_loop io fuel
              (((parse_fuel io fuel lhs).lhs.get_while_space).1.get_while_space).1 rhs1
              ((((parse_fuel io fuel lhs).lhs.get_while_space).1.get_while_space).2.getD
                (((parse_fuel io fuel lhs).lhs.get_while_space).2.getD ch))
          else if ((parse_fuel io fuel lhs).lhs.get_while_space).2.getD ch = ']' then
            ⟨((parse_fuel io fuel lhs).lhs.get_while_space).1, rhs1, Outcome.returned⟩
          else
            ⟨((parse_fuel io fuel lhs).lhs.get_while_space).1, rhs1,
              Outcome.thrown Exception.InvalidArray⟩
      | o => ⟨(parse_fuel io fuel lhs).lhs, rhs, o⟩ := by
  simp only [parse_list_loop]

/-- One round of the loop of the dictionary branch. -/
theorem parse_dictionary_loop_succ (io : DoubleIO D) (fuel : Nat) (lhs : istream)
    (rhs : json D) (ch : Char) :
    parse_dictionary_loop io (fuel + 1) lhs rhs ch =
      if ((lhs.extract_string).1.get_while_space).2.getD ch = ':' then
        match (parse_fuel io fuel
          (((lhs.extract_string).1.get_while_space).1.get_while_space).1).outcome with
        | Outcome.returned =>
          match rhs.assign_index (lhs.extract_string).2 (parse_fuel io fuel
            (((lhs.extract_string).1.get_while_space).1.get_while_space).1).rhs with
          | Except.error e =>
            ⟨(parse_fuel io fuel
              (((lhs.extract_string).1.get_while_space).1.get_while_space).1).lhs, rhs,
              Outcome.thrown e⟩
          | Except.ok rhs1 =>
            if ((parse_fuel io fuel
                (((lhs.extract_string).1.get_while_space).1.get_while_space).1).lhs.get_while_space).2.getD
                ((((lhs.extract_string).1.get_while_space).1.get_while_space).2.getD
                  (((lhs.extract_string).1.get_while_space).2.getD ch)) = ',' then
              parse_dictionary_loop io fuel
                (((parse_fuel io fuel
                  (((lhs.extract_string).1.get_while_space).1.get_while_space).1).lhs.get_while_space).1.get_while_space).1
                rhs1
                ((((parse_fuel io fuel
                  (((lhs.extract_string).1.get_while_space).1.get_while_space).1).lhs.get_while_space).1.get_while_space).2.getD
                  (((parse_fuel io fuel
                    (((lhs.extract_string).1.get_while_space).1.get_while_space).1).lhs.get_while_space).2.getD
                    ((((lhs.extract_string).1.get_while_space).1.get_while_space).2.getD
                      (((lhs.extract_string).1.get_while_space).2.getD ch))))
            else if ((parse_fuel io fuel
                (((lhs.extract_string).1.get_while_space).1.get_while_space).1).lhs.get_while_space).2.getD
                ((((lhs.extract_string).1.get_while_space).1.get_while_space).2.getD
                  (((lhs.extract_string).1.get_while_space).2.getD ch)) = '}' then
              ⟨((parse_fuel io fuel
                (((lhs.extract_string).1.get_while_space).1.get_while_space).1).lhs.get_while_space).1,
                rhs1, Outcome.returned⟩
            else
              ⟨((parse_fuel io fuel
                (((lhs.extract_string).1.get_while_space).1.get_while_space).1).lhs.get_while_space).1,
                rhs1, Outcome.thrown Exception.InvalidObject⟩
        | o =>
          ⟨(parse_fuel io fuel
            (((lhs.extract_string).1.get_while_space).1.get_while_space).1).lhs, rhs, o⟩
      else ⟨((lhs.extract_string).1.get_while_space).1, rhs,
        Outcome.thrown Exception.InvalidObject⟩ := by
  simp only [parse_dictionary_loop]

/-- The parser on a stream whose first character after whitespace is `[`. -/
theorem parse_fuel_bracket (io : DoubleIO D) (fuel : Nat) (lhs lhs1 : istream)
    (h : lhs.get_while_space = (lhs1, some '[')) :
    parse_fuel io (fuel + 1) lhs =
      if (lhs1.get_while_space).2.getD '[' ≠ ']' then
        parse_list_loop io fuel
          ((lhs1.get_while_space).1.putback ((lhs1.get_while_space).2.getD '['))
          (json.ctor : json D).set_list ((lhs1.get_while_space).2.getD '[')
      else ⟨(lhs1.get_while_space).1, (json.ctor : json D).set_list, Outcome.returned⟩ := by
  rw [parse_fuel_succ, h]
  simp only [show ¬ ('[' = 'n') by decide, show ¬ ('[' = 't') by decide,
    show ¬ ('[' = 'f') by decide, show ¬ ('[' = '"') by decide,
    show ¬ ((isdigit '[' || decide ('[' = '-')) = true) by decide, if_false, if_true,
    Bool.false_eq_true]

/-- The parser on a stream whose first character after whitespace is `{`. -/
theorem parse_fuel_brace (io : DoubleIO D) (fuel : Nat) (lhs lhs1 : istream)
    (h : lhs.get_while_space = (lhs1, some '{')) :
    parse_fuel io (fuel + 1) lhs =
      if (lhs1.get_while_space).2.getD '{' ≠ '}' then
        parse_dictionary_loop io fuel
          ((lhs1.get_while_space).1.putback ((lhs1.get_while_space).2.getD '{'))
          (json.ctor : json D).set_dictionary ((lhs1.get_while_space).2.getD '{')
      else
        ⟨(lhs1.get_while_space).1, (json.ctor : json D).set_dictionary, Outcome.returned⟩ := by
  rw [parse_fuel_succ, h]
  simp only [show ¬ ('{' = 'n') by decide, show ¬ ('{' = 't') by decide,
    show ¬ ('{' = 'f') by decide, show ¬ ('{' = '"') by decide, show ¬ ('{' = '[') by decide,
    show ¬ ((isdigit '{' || decide ('{' = '-')) = true) by decide, if_false, if_true,
    Bool.false_eq_true]

/-- The parser on a stream whose first character after whitespace opens neither a list nor
a dictionary: the result does not depend on the bound. -/
theorem parse_fuel_scalar (io : DoubleIO D) (fuel fuel1 : Nat) (lhs lhs1 : istream)
    (r : Option Char) (h : lhs.get_while_space = (lhs1, r))
    (hb : r ≠ some '[') (hc : r ≠ some '{') :
    parse_fuel io (fuel + 1) lhs = parse_fuel io (fuel1 + 1) lhs := by
  rw [parse_fuel_succ, parse_fuel_succ, h]
  cases r with
  | none => simp only
  | some ch =>
    have hb1 : ¬ ch = '[' := fun e => hb (by rw [e])
    have hc1 : ¬ ch = '{' := fun e => hc (by rw [e])
    simp only [hb1, hc1, if_false]

theorem parse_fuel_step (io : DoubleIO D) : ∀ fuel : Nat,
    (∀ lhs : istream, (parse_fuel io fuel lhs).outcome ≠ Outcome.out_of_fuel →
      parse_fuel io (fuel + 1) lhs = parse_fuel io fuel lhs) ∧
    (∀ (lhs : istream) (rhs : json D) (ch : Char),
      (parse_list_loop io fuel lhs rhs ch).outcome ≠ Outcome.out_of_fuel →
      parse_list_loop io (fuel + 1) lhs rhs ch = parse_list_loop io fuel lhs rhs ch) ∧
    (∀ (lhs : istream) (rhs : json D) (ch : Char),
      (parse_dictionary_loop io fuel lhs rhs ch).outcome ≠ Outcome.out_of_fuel →
      parse_dictionary_loop io (fuel + 1) lhs rhs ch
        = parse_dictionary_loop io fuel lhs rhs ch) := by
  intro fuel
  induction fuel with
  | zero =>
    refine ⟨?_, ?_, ?_⟩
    · intro lhs h; exact absurd (by simp only [parse_fuel]) h
    · intro lhs rhs ch h; exact absurd (by simp only [parse_list_loop]) h
    · intro lhs rhs ch h; exact absurd (by simp only [parse_dictionary_loop]) h
  | succ f ih =>
    obtain ⟨ihP, ihL, ihD⟩ := ih
    refine ⟨?_, ?_, ?_⟩
    · intro lhs h
      cases hr : lhs.get_while_space with
      | mk lhs1 r =>
        by_cases hb : r = some '['
        · rw [hb] at hr
          rw [parse_fuel_bracket io f lhs lhs1 hr] at h
          rw [parse_fuel_bracket io (f + 1) lhs lhs1 hr, parse_fuel_bracket io f lhs lhs1 hr]
          by_cases c1 : (lhs1.get_while_space).2.getD '[' ≠ ']'
          · rw [if_pos c1] at h
            rw [if_pos c1, if_pos c1]
            exact ihL _ _ _ h
          · rw [if_neg c1, if_neg c1]
        · by_cases hc : r = some '{'
          · rw [hc] at hr
            rw [parse_fuel_brace io f lhs lhs1 hr] at h
            rw [parse_fuel_brace io (f + 1) lhs lhs1 hr, parse_fuel_brace io f lhs lhs1 hr]
            by_cases c1 : (lhs1.get_while_space).2.getD '{' ≠ '}'
            · rw [if_pos c1] at h
              rw [if_pos c1, if_pos c1]
              exact ihD _ _ _ h
            · rw [if_neg c1, if_neg c1]
          · exact parse_fuel_scalar io (f + 1) f lhs lhs1 r hr hb hc
    · intro lhs rhs ch h
      rw [parse_list_loop_succ io f lhs rhs ch] at h
      rw [parse_list_loop_succ io (f + 1) lhs rhs ch, parse_list_loop_succ io f lhs rhs ch]
      have hitem : (parse_fuel io f lhs).outcome ≠ Outcome.out_of_fuel := by
        intro ho
        rw [ho] at h
        exact h rfl
      rw [ihP lhs hitem]
      cases ho : (parse_fuel io f lhs).outcome with
      | returned =>
        rw [ho] at h
        simp only at h ⊢
        cases hpb : rhs.push_back (parse_fuel io f lhs).rhs with
        | error e => simp only
        | ok rhs1 =>
          rw [hpb] at h
          simp only at h ⊢
          split_ifs at h ⊢ with c1 c2
          · exact ihL _ _ _ h
          · rfl
          · rfl
      | thrown e => simp only
      | indeterminate => simp only
      | out_of_fuel => exact absurd ho hitem
    · intro lhs rhs ch h
      rw [parse_dictionary_loop_succ io f lhs rhs ch] at h
      rw [parse_dictionary_loop_succ io (f + 1) lhs rhs ch,
        parse_dictionary_loop_succ io f lhs rhs ch]
      by_cases c0 : ((lhs.extract_string).1.get_while_space).2.getD ch = ':'
      · rw [if_pos c0] at h
        rw [if_pos c0, if_pos c0]
        generalize (((lhs.extract_string).1.get_while_space).1.get_while_space).1 = lhs2 at h ⊢
        generalize ((((lhs.extract_string).1.get_while_space).1.get_while_space).2.getD
          (((lhs.extract_string).1.get_while_space).2.getD ch)) = ch2 at h ⊢
        have hitem : (parse_fuel io f lhs2).outcome ≠ Outcome.out_of_fuel := by
          intro ho
          rw [ho] at h
          exact h rfl
        rw [ihP lhs2 hitem]
        cases ho : (parse_fuel io f lhs2).outcome with
        | returned =>
          rw [ho] at h
          simp only at h ⊢
          cases hpb : rhs.assign_index (lhs.extract_string).2 (parse_fuel io f lhs2).rhs with
          | error e => simp only
          | ok rhs1 =>
            rw [hpb] at h
            simp only at h ⊢
            split_ifs at h ⊢ with c1 c2
            · exact ihD _ _ _ h
            · rfl
            · rfl
        | thrown e => simp only
        | indeterminate => simp only
        | out_of_fuel => exact absurd ho hitem
      · rw [if_neg c0, if_neg c0]

/-- Above the bound `2 * lhs.cap + 1` the result of the parser is the same for every
amount of fuel. -/
theorem parse_fuel_stable (io : DoubleIO D) (lhs : istream) (f : Nat)
    (hf : 2 * lhs.cap + 1 ≤ f) : ∀ k : Nat, parse_fuel io (f + k) lhs = parse_fuel io f lhs := by
  intro k
  induction k with
  | zero => rfl
  | succ k ih =>
    have hb := ((parse_fuel_bound io (f + k)).1 lhs (by omega)).1
    rw [← Nat.add_assoc, (parse_fuel_step io (f + k)).1 lhs hb, ih]

end fuel_independence

/-! ## The first whitespace loop and the dispatch -/

section dispatch_theorems

variable {D : Type} [Zero D]

theorem get_while_space_buf_skip (w : List Char) (c : Char) (rest : List Char)
    (hw : ∀ x ∈ w, isspace x = true) (hc : isspace c = false) : ∀ last : Option Char,
    istream.get_while_space_buf (w ++ c :: rest) last = (⟨rest, false, false⟩, some c) := by
  induction w with
  | nil =>
    intro last
    simp only [List.nil_append, istream.get_while_space_buf, hc, Bool.false_eq_true, if_false]
  | cons a w ih =>
    intro last
    have ha : isspace a = true := hw a (List.mem_cons_self _ _)
    simp only [List.cons_append, istream.get_while_space_buf, ha, if_true]
    exact ih (fun x hx => hw x (List.mem_cons_of_mem _ hx)) (some a)

/-- The first whitespace loop on a text that has a character `c` that is not whitespace
after the whitespace `w`: the loop stores `c` and leaves the stream right after it. -/
theorem get_while_space_skip (w : List Char) (c : Char) (rest : List Char)
    (hw : ∀ x ∈ w, isspace x = true) (hc : isspace c = false) :
    (istream.of_text (w ++ c :: rest)).get_while_space = (⟨rest, false, false⟩, some c) :=
  get_while_space_buf_skip w c rest hw hc none

theorem get_while_space_buf_nonempty (s : List Char) (hs : s ≠ []) :
    ∃ y, (istream.get_while_space_buf s none).2 = some y := by
  cases s with
  | nil => exact absurd rfl hs
  | cons a rest =>
    by_cases ha : isspace a = true
    · simp only [istream.get_while_space_buf, ha, if_true]
      exact get_while_space_buf_some rest a
    · simp only [istream.get_while_space_buf, ha]
      exact ⟨a, rfl⟩

/-- Whitespace before a non-empty text does not change what the first whitespace loop
stores and leaves. -/
theorem get_while_space_leading (w s : List Char) (hw : ∀ x ∈ w, isspace x = true)
    (hs : s ≠ []) :
    (istream.of_text (w ++ s)).get_while_space = (istream.of_text s).get_while_space := by
  show istream.get_while_space_buf (w ++ s) none = istream.get_while_space_buf s none
  induction w with
  | nil => rfl
  | cons a w ih =>
    have ha : isspace a = true := hw a (List.mem_cons_self _ _)
    have ih1 := ih (fun x hx => hw x (List.mem_cons_of_mem _ hx))
    obtain ⟨y, hy⟩ := get_while_space_buf_nonempty s hs
    have e1 : istream.get_while_space_buf (a :: w ++ s) none
        = istream.get_while_space_buf (w ++ s) (some a) := by
      show istream.get_while_space_buf (a :: (w ++ s)) none = _
      rw [istream.get_while_space_buf, if_pos ha]
    rw [e1, get_while_space_buf_last, ih1]
    exact Prod.ext rfl (by simp [hy])

/-- The parser depends on the stream only through the result of its first whitespace
loop. -/
theorem parse_fuel_congr (io : DoubleIO D) (fuel : Nat) (lhs lhs0 : istream)
    (h : lhs.get_while_space = lhs0.get_while_space) :
    parse_fuel io (fuel + 1) lhs = parse_fuel io (fuel + 1) lhs0 := by
  rw [parse_fuel_succ, parse_fuel_succ, h]

/-- Whitespace before a non-empty text does not change the result of the parser. -/
theorem parse_leading_space (io : DoubleIO D) (w s : List Char)
    (hw : ∀ x ∈ w, isspace x = true) (hs : s ≠ []) :
    parse io (w ++ s) = parse io s := by
  have h1 : parse io (w ++ s)
      = parse_fuel io (2 * (w ++ s).length + 1) (istream.of_text s) :=
    parse_fuel_congr io _ _ _ (get_while_space_leading w s hw hs)
  have h2 := parse_fuel_stable io (istream.of_text s) (2 * s.length + 1)
    (by simp [istream.cap, istream.of_text]) (2 * w.length)
  have h3 : 2 * s.length + 1 + 2 * w.length = 2 * (w ++ s).length + 1 := by
    rw [List.length_append]; omega
  rw [h1, ← h3, h2]
  rfl

/-- The parser on a stream whose first character after whitespace is the quote. -/
theorem parse_fuel_quote (io : DoubleIO D) (fuel : Nat) (lhs lhs1 : istream)
    (h : lhs.get_while_space = (lhs1, some '"')) :
    parse_fuel io (fuel + 1) lhs =
      ⟨((lhs1.get_until_quote).1.get_while_space).1,
        (json.ctor : json D).set_string (lhs1.get_until_quote).2, Outcome.returned⟩ := by
  rw [parse_fuel_succ, h]
  simp only [show ¬ ('"' = 'n') by decide, show ¬ ('"' = 't') by decide,
    show ¬ ('"' = 'f') by decide, if_false, if_true]

/-- The parser on a stream whose first character after whitespace is `n`. -/
theorem parse_fuel_n (io : DoubleIO D) (fuel : Nat) (lhs lhs1 : istream)
    (h : lhs.get_while_space = (lhs1, some 'n')) :
    parse_fuel io (fuel + 1) lhs =
      parse_keyword lhs1 json.ctor 4 "null".toList json.set_null Exception.InvalidNull := by
  rw [parse_fuel_succ, h]
  simp only [if_true]

/-- The parser on a stream whose first character after whitespace is `t`. -/
theorem parse_fuel_t (io : DoubleIO D) (fuel : Nat) (lhs lhs1 : istream)
    (h : lhs.get_while_space = (lhs1, some 't')) :
    parse_fuel io (fuel + 1) lhs =
      parse_keyword lhs1 json.ctor 4 "true".toList (fun r => r.set_bool true)
        Exception.InvalidBool := by
  rw [parse_fuel_succ, h]
  simp only [show ¬ ('t' = 'n') by decide, if_false, if_true]

/-- The parser on a stream whose first character after whitespace is `f`. -/
theorem parse_fuel_f (io : DoubleIO D) (fuel : Nat) (lhs lhs1 : istream)
    (h : lhs.get_while_space = (lhs1, some 'f')) :
    parse_fuel io (fuel + 1) lhs =
      parse_keyword lhs1 json.ctor 5 "false".toList (fun r => r.set_bool false)
        Exception.InvalidBool := by
  rw [parse_fuel_succ, h]
  simp only [show ¬ ('f' = 'n') by decide, show ¬ ('f' = 't') by decide, if_false, if_true]

/-- The parser on a stream whose first character after whitespace starts no value. -/
theorem parse_fuel_other (io : DoubleIO D) (fuel : Nat) (lhs lhs1 : istream) (ch : Char)
    (h : lhs.get_while_space = (lhs1, some ch))
    (h1 : ch ≠ 'n') (h2 : ch ≠ 't') (h3 : ch ≠ 'f') (h4 : ch ≠ '"')
    (h5 : isdigit ch = false) (h6 : ch ≠ '-') (h7 : ch ≠ '[') (h8 : ch ≠ '{') :
    parse_fuel io (fuel + 1) lhs
      = ⟨lhs1, json.ctor, Outcome.thrown Exception.UnexpectedCharacter⟩ := by
  rw [parse_fuel_succ, h]
  simp only [h1, h2, h3, h4, h5, h6, h7, h8, if_false, Bool.false_or, decide_False,
    Bool.false_eq_true]

end dispatch_theorems

section keyword_theorems

variable {D : Type}

/-- The keyword branches: the word is accepted exactly when the `k` characters after the
dispatch character are the whole word `word`. -/
theorem parse_keyword_text (rest word : List Char) (k : Nat) (rhs : json D)
    (set : json D → json D) (e : Exception) (hk : word.length = k) :
    parse_keyword (⟨rest, false, false⟩ : istream) rhs k word set e =
      if rest.take k = word then
        ⟨((⟨rest.drop k, false, false⟩ : istream).get_while_space).1, set rhs, Outcome.returned⟩
      else
        ⟨(if k ≤ rest.length then ⟨rest.drop k, false, false⟩ else ⟨[], true, true⟩), rhs,
          Outcome.thrown e⟩ := by
  by_cases hlen : k ≤ rest.length
  · simp only [parse_keyword, istream.read, istream.good, Bool.not_false, Bool.and_self,
      if_true, hlen]
  · have hne : rest.take k ≠ word := by
      intro he
      have := congrArg List.length he
      rw [List.length_take, hk] at this
      omega
    simp only [parse_keyword, istream.read, istream.good, Bool.not_false, Bool.and_self,
      if_true, hlen, if_false, hne]

theorem get_until_quote_buf_closing (s rest : List Char) (hs : '"' ∉ s) :
    istream.get_until_quote_buf (s ++ '"' :: rest) = (⟨rest, false, false⟩, s) := by
  induction s with
  | nil => simp [istream.get_until_quote_buf]
  | cons a s ih =>
    have ha : a ≠ '"' := fun e => hs (by rw [e]; exact List.mem_cons_self _ _)
    have ih1 := ih (fun hm => hs (List.mem_cons_of_mem _ hm))
    have e1 : istream.get_until_quote_buf (a :: s ++ '"' :: rest)
        = ((istream.get_until_quote_buf (s ++ '"' :: rest)).1,
            a :: (istream.get_until_quote_buf (s ++ '"' :: rest)).2) := by
      show istream.get_until_quote_buf (a :: (s ++ '"' :: rest)) = _
      rw [istream.get_until_quote_buf, if_neg ha]
    rw [e1, ih1]

end keyword_theorems

/-! ## The claims on the parser -/

section parser_claims

variable {D : Type} [Zero D]

/-- C14 (malformed keywords), evaluated on `ttrue`: the first character that is not
whitespace is `t` and the text does not go on as the literal `true`, yet the parse returns
the Boolean true instead of throwing `InvalidBool`; likewise `nnull` and `ffalse` are
accepted.  On every text that starts with `t` the parse returns exactly when the four
characters after the `t` are `true` and throws `InvalidBool` otherwise, with `false` after
`f` and `null` after `n` (`InvalidNull`) in the same way; so `tru` throws `InvalidBool`. -/
theorem keyword_after_dispatch (io : DoubleIO D) (rest : List Char) :
    (parse io "ttrue".toList).outcome = Outcome.returned ∧
    (parse io "ttrue".toList).rhs.get_bool = Except.ok true ∧
    (parse io "tru".toList).outcome = Outcome.thrown Exception.InvalidBool ∧
    (parse io ('t' :: rest)).outcome
      = (if rest.take 4 = "true".toList then Outcome.returned
          else Outcome.thrown Exception.InvalidBool) ∧
    (parse io ('f' :: rest)).outcome
      = (if rest.take 5 = "false".toList then Outcome.returned
          else Outcome.thrown Exception.InvalidBool) ∧
    (parse io ('n' :: rest)).outcome
      = (if rest.take 4 = "null".toList then Outcome.returned
          else Outcome.thrown Exception.InvalidNull) := by
  refine ⟨rfl, rfl, rfl, ?_, ?_, ?_⟩
  · have h : (istream.of_text ('t' :: rest)).get_while_space
        = (⟨rest, false, false⟩, some 't') :=
      get_while_space_skip [] 't' rest (fun x hx => absurd hx (List.not_mem_nil x)) (by decide)
    rw [parse, parse_fuel_t io _ _ _ h, parse_keyword_text rest "true".toList 4 _ _ _ rfl]
    split_ifs <;> rfl
  · have h : (istream.of_text ('f' :: rest)).get_while_space
        = (⟨rest, false, false⟩, some 'f') :=
      get_while_space_skip [] 'f' rest (fun x hx => absurd hx (List.not_mem_nil x)) (by decide)
    rw [parse, parse_fuel_f io _ _ _ h, parse_keyword_text rest "false".toList 5 _ _ _ rfl]
    split_ifs <;> rfl
  · have h : (istream.of_text ('n' :: rest)).get_while_space
        = (⟨rest, false, false⟩, some 'n') :=
      get_while_space_skip [] 'n' rest (fun x hx => absurd hx (List.not_mem_nil x)) (by decide)
    rw [parse, parse_fuel_n io _ _ _ h, parse_keyword_text rest "null".toList 4 _ _ _ rfl]
    split_ifs <;> rfl

/-- C15 (empty composites): for all runs of whitespace `w0` and `w`, the parse of `w0`,
`[`, `w`, `]` returns with the destination an Array without elements, and the parse of
`w0`, `{`, `w`, `}` returns with the destination an Object without entries; the stream is
left good at the end of the text, and the two results are serialized as `[]` and `{}`. -/
theorem parse_empty_composites (io : DoubleIO D) (w0 w : List Char)
    (hw0 : ∀ x ∈ w0, isspace x = true) (hw : ∀ x ∈ w, isspace x = true) :
    parse io (w0 ++ '[' :: (w ++ [']']))
      = ⟨⟨[], false, false⟩, (json.ctor : json D).set_list, Outcome.returned⟩ ∧
    ((json.ctor : json D).set_list).is_list = true ∧
    ((json.ctor : json D).set_list).iterate_list = Except.ok [] ∧
    format io ((json.ctor : json D).set_list) = "[]".toList ∧
    parse io (w0 ++ '{' :: (w ++ ['}']))
      = ⟨⟨[], false, false⟩, (json.ctor : json D).set_dictionary, Outcome.returned⟩ ∧
    ((json.ctor : json D).set_dictionary).is_dictionary = true ∧
    ((json.ctor : json D).set_dictionary).iterate_dictionary = Except.ok [] ∧
    format io ((json.ctor : json D).set_dictionary) = "\x7b\x7d".toList := by
  refine ⟨?_, rfl, rfl, rfl, ?_, rfl, rfl, rfl⟩
  · have h := get_while_space_skip w0 '[' (w ++ [']']) hw0 (by decide)
    have h1 := get_while_space_skip w ']' [] hw (by decide)
    rw [parse, parse_fuel_bracket io _ _ _ h]
    have h2 : (⟨w ++ [']'], false, false⟩ : istream).get_while_space
        = (⟨[], false, false⟩, some ']') := h1
    rw [h2]
    simp
  · have h := get_while_space_skip w0 '{' (w ++ ['}']) hw0 (by decide)
    have h1 := get_while_space_skip w '}' [] hw (by decide)
    rw [parse, parse_fuel_brace io _ _ _ h]
    have h2 : (⟨w ++ ['}'], false, false⟩ : istream).get_while_space
        = (⟨[], false, false⟩, some '}') := h1
    rw [h2]
    simp

/-- Witness of C15: a space before the bracket and a tab and a newline inside. -/
theorem parse_empty_composites_witness :
    (∀ x ∈ [' '], isspace x = true) ∧ (∀ x ∈ ['\t', '\n'], isspace x = true) ∧
    parse integer_io ([' '] ++ '[' :: (['\t', '\n'] ++ [']']))
      = ⟨⟨[], false, false⟩, (json.ctor : json Int).set_list, Outcome.returned⟩ :=
  ⟨by decide, by decide,
    (parse_empty_composites integer_io [' '] ['\t', '\n'] (by decide) (by decide)).1⟩

/-- C16 (strings are verbatim): for every character sequence `s` without a quote, the
parse of the quote, `s`, and the quote returns with the destination a String whose payload
is exactly `s`: backslashes, whitespace and control characters are stored as they are.
The whitespace loop after the closing quote meets the end of the text, so the stream is
left with `eofbit` and `failbit` set. -/
theorem parse_string_verbatim (io : DoubleIO D) (s : List Char) (hs : '"' ∉ s) :
    parse io ('"' :: (s ++ ['"']))
      = ⟨⟨[], true, true⟩, (json.ctor : json D).set_string s, Outcome.returned⟩ ∧
    ((json.ctor : json D).set_string s).is_string = true ∧
    ((json.ctor : json D).set_string s).get_string = Except.ok s := by
  refine ⟨?_, rfl, rfl⟩
  have h : (istream.of_text ('"' :: (s ++ ['"']))).get_while_space
      = (⟨s ++ ['"'], false, false⟩, some '"') :=
    get_while_space_skip [] '"' (s ++ ['"'])
      (fun x hx => absurd hx (List.not_mem_nil x)) (by decide)
  have h1 : (⟨s ++ ['"'], false, false⟩ : istream).get_until_quote
      = (⟨[], false, false⟩, s) := get_until_quote_buf_closing s [] hs
  rw [parse, parse_fuel_quote io _ _ _ h, h1]
  rfl

/-- Witness of C16: the string of a backslash, the letter `n`, a space and a tab. -/
theorem parse_string_verbatim_witness :
    '"' ∉ ['\\', 'n', ' ', '\t'] ∧
    parse integer_io ('"' :: (['\\', 'n', ' ', '\t'] ++ ['"']))
      = ⟨⟨[], true, true⟩, (json.ctor : json Int).set_string ['\\', 'n', ' ', '\t'],
          Outcome.returned⟩ :=
  ⟨by decide, (parse_string_verbatim integer_io ['\\', 'n', ' ', '\t'] (by decide)).1⟩

/-- C17 (leading whitespace): for every text `s` that has a character other than space,
tab, newline and carriage return, and every sequence `w` of these four characters, the
parse of `w ++ s` leaves the same stream, the same destination and ends in the same way
(returns, or throws the same exception) as the parse of `s`. -/
theorem leading_whitespace_irrelevant (io : DoubleIO D) (w s : List Char)
    (hw : ∀ x ∈ w, x = ' ' ∨ x = '\t' ∨ x = '\n' ∨ x = '\r')
    (hs : ∃ x ∈ s, ¬ (x = ' ' ∨ x = '\t' ∨ x = '\n' ∨ x = '\r')) :
    parse io (w ++ s) = parse io s := by
  apply parse_leading_space io w s
  · intro x hx
    rcases hw x hx with h | h | h | h <;> rw [h] <;> decide
  · obtain ⟨x, hx, _⟩ := hs
    exact List.ne_nil_of_mem hx

/-- Witness of C17: a newline and two spaces before the text `nnull`. -/
theorem leading_whitespace_irrelevant_witness :
    (∀ x ∈ ['\n', ' ', ' '], x = ' ' ∨ x = '\t' ∨ x = '\n' ∨ x = '\r') ∧
    (∃ x ∈ "nnull".toList, ¬ (x = ' ' ∨ x = '\t' ∨ x = '\n' ∨ x = '\r')) ∧
    parse integer_io (['\n', ' ', ' '] ++ "nnull".toList) = parse integer_io "nnull".toList :=
  ⟨by decide, ⟨'n', by decide, by decide⟩,
    leading_whitespace_irrelevant integer_io ['\n', ' ', ' '] "nnull".toList (by decide)
      ⟨'n', by decide, by decide⟩⟩

/-- C18 (unexpected character): on every text whose first character `c` after leading
whitespace is none of `n`, `t`, `f`, the quote, a decimal digit, `-`, `[` and `{`, the
parse throws `UnexpectedCharacter`; the destination is the reset Null value and the stream
is left right after `c`. -/
theorem unexpected_character (io : DoubleIO D) (w rest : List Char) (c : Char)
    (hw : ∀ x ∈ w, isspace x = true) (hc : isspace c = false)
    (h1 : c ≠ 'n') (h2 : c ≠ 't') (h3 : c ≠ 'f') (h4 : c ≠ '"')
    (h5 : isdigit c = false) (h6 : c ≠ '-') (h7 : c ≠ '[') (h8 : c ≠ '{') :
    parse io (w ++ c :: rest)
      = ⟨⟨rest, false, false⟩, json.ctor, Outcome.thrown Exception.UnexpectedCharacter⟩ := by
  have h := get_while_space_skip w c rest hw hc
  rw [parse, parse_fuel_other io _ _ _ c h h1 h2 h3 h4 h5 h6 h7 h8]

/-- Witness of C18: the text of two spaces and `x1`. -/
theorem unexpected_character_witness :
    (∀ x ∈ [' ', ' '], isspace x = true) ∧ isspace 'x' = false ∧
    'x' ≠ 'n' ∧ 'x' ≠ 't' ∧ 'x' ≠ 'f' ∧ 'x' ≠ '"' ∧ isdigit 'x' = false ∧ 'x' ≠ '-' ∧
    'x' ≠ '[' ∧ 'x' ≠ '{' ∧
    parse integer_io ([' ', ' '] ++ 'x' :: ['1'])
      = ⟨⟨['1'], false, false⟩, json.ctor, Outcome.thrown Exception.UnexpectedCharacter⟩ :=
  ⟨by decide, by decide, by decide, by decide, by decide, by decide, by decide, by decide,
    by decide, by decide,
    unexpected_character integer_io [' ', ' '] ['1'] 'x' (by decide) (by decide) (by decide)
      (by decide) (by decide) (by decide) (by decide) (by decide) (by decide) (by decide)⟩

end parser_claims

/-! ## The destination of a parse that throws -/

section destination_shape

variable {D : Type}

theorem push_back_list (n : D) (b : Bool) (s : List Char) (l : List (json D))
    (d : List (List Char × json D)) (x : json D) :
    (json.impl JsonType.List n b s l d).push_back x
      = Except.ok (json.impl JsonType.List n b s (l ++ [x]) d) := by
  simp only [json.push_back, json.is_list, json.type, decide_True, Bool.not_true,
    Bool.false_eq_true, if_false]

end destination_shape

section destination_theorems

variable {D : Type} [Zero D]

end destination_theorems

section move_claims

variable {D : Type}

/-- C19 (move), evaluated on an object that owns the value `v`: after the move
constructor and after the move assignment the destination owns `v`, and the source is left
with `pimpl` equal to `nullptr`, not with an `impl` of type Null; `is_null()` on the
source, and every other predicate, dereferences that null pointer and has no defined
result, so it does not return true.  The move constructor of `impl`, which the move
operations of `json` do not call, is the one that leaves its source with type Null. -/
theorem move_leaves_null_pointer (v : json D) (old : json_object D) (residue : List Char) :
    (json_object.move_ctor ⟨some v⟩).1.pimpl = some v ∧
    (json_object.move_ctor ⟨some v⟩).2.pimpl = none ∧
    (json_object.move_ctor ⟨some v⟩).2.is_null = none ∧
    (json_object.move_ctor ⟨some v⟩).2.is_list = none ∧
    (json_object.move_assign old ⟨some v⟩).1.pimpl = some v ∧
    (json_object.move_assign old ⟨some v⟩).2.pimpl = none ∧
    (json_object.move_assign old ⟨some v⟩).2.is_null = none ∧
    (json_object.move_ctor ⟨some v⟩).2.is_null ≠ some true ∧
    (json_object.move_assign old ⟨some v⟩).2.is_null ≠ some true ∧
    (json_object.impl_move v residue).1 = v ∧
    (json_object.impl_move v residue).2.is_null = true := by
  refine ⟨rfl, rfl, rfl, rfl, rfl, rfl, rfl, fun h => Option.noConfusion h,
    fun h => Option.noConfusion h, ?_, ?_⟩ <;> cases v <;> rfl

end move_claims

section failure_claims

variable {D : Type} [Zero D]

end failure_claims

/-! ## Indexed writes and distinct keys -/

section store_theorems

variable {D : Type}

theorem set_second_cons_succ (x : json D) (e : List Char × json D)
    (d : List (List Char × json D)) (i : Nat) :
    json.set_second x (e :: d) (i + 1) = e :: json.set_second x d i := by
  obtain ⟨k, y⟩ := e
  rfl

theorem find_position_cons (key k0 : List Char) (y : json D)
    (d : List (List Char × json D)) :
    json.find_position key ((k0, y) :: d)
      = if k0 = key then some 0
        else
          match json.find_position key d with
          | some i => some (i + 1)
          | none => none := by
  rw [json.find_position]

/-- The statement `obj[k] = x;` on a dictionary value has the reference effect
`store_entry` on its entries and leaves the other members as they are. -/
theorem assign_index_store [Zero D] (n : D) (b : Bool) (s : List Char) (l : List (json D))
    (k : List Char) (x : json D) : ∀ d : List (List Char × json D),
    (json.impl JsonType.Dict n b s l d).assign_index k x
      = Except.ok (json.impl JsonType.Dict n b s l (store_entry k x d)) := by
  have key : ∀ d : List (List Char × json D),
      (match json.find_position k d with
        | some i => json.set_second x d i
        | none => json.set_second x (d ++ [(k, (json.ctor : json D))]) d.length)
        = store_entry k x d := by
    intro d
    induction d with
    | nil => rfl
    | cons e d ih =>
      obtain ⟨k0, y⟩ := e
      rw [find_position_cons, store_entry]
      by_cases hk : k0 = k
      · rw [if_pos hk, if_pos hk]; rfl
      · rw [if_neg hk, if_neg hk, ← ih]
        cases hf : json.find_position k d with
        | some i => exact set_second_cons_succ x (k0, y) d i
        | none =>
          exact set_second_cons_succ x (k0, y) (d ++ [(k, json.ctor)]) d.length
  intro d
  have hk := key d
  cases hf : json.find_position k d with
  | some i =>
    rw [hf] at hk
    have hk2 : json.set_second x d i = store_entry k x d := hk
    simp only [json.assign_index, json.operator_index, json.is_dictionary, json.type,
      json.dictValue, hf, json.assign_ref, decide_True, Bool.not_true, Bool.false_eq_true,
      if_false, hk2]
  | none =>
    rw [hf] at hk
    have hk2 : json.set_second x (d ++ [(k, (json.ctor : json D))]) d.length
        = store_entry k x d := hk
    simp only [json.assign_index, json.operator_index, json.is_dictionary, json.type,
      json.dictValue, hf, back_position_concat, json.assign_ref, decide_True, Bool.not_true,
      Bool.false_eq_true, if_false, hk2]

theorem store_entry_keys (k : List Char) (x : json D) : ∀ d : List (List Char × json D),
    (store_entry k x d).map Prod.fst
      = if k ∈ d.map Prod.fst then d.map Prod.fst else d.map Prod.fst ++ [k] := by
  intro d
  induction d with
  | nil => rfl
  | cons e d ih =>
    obtain ⟨k0, y⟩ := e
    by_cases hk : k0 = k
    · have hm : k ∈ ((k0, y) :: d).map Prod.fst := by
        rw [List.map_cons, hk]; exact List.mem_cons_self _ _
      rw [store_entry, if_pos hk, if_pos hm]
      rfl
    · have hk1 : ¬ k = k0 := fun h => hk h.symm
      rw [store_entry, if_neg hk, List.map_cons, ih, List.map_cons]
      by_cases hm : k ∈ d.map Prod.fst
      · rw [if_pos hm, if_pos (List.mem_cons_of_mem _ hm)]
      · have hm1 : k ∉ k0 :: d.map Prod.fst := by
          intro h
          rcases List.mem_cons.mp h with h | h
          · exact hk1 h
          · exact hm h
        rw [if_neg hm, if_neg hm1]
        rfl

theorem store_entry_find (k : List Char) (x : json D) (k1 : List Char) :
    ∀ d : List (List Char × json D),
    json.find_value k1 (store_entry k x d)
      = if k1 = k then some x else json.find_value k1 d := by
  intro d
  induction d with
  | nil =>
    by_cases h : k1 = k
    · rw [if_pos h, store_entry, json.find_value, if_pos h.symm]
    · have h1 : ¬ k = k1 := fun e => h e.symm
      rw [if_neg h]
      show json.find_value k1 [(k, x)] = none
      rw [json.find_value, if_neg h1, json.find_value]
  | cons e d ih =>
    obtain ⟨k0, y⟩ := e
    by_cases hk : k0 = k
    · rw [store_entry, if_pos hk]
      by_cases h : k1 = k
      · rw [if_pos h, json.find_value, if_pos (by rw [hk, h])]
      · have h1 : ¬ k0 = k1 := fun e => h (by rw [← e, hk])
        rw [if_neg h, json.find_value, if_neg h1, json.find_value, if_neg h1]
    · rw [store_entry, if_neg hk, json.find_value, ih]
      by_cases h0 : k0 = k1
      · have h : ¬ k1 = k := fun e => hk (by rw [h0, e])
        rw [if_pos h0, if_neg h, json.find_value, if_pos h0]
      · rw [if_neg h0, json.find_value, if_neg h0]

theorem store_entry_nodup (k : List Char) (x : json D) (d : List (List Char × json D))
    (h : (d.map Prod.fst).Nodup) : ((store_entry k x d).map Prod.fst).Nodup := by
  rw [store_entry_keys]
  by_cases hm : k ∈ d.map Prod.fst
  · rw [if_pos hm]; exact h
  · rw [if_neg hm]
    rw [List.nodup_append]
    refine ⟨h, List.nodup_singleton k, ?_⟩
    intro a ha hb
    rw [List.mem_singleton] at hb
    exact hm (hb ▸ ha)

theorem store_entry_unique (k : List Char) (x : json D) (hx : x.unique_keys) :
    ∀ d : List (List Char × json D), entries_unique_keys d →
      entries_unique_keys (store_entry k x d) := by
  intro d
  induction d with
  | nil => intro _; exact ⟨hx, trivial⟩
  | cons e d ih =>
    obtain ⟨k0, y⟩ := e
    intro h
    rw [entries_unique_keys] at h
    by_cases hk : k0 = k
    · rw [store_entry, if_pos hk, entries_unique_keys]
      exact ⟨hx, h.2⟩
    · rw [store_entry, if_neg hk, entries_unique_keys]
      exact ⟨h.1, ih h.2⟩

theorem elements_unique_keys_concat (x : json D) (hx : x.unique_keys) :
    ∀ l : List (json D), elements_unique_keys l → elements_unique_keys (l ++ [x]) := by
  intro l
  induction l with
  | nil => intro _; exact ⟨hx, trivial⟩
  | cons a l ih =>
    intro h
    rw [elements_unique_keys] at h
    show elements_unique_keys (a :: (l ++ [x]))
    rw [elements_unique_keys]
    exact ⟨h.1, ih h.2⟩

theorem unique_keys_of_scalar (v : json D) (h1 : v.type ≠ JsonType.List)
    (h2 : v.type ≠ JsonType.Dict) : v.unique_keys := by
  cases v with
  | impl t n b s l d =>
    rw [json.unique_keys]
    exact ⟨fun e => absurd e h1, fun e => absurd e h2⟩

end store_theorems

/-! ## Every parsed Object has distinct keys -/

section unique_parse_scalar

variable {D : Type}

theorem parse_keyword_rhs (lhs : istream) (rhs : json D) (k : Nat) (word : List Char)
    (set : json D → json D) (e : Exception) :
    (parse_keyword lhs rhs k word set e).rhs = rhs ∨
    (parse_keyword lhs rhs k word set e).rhs = set rhs := by
  cases hr : lhs.read k with
  | mk lhs1 buffer =>
    cases buffer with
    | none => left; simp only [parse_keyword, hr]
    | some buffer =>
      simp only [parse_keyword, hr]
      split_ifs with c1
      · right; rfl
      · left; rfl

end unique_parse_scalar

section unique_parse

variable {D : Type} [Zero D]

/-- The destination of a call that does not open an Array or an Object is a scalar. -/
theorem parse_fuel_scalar_rhs (io : DoubleIO D) (fuel : Nat) (lhs lhs1 : istream)
    (r : Option Char) (h : lhs.get_while_space = (lhs1, r))
    (hb : r ≠ some '[') (hc : r ≠ some '{') :
    (parse_fuel io (fuel + 1) lhs).rhs.type ≠ JsonType.List ∧
    (parse_fuel io (fuel + 1) lhs).rhs.type ≠ JsonType.Dict := by
  rw [parse_fuel_succ, h]
  cases r with
  | none => exact ⟨fun e => JsonType.noConfusion e, fun e => JsonType.noConfusion e⟩
  | some ch =>
    have hb1 : ¬ ch = '[' := fun e => hb (by rw [e])
    have hc1 : ¬ ch = '{' := fun e => hc (by rw [e])
    simp only [hb1, hc1, if_false]
    split_ifs with c1 c2 c3 c4 c5 c6
    · rcases parse_keyword_rhs lhs1 (json.ctor : json D) 4 "null".toList json.set_null
        Exception.InvalidNull with h1 | h1 <;> rw [h1] <;> exact ⟨fun e => JsonType.noConfusion e, fun e => JsonType.noConfusion e⟩
    · rcases parse_keyword_rhs lhs1 (json.ctor : json D) 4 "true".toList
        (fun r => r.set_bool true) Exception.InvalidBool with h1 | h1 <;> rw [h1] <;>
        exact ⟨fun e => JsonType.noConfusion e, fun e => JsonType.noConfusion e⟩
    · rcases parse_keyword_rhs lhs1 (json.ctor : json D) 5 "false".toList
        (fun r => r.set_bool false) Exception.InvalidBool with h1 | h1 <;> rw [h1] <;>
        exact ⟨fun e => JsonType.noConfusion e, fun e => JsonType.noConfusion e⟩
    · exact ⟨fun e => JsonType.noConfusion e, fun e => JsonType.noConfusion e⟩
    · exact ⟨fun e => JsonType.noConfusion e, fun e => JsonType.noConfusion e⟩
    · exact ⟨fun e => JsonType.noConfusion e, fun e => JsonType.noConfusion e⟩
    · exact ⟨fun e => JsonType.noConfusion e, fun e => JsonType.noConfusion e⟩

/-- In every destination the parser leaves, however the call ends, all Objects have
pairwise distinct keys; the two loops keep this for the Array and the Object they build. -/
theorem parse_fuel_unique_keys (io : DoubleIO D) : ∀ fuel : Nat,
    (∀ lhs : istream, (parse_fuel io fuel lhs).rhs.unique_keys) ∧
    (∀ (lhs : istream) (l : List (json D)) (ch : Char), elements_unique_keys l →
      ∃ l1, (parse_list_loop io fuel lhs (json.impl JsonType.List 0 false [] l []) ch).rhs
          = json.impl JsonType.List 0 false [] l1 [] ∧ elements_unique_keys l1) ∧
    (∀ (lhs : istream) (d : List (List Char × json D)) (ch : Char),
      (d.map Prod.fst).Nodup → entries_unique_keys d →
      ∃ d1, (parse_dictionary_loop io fuel lhs (json.impl JsonType.Dict 0 false [] [] d) ch).rhs
          = json.impl JsonType.Dict 0 false [] [] d1 ∧
        (d1.map Prod.fst).Nodup ∧ entries_unique_keys d1) := by
  intro fuel
  induction fuel with
  | zero =>
    refine ⟨?_, ?_, ?_⟩
    · intro lhs
      simp only [parse_fuel]
      exact unique_keys_of_scalar _ (fun e => JsonType.noConfusion e)
        (fun e => JsonType.noConfusion e)
    · intro lhs l ch hl
      exact ⟨l, by simp only [parse_list_loop], hl⟩
    · intro lhs d ch hn hd
      exact ⟨d, by simp only [parse_dictionary_loop], hn, hd⟩
  | succ f ih =>
    obtain ⟨ihP, ihL, ihD⟩ := ih
    refine ⟨?_, ?_, ?_⟩
    · intro lhs
      cases hr : lhs.get_while_space with
      | mk lhs1 r =>
        by_cases hb : r = some '['
        · rw [hb] at hr
          rw [parse_fuel_bracket io f lhs lhs1 hr]
          split_ifs with c1
          · obtain ⟨l1, h1, h2⟩ := ihL
              ((lhs1.get_while_space).1.putback ((lhs1.get_while_space).2.getD '[')) []
              ((lhs1.get_while_space).2.getD '[') trivial
            have h0 : (json.ctor : json D).set_list = json.impl JsonType.List 0 false [] [] [] :=
              rfl
            rw [h0, h1, json.unique_keys]
            exact ⟨fun _ => h2, fun e => JsonType.noConfusion e⟩
          · exact ⟨fun _ => trivial, fun e => JsonType.noConfusion e⟩
        · by_cases hc : r = some '{'
          · rw [hc] at hr
            rw [parse_fuel_brace io f lhs lhs1 hr]
            split_ifs with c1
            · obtain ⟨d1, h1, h2, h3⟩ := ihD
                ((lhs1.get_while_space).1.putback ((lhs1.get_while_space).2.getD '{')) []
                ((lhs1.get_while_space).2.getD '{') List.nodup_nil trivial
              have h0 : (json.ctor : json D).set_dictionary
                  = json.impl JsonType.Dict 0 false [] [] [] := rfl
              rw [h0, h1, json.unique_keys]
              exact ⟨fun e => JsonType.noConfusion e, fun _ => ⟨h2, h3⟩⟩
            · exact ⟨fun e => JsonType.noConfusion e, fun _ => ⟨List.nodup_nil, trivial⟩⟩
          · obtain ⟨t1, t2⟩ := parse_fuel_scalar_rhs io f lhs lhs1 r hr hb hc
            exact unique_keys_of_scalar _ t1 t2
    · intro lhs l ch hl
      rw [parse_list_loop_succ]
      have hitem := ihP lhs
      cases ho : (parse_fuel io f lhs).outcome with
      | returned =>
        simp only [push_back_list]
        have hl1 := elements_unique_keys_concat (parse_fuel io f lhs).rhs hitem l hl
        split_ifs with c1 c2
        · exact ihL _ _ _ hl1
        · exact ⟨_, rfl, hl1⟩
        · exact ⟨_, rfl, hl1⟩
      | thrown e => exact ⟨l, rfl, hl⟩
      | indeterminate => exact ⟨l, rfl, hl⟩
      | out_of_fuel => exact ⟨l, rfl, hl⟩
    · intro lhs d ch hn hd
      rw [parse_dictionary_loop_succ]
      by_cases c0 : ((lhs.extract_string).1.get_while_space).2.getD ch = ':'
      · rw [if_pos c0]
        generalize (((lhs.extract_string).1.get_while_space).1.get_while_space).1 = lhs2
        generalize ((((lhs.extract_string).1.get_while_space).1.get_while_space).2.getD
          (((lhs.extract_string).1.get_while_space).2.getD ch)) = ch2
        have hitem := ihP lhs2
        cases ho : (parse_fuel io f lhs2).outcome with
        | returned =>
          simp only [assign_index_store]
          have hn1 := store_entry_nodup (lhs.extract_string).2 (parse_fuel io f lhs2).rhs d hn
          have hd1 := store_entry_unique (lhs.extract_string).2 (parse_fuel io f lhs2).rhs
            hitem d hd
          split_ifs with c1 c2
          · exact ihD _ _ _ hn1 hd1
          · exact ⟨_, rfl, hn1, hd1⟩
          · exact ⟨_, rfl, hn1, hd1⟩
        | thrown e => exact ⟨d, rfl, hn, hd⟩
        | indeterminate => exact ⟨d, rfl, hn, hd⟩
        | out_of_fuel => exact ⟨d, rfl, hn, hd⟩
      · rw [if_neg c0]
        exact ⟨d, rfl, hn, hd⟩

end unique_parse

/-! ## A sequence of indexed writes -/

section assign_all_theorems

variable {D : Type}

/-- A sequence of statements `obj[k] = x;` on a dictionary value has, entry by entry, the
reference effect `store_entry`. -/
theorem assign_all_store [Zero D] (n : D) (b : Bool) (s : List Char) (l : List (json D))
    (es : List (List Char × json D)) : ∀ d : List (List Char × json D),
    (json.impl JsonType.Dict n b s l d).assign_all es
      = Except.ok (json.impl JsonType.Dict n b s l
          (es.foldl (fun acc e => store_entry e.1 e.2 acc) d)) := by
  induction es with
  | nil => intro d; rfl
  | cons e es ih =>
    intro d
    have h := ih (store_entry e.1 e.2 d)
    rw [json.assign_all] at h ⊢
    rw [List.foldlM_cons, assign_index_store]
    exact h

theorem store_all_keys (es : List (List Char × json D)) :
    (es.foldl (fun acc e => store_entry e.1 e.2 acc) []).map Prod.fst
      = ((es.map Prod.fst).reverse.dedup).reverse := by
  induction es using List.reverseRecOn with
  | nil => rfl
  | append_singleton es e ih =>
    obtain ⟨k, x⟩ := e
    rw [List.foldl_append, List.foldl_cons, List.foldl_nil, store_entry_keys, ih,
      List.map_append, List.map_cons, List.map_nil, List.reverse_append, List.reverse_singleton,
      List.singleton_append]
    by_cases hm : k ∈ (es.map Prod.fst).reverse
    · rw [List.dedup_cons_of_mem hm, if_pos]
      rw [List.mem_reverse, List.mem_dedup]; exact hm
    · rw [List.dedup_cons_of_not_mem hm, if_neg, List.reverse_cons]
      rw [List.mem_reverse, List.mem_dedup]; exact hm

theorem store_all_find_skip (k : List Char) : ∀ (post d : List (List Char × json D)),
    (∀ e ∈ post, e.1 ≠ k) →
    json.find_value k (post.foldl (fun acc e => store_entry e.1 e.2 acc) d)
      = json.find_value k d := by
  intro post
  induction post with
  | nil => intro d _; rfl
  | cons e post ih =>
    intro d h
    have he : ¬ k = e.1 := fun h1 => h e (List.mem_cons_self _ _) h1.symm
    rw [List.foldl_cons, ih _ (fun e1 h1 => h e1 (List.mem_cons_of_mem _ h1)),
      store_entry_find, if_neg he]

theorem store_all_last (k : List Char) (x : json D) (pre post : List (List Char × json D))
    (h : ∀ e ∈ post, e.1 ≠ k) :
    json.find_value k ((pre ++ (k, x) :: post).foldl (fun acc e => store_entry e.1 e.2 acc) [])
      = some x := by
  rw [List.foldl_append, List.foldl_cons, store_all_find_skip k post _ h, store_entry_find,
    if_pos rfl]

theorem store_all_nodup (es : List (List Char × json D)) :
    ((es.foldl (fun acc e => store_entry e.1 e.2 acc) []).map Prod.fst).Nodup := by
  rw [store_all_keys]
  exact List.nodup_reverse.mpr (List.nodup_dedup _)

end assign_all_theorems

/-! ## Strings and numbers in the stream -/

section string_theorems

variable {D : Type} [Zero D]

theorem get_until_quote_buf_open (s : List Char) (hs : '"' ∉ s) :
    istream.get_until_quote_buf s = (⟨[], true, true⟩, s) := by
  induction s with
  | nil => rfl
  | cons a s ih =>
    have ha : a ≠ '"' := fun e => hs (by rw [e]; exact List.mem_cons_self _ _)
    have ih1 := ih (fun hm => hs (List.mem_cons_of_mem _ hm))
    rw [istream.get_until_quote_buf, if_neg ha, ih1]

/-- The parser on a String value followed by whitespace `w` and a further character `c`:
the call returns with the stream after `c`. -/
theorem parse_fuel_string_then (io : DoubleIO D) (fuel : Nat) (s w rest : List Char)
    (c : Char) (hs : '"' ∉ s) (hw : ∀ x ∈ w, isspace x = true) (hc : isspace c = false) :
    parse_fuel io (fuel + 1) (⟨'"' :: (s ++ '"' :: (w ++ c :: rest)), false, false⟩ : istream)
      = ⟨⟨rest, false, false⟩, (json.ctor : json D).set_string s, Outcome.returned⟩ := by
  have h : (⟨'"' :: (s ++ '"' :: (w ++ c :: rest)), false, false⟩ : istream).get_while_space
      = (⟨s ++ '"' :: (w ++ c :: rest), false, false⟩, some '"') :=
    get_while_space_skip [] '"' (s ++ '"' :: (w ++ c :: rest))
      (fun x hx => absurd hx (List.not_mem_nil x)) (by decide)
  have h1 : (⟨s ++ '"' :: (w ++ c :: rest), false, false⟩ : istream).get_until_quote
      = (⟨w ++ c :: rest, false, false⟩, s) :=
    get_until_quote_buf_closing s (w ++ c :: rest) hs
  have h2 : (⟨w ++ c :: rest, false, false⟩ : istream).get_while_space
      = (⟨rest, false, false⟩, some c) := get_while_space_skip w c rest hw hc
  rw [parse_fuel_quote io _ _ _ h, h1, h2]

theorem isspace_not_number (c : Char) (h : isdigit c = true ∨ c = '-') : isspace c = false := by
  cases hsp : isspace c with
  | false => rfl
  | true =>
    exfalso
    simp only [isspace, Bool.or_eq_true, decide_eq_true_eq] at hsp
    rcases hsp with ((((h1 | h1) | h1) | h1) | h1) | h1 <;> rw [h1] at h <;>
      revert h <;> decide

/-- The parser on a stream whose first character after whitespace is a digit or `-`. -/
theorem parse_fuel_number (io : DoubleIO D) (fuel : Nat) (lhs lhs1 : istream) (ch : Char)
    (h : lhs.get_while_space = (lhs1, some ch)) (hd : isdigit ch = true ∨ ch = '-') :
    parse_fuel io (fuel + 1) lhs =
      if ((lhs1.putback ch).extract_double io).1.fail then
        ⟨((lhs1.putback ch).extract_double io).1, json.ctor,
          Outcome.thrown Exception.InvalidNumber⟩
      else
        ⟨((lhs1.putback ch).extract_double io).1,
          (json.ctor : json D).set_number ((lhs1.putback ch).extract_double io).2,
          Outcome.returned⟩ := by
  have h1 : ¬ ch = 'n' := by intro e; rw [e] at hd; revert hd; decide
  have h2 : ¬ ch = 't' := by intro e; rw [e] at hd; revert hd; decide
  have h3 : ¬ ch = 'f' := by intro e; rw [e] at hd; revert hd; decide
  have h4 : ¬ ch = '"' := by intro e; rw [e] at hd; revert hd; decide
  have h5 : (isdigit ch || decide (ch = '-')) = true := by
    rcases hd with hd | hd
    · rw [hd]; rfl
    · rw [hd]; decide
  rw [parse_fuel_succ, h]
  simp only [h1, h2, h3, h4, h5, if_false, if_true]

/-- After a Number the stream is right after the characters the library scan extracted. -/
theorem parse_number_position (io : DoubleIO D) (c : Char) (rest : List Char)
    (hd : isdigit c = true ∨ c = '-') :
    (parse io (c :: rest)).lhs.buf = (c :: rest).drop (io.get (c :: rest)).2 := by
  have hc := isspace_not_number c hd
  have h : (istream.of_text (c :: rest)).get_while_space = (⟨rest, false, false⟩, some c) :=
    get_while_space_skip [] c rest (fun x hx => absurd hx (List.not_mem_nil x)) hc
  have hx : ((⟨rest, false, false⟩ : istream).putback c).extract_double io
      = match (io.get (c :: rest)).1 with
        | some x => (⟨(c :: rest).drop (io.get (c :: rest)).2,
            ((c :: rest).drop (io.get (c :: rest)).2).isEmpty, false⟩, x)
        | none => (⟨(c :: rest).drop (io.get (c :: rest)).2,
            ((c :: rest).drop (io.get (c :: rest)).2).isEmpty, true⟩, 0) := by
    simp only [istream.putback, istream.extract_double, istream.good, Bool.not_false,
      Bool.and_self, if_true, List.dropWhile_cons, hc, Bool.false_eq_true, if_false]
  rw [parse, parse_fuel_number io _ _ _ c h hd, hx]
  cases (io.get (c :: rest)).1 with
  | none => rfl
  | some x => rfl

end string_theorems

/-! ## Strings without a closing quote, and what a scalar consumes -/

section scalar_claims

variable {D : Type} [Zero D]

/-- Every value parsed after a String element of a list is independent of the character that
follows the String and its trailing whitespace: that character is consumed by the String
branch and never compared with `,` or `]`. -/
theorem parse_list_loop_string_then (io : DoubleIO D) (fuel : Nat) (s w rest : List Char)
    (c c1 : Char) (rhs : json D) (ch : Char) (hs : '"' ∉ s)
    (hw : ∀ x ∈ w, isspace x = true) (hc : isspace c = false) (hc1 : isspace c1 = false) :
    parse_list_loop io (fuel + 1 + 1)
        (⟨'"' :: (s ++ '"' :: (w ++ c :: rest)), false, false⟩ : istream) rhs ch
      = parse_list_loop io (fuel + 1 + 1)
        (⟨'"' :: (s ++ '"' :: (w ++ c1 :: rest)), false, false⟩ : istream) rhs ch := by
  rw [parse_list_loop_succ io (fuel + 1) ⟨'"' :: (s ++ '"' :: (w ++ c :: rest)), false, false⟩,
    parse_list_loop_succ io (fuel + 1) ⟨'"' :: (s ++ '"' :: (w ++ c1 :: rest)), false, false⟩,
    parse_fuel_string_then io fuel s w rest c hs hw hc,
    parse_fuel_string_then io fuel s w rest c1 hs hw hc1]

theorem parse_bracket_string (io : DoubleIO D) (s tail : List Char) :
    parse io ('[' :: '"' :: (s ++ '"' :: tail))
      = parse_list_loop io (2 * (s ++ '"' :: tail).length + 2 + 1 + 1)
          (⟨'"' :: (s ++ '"' :: tail), false, false⟩ : istream)
          (json.ctor : json D).set_list '"' := by
  have h : (istream.of_text ('[' :: '"' :: (s ++ '"' :: tail))).get_while_space
      = (⟨'"' :: (s ++ '"' :: tail), false, false⟩, some '[') :=
    get_while_space_skip [] '[' ('"' :: (s ++ '"' :: tail))
      (fun x hx => absurd hx (List.not_mem_nil x)) (by decide)
  have h1 : (⟨'"' :: (s ++ '"' :: tail), false, false⟩ : istream).get_while_space
      = (⟨s ++ '"' :: tail, false, false⟩, some '"') :=
    get_while_space_skip [] '"' (s ++ '"' :: tail)
      (fun x hx => absurd hx (List.not_mem_nil x)) (by decide)
  have hl : 2 * ('[' :: '"' :: (s ++ '"' :: tail)).length
      = 2 * (s ++ '"' :: tail).length + 2 + 1 + 1 := by
    rw [List.length_cons, List.length_cons]; omega
  have hp : (⟨s ++ '"' :: tail, false, false⟩ : istream).putback '"'
      = ⟨'"' :: (s ++ '"' :: tail), false, false⟩ := rfl
  rw [parse, hl, parse_fuel_bracket io _ _ _ h, h1, Option.getD_some,
    if_pos (show '"' ≠ ']' by decide), hp]

/-- C21: unterminated strings are accepted.  For every character sequence `s` without a
double quote, parsing the text that consists of a double quote followed by `s`, with no
closing quote, throws nothing: the call returns, the value is the String `s`, and the stream
is left at its end with `eofbit` and `failbit` set. -/
theorem unterminated_string_accepted (io : DoubleIO D) (s : List Char) (hs : '"' ∉ s) :
    parse io ('"' :: s)
      = ⟨⟨[], true, true⟩, (json.ctor : json D).set_string s, Outcome.returned⟩ ∧
    (parse io ('"' :: s)).outcome = Outcome.returned ∧
    (parse io ('"' :: s)).rhs.is_string = true ∧
    (parse io ('"' :: s)).rhs.get_string = Except.ok s := by
  have h : (istream.of_text ('"' :: s)).get_while_space = (⟨s, false, false⟩, some '"') :=
    get_while_space_skip [] '"' s (fun x hx => absurd hx (List.not_mem_nil x)) (by decide)
  have h1 : (⟨s, false, false⟩ : istream).get_until_quote = (⟨[], true, true⟩, s) :=
    get_until_quote_buf_open s hs
  have h2 : (⟨[], true, true⟩ : istream).get_while_space = (⟨[], true, true⟩, none) := rfl
  have hp : parse io ('"' :: s)
      = ⟨⟨[], true, true⟩, (json.ctor : json D).set_string s, Outcome.returned⟩ := by
    rw [parse, parse_fuel_quote io _ _ _ h, h1, h2]
  rw [hp]
  exact ⟨rfl, rfl, rfl, rfl⟩

/-- Witness of C21: the text `"abc` with no closing quote. -/
theorem unterminated_string_accepted_witness :
    '"' ∉ "abc".toList ∧
    parse integer_io "\"abc".toList
      = ⟨⟨[], true, true⟩, (json.ctor : json Int).set_string "abc".toList, Outcome.returned⟩ :=
  ⟨by decide, (unterminated_string_accepted integer_io "abc".toList (by decide)).1⟩

/-- C22: scalar over-consumption.  A String value `s` followed by whitespace `w`, a
non-whitespace character `c` and the text `rest` is read successfully and leaves the stream
at `rest`: the closing quote, `w` and also `c` are consumed, and `c` is not pushed back.
After a Number the stream is right after the characters the numeric extraction consumed
(in the integer instance, after `12` in `12]x` the stream is at `]x`).  Hence the character
that follows a String element of an array does not reach the array loop: the parse of
`["s" w c rest` is the same for every non-whitespace `c`, and the text `["a"]` is not parsed
to the Array [String a] but throws `InvalidArray`. -/
theorem scalar_over_consumption (io : DoubleIO D) (s w rest : List Char) (c c1 d : Char)
    (hs : '"' ∉ s) (hw : ∀ x ∈ w, isspace x = true) (hc : isspace c = false)
    (hc1 : isspace c1 = false) (hd : isdigit d = true ∨ d = '-') :
    parse io ('"' :: (s ++ '"' :: (w ++ c :: rest)))
      = ⟨⟨rest, false, false⟩, (json.ctor : json D).set_string s, Outcome.returned⟩ ∧
    (parse io (d :: rest)).lhs.buf = (d :: rest).drop (io.get (d :: rest)).2 ∧
    parse integer_io "12]x".toList
      = ⟨⟨"]x".toList, false, false⟩, (json.ctor : json Int).set_number 12,
          Outcome.returned⟩ ∧
    parse io ('[' :: '"' :: (s ++ '"' :: (w ++ c :: rest)))
      = parse io ('[' :: '"' :: (s ++ '"' :: (w ++ c1 :: rest))) ∧
    (parse io "[\"a\"]".toList).outcome = Outcome.thrown Exception.InvalidArray := by
  refine ⟨?_, parse_number_position io d rest hd, rfl, ?_, rfl⟩
  · rw [parse]
    exact parse_fuel_string_then io _ s w rest c hs hw hc
  · have hl : (s ++ '"' :: (w ++ c :: rest)).length = (s ++ '"' :: (w ++ c1 :: rest)).length := by
      simp only [List.length_append, List.length_cons]
    rw [parse_bracket_string, parse_bracket_string, hl]
    exact parse_list_loop_string_then io _ s w rest c c1 _ _ hs hw hc hc1

/-- Witness of C22: the String `a` followed by a blank and `,1`, and the Number text `12]x`. -/
theorem scalar_over_consumption_witness :
    parse integer_io "\"a\" ,1".toList
      = ⟨⟨"1".toList, false, false⟩, (json.ctor : json Int).set_string "a".toList,
          Outcome.returned⟩ ∧
    (parse integer_io "12]x".toList).lhs.buf = "]x".toList ∧
    parse integer_io "[\"a\" ,1".toList = parse integer_io "[\"a\" ]1".toList :=
  ⟨(scalar_over_consumption integer_io "a".toList " ".toList "1".toList ',' ']' '1'
      (by decide) (by decide) (by decide) (by decide) (Or.inl (by decide))).1,
    (scalar_over_consumption integer_io "a".toList " ".toList "2]x".toList ',' ']' '1'
      (by decide) (by decide) (by decide) (by decide) (Or.inl (by decide))).2.1,
    (scalar_over_consumption integer_io "a".toList " ".toList "1".toList ',' ']' '1'
      (by decide) (by decide) (by decide) (by decide) (Or.inl (by decide))).2.2.2.1⟩

end scalar_claims

/-! ## Distinct keys of parsed dictionaries -/

section unique_claims

variable {D : Type} [Zero D]

/-- An iteration of the dictionary loop that reads a key, a colon and a value stores the
value under the key by the indexed write, and either goes on with that dictionary or ends
with it. -/
theorem parse_dictionary_loop_store (io : DoubleIO D) (fuel : Nat) (lhs : istream)
    (d : List (List Char × json D)) (ch : Char)
    (hcolon : ((lhs.extract_string).1.get_while_space).2.getD ch = ':')
    (hret : (parse_fuel io fuel
      (((lhs.extract_string).1.get_while_space).1.get_while_space).1).outcome
        = Outcome.returned) :
    (∃ lhs2 ch2,
      parse_dictionary_loop io (fuel + 1) lhs (json.impl JsonType.Dict 0 false [] [] d) ch
        = parse_dictionary_loop io fuel lhs2
            (json.impl JsonType.Dict 0 false [] []
              (store_entry (lhs.extract_string).2
                (parse_fuel io fuel
                  (((lhs.extract_string).1.get_while_space).1.get_while_space).1).rhs d))
            ch2) ∨
    (parse_dictionary_loop io (fuel + 1) lhs (json.impl JsonType.Dict 0 false [] [] d) ch).rhs
      = json.impl JsonType.Dict 0 false [] []
          (store_entry (lhs.extract_string).2
            (parse_fuel io fuel
              (((lhs.extract_string).1.get_while_space).1.get_while_space).1).rhs d) := by
  rw [parse_dictionary_loop_succ, if_pos hcolon]
  generalize ((((lhs.extract_string).1.get_while_space).1.get_while_space).2.getD
    (((lhs.extract_string).1.get_while_space).2.getD ch)) = ch2
  revert hret
  generalize (((lhs.extract_string).1.get_while_space).1.get_while_space).1 = lhs2
  intro hret
  rw [hret]
  simp only [assign_index_store]
  split_ifs with c1 c2
  · exact Or.inl ⟨_, _, rfl⟩
  · exact Or.inr rfl
  · exact Or.inr rfl

/-- C23: parsed objects have unique keys.  For every input, and in particular for every
input on which the parse succeeds, every Object in the tree of the resulting value has
pairwise distinct keys.  The dictionary loop stores each entry through the indexed write
`rhs[key] = value` and never through `insert`: an iteration that reads a key, a colon and a
value replaces the dictionary by `store_entry key value` of it.  A sequence of such writes
on an empty Object leaves one entry per key, in the order of the first occurrences of the
keys, and the entry of a key holds the value of its last occurrence.  In the integer
instance the text `{a : 11,bb : 22,aa : 33}`, from which the loop reads the keys `a`, `b`,
`a` and the values 1, 2, 3, yields the Object with the entries `a` -> 3 and `b` -> 2, in
this order. -/
theorem parsed_objects_unique_keys (io : DoubleIO D) (t : List Char)
    (fuel : Nat) (lhs : istream) (d : List (List Char × json D)) (ch : Char)
    (pre post : List (List Char × json D)) (k : List Char) (x : json D)
    (hcolon : ((lhs.extract_string).1.get_while_space).2.getD ch = ':')
    (hret : (parse_fuel io fuel
      (((lhs.extract_string).1.get_while_space).1.get_while_space).1).outcome
        = Outcome.returned)
    (hpost : ∀ e ∈ post, e.1 ≠ k) :
    (parse io t).rhs.unique_keys ∧
    ((∃ lhs2 ch2,
        parse_dictionary_loop io (fuel + 1) lhs (json.impl JsonType.Dict 0 false [] [] d) ch
          = parse_dictionary_loop io fuel lhs2
              (json.impl JsonType.Dict 0 false [] []
                (store_entry (lhs.extract_string).2
                  (parse_fuel io fuel
                    (((lhs.extract_string).1.get_while_space).1.get_while_space).1).rhs d))
              ch2) ∨
      (parse_dictionary_loop io (fuel + 1) lhs (json.impl JsonType.Dict 0 false [] [] d) ch).rhs
        = json.impl JsonType.Dict 0 false [] []
            (store_entry (lhs.extract_string).2
              (parse_fuel io fuel
                (((lhs.extract_string).1.get_while_space).1.get_while_space).1).rhs d)) ∧
    (∃ d1, (json.ctor : json D).set_dictionary.assign_all (pre ++ (k, x) :: post)
        = Except.ok (json.impl JsonType.Dict 0 false [] [] d1) ∧
      (d1.map Prod.fst).Nodup ∧
      d1.map Prod.fst = (((pre ++ (k, x) :: post).map Prod.fst).reverse.dedup).reverse ∧
      (json.impl JsonType.Dict 0 false [] [] d1).operator_index_const k = Except.ok x) ∧
    parse integer_io "\x7ba : 11,bb : 22,aa : 33\x7d".toList
      = ⟨⟨[], false, false⟩,
          json.impl JsonType.Dict 0 false [] []
            [("a".toList, (json.ctor : json Int).set_number 3),
              ("b".toList, (json.ctor : json Int).set_number 2)],
          Outcome.returned⟩ := by
  refine ⟨(parse_fuel_unique_keys io _).1 _, parse_dictionary_loop_store io fuel lhs d ch
    hcolon hret, ?_, rfl⟩
  refine ⟨_, assign_all_store 0 false [] [] (pre ++ (k, x) :: post) [], store_all_nodup _,
    store_all_keys _, ?_⟩
  rw [json.operator_index_const]
  have hl := store_all_last k x pre post hpost
  have hd : (json.impl JsonType.Dict (0 : D) false [] []
      ((pre ++ (k, x) :: post).foldl (fun acc e => store_entry e.1 e.2 acc) [])).dictValue
      = (pre ++ (k, x) :: post).foldl (fun acc e => store_entry e.1 e.2 acc) [] := rfl
  have hb : (!(json.impl JsonType.Dict (0 : D) false [] []
      ((pre ++ (k, x) :: post).foldl (fun acc e => store_entry e.1 e.2 acc) [])).is_dictionary)
      = false := rfl
  rw [hb, hd, hl]
  rfl

/-- Witness of C23: the text `{a : 11,bb : 22,aa : 33}`, the loop iteration on `a : 11}`,
and the writes `a` -> 1, `b` -> 2, `a` -> 3, `c` -> 4 on an empty Object. -/
theorem parsed_objects_unique_keys_witness :
    (parse integer_io "\x7ba : 11,bb : 22,aa : 33\x7d".toList).rhs.unique_keys ∧
    (∃ d1, (json.ctor : json Int).set_dictionary.assign_all
        ([("a".toList, (json.ctor : json Int).set_number 1),
          ("b".toList, (json.ctor : json Int).set_number 2)]
          ++ ("a".toList, (json.ctor : json Int).set_number 3)
            :: [("c".toList, (json.ctor : json Int).set_number 4)])
        = Except.ok (json.impl JsonType.Dict 0 false [] [] d1) ∧
      (d1.map Prod.fst).Nodup ∧
      d1.map Prod.fst =
        ((([("a".toList, (json.ctor : json Int).set_number 1),
            ("b".toList, (json.ctor : json Int).set_number 2)]
            ++ ("a".toList, (json.ctor : json Int).set_number 3)
              :: [("c".toList, (json.ctor : json Int).set_number 4)]).map
                Prod.fst).reverse.dedup).reverse ∧
      (json.impl JsonType.Dict 0 false [] [] d1).operator_index_const "a".toList
        = Except.ok ((json.ctor : json Int).set_number 3)) :=
  ⟨(parsed_objects_unique_keys integer_io "\x7ba : 11,bb : 22,aa : 33\x7d".toList 1
      (istream.of_text "a : 11\x7d".toList) [] 'a'
      [("a".toList, (json.ctor : json Int).set_number 1),
        ("b".toList, (json.ctor : json Int).set_number 2)]
      [("c".toList, (json.ctor : json Int).set_number 4)]
      "a".toList ((json.ctor : json Int).set_number 3) rfl rfl (by decide)).1,
    (parsed_objects_unique_keys integer_io "\x7ba : 11,bb : 22,aa : 33\x7d".toList 1
      (istream.of_text "a : 11\x7d".toList) [] 'a'
      [("a".toList, (json.ctor : json Int).set_number 1),
        ("b".toList, (json.ctor : json Int).set_number 2)]
      [("c".toList, (json.ctor : json Int).set_number 4)]
      "a".toList ((json.ctor : json Int).set_number 3) rfl rfl (by decide)).2.2.1⟩

end unique_claims

/-! ## Operands inside the assigned object -/

section reference_theorems

variable {D : Type}

theorem delete_second_get_ne : ∀ (d : List (List Char × json D)) (i j : Nat), j ≠ i →
    (delete_second d i).get? j = (d.get? j).map (fun e => (e.1, some e.2)) := by
  intro d
  induction d with
  | nil => intro i j _; rfl
  | cons e d ih =>
    intro i j h
    obtain ⟨k, x⟩ := e
    cases i with
    | zero =>
      cases j with
      | zero => exact absurd rfl h
      | succ j =>
        rw [delete_second, List.get?_cons_succ, List.get?_cons_succ]
        simp only [List.get?_eq_getElem?, List.getElem?_map]
    | succ i =>
      cases j with
      | zero => rfl
      | succ j =>
        rw [delete_second, List.get?_cons_succ, List.get?_cons_succ]
        exact ih i j (fun e1 => h (by rw [e1]))

theorem delete_second_get_eq : ∀ (d : List (List Char × json D)) (i : Nat),
    (delete_second d i).get? i = (d.get? i).map (fun e => (e.1, none)) := by
  intro d
  induction d with
  | nil => intro i; rfl
  | cons e d ih =>
    intro i
    obtain ⟨k, x⟩ := e
    cases i with
    | zero => rfl
    | succ i =>
      rw [delete_second, List.get?_cons_succ, List.get?_cons_succ]
      exact ih i

theorem copy_entries_delete_second : ∀ (d : List (List Char × json D)) (i : Nat),
    i < d.length → copy_entries (delete_second d i) = none := by
  intro d
  induction d with
  | nil => intro i h; exact absurd h (Nat.not_lt_zero i)
  | cons e d ih =>
    intro i h
    obtain ⟨k, x⟩ := e
    cases i with
    | zero => rfl
    | succ i =>
      rw [delete_second, copy_entries, ih i (Nat.lt_of_succ_lt_succ h)]

theorem is_target_entry_ne (j i : Nat) (p : List Step) (h : j ≠ i) :
    (Operand.within (Step.entry j :: p) : Operand D).is_target i = false := by
  cases p with
  | nil => simp only [Operand.is_target, decide_eq_false_iff_not]; exact h
  | cons s p => rfl

theorem is_target_entry_below (j i : Nat) (s : Step) (p : List Step) :
    (Operand.within (Step.entry j :: s :: p) : Operand D).is_target i = false := rfl

/-- The statement `obj[key] = other;` after the mutable `operator[]` returned the value of
the entry at position `i` of `v1`, for an operand in the value of another entry. -/
theorem assign_operand_sibling [Zero D] (v v1 : json D) (key : List Char) (i j : Nat)
    (p : List Step) (e : List Char × json D) (z : json D)
    (hidx : v.operator_index key = Except.ok (v1, i)) (hj : j ≠ i)
    (he : v1.dictValue.get? j = some e) (hz : e.2.descend p = some z) :
    v.assign_operand key (Operand.within (Step.entry j :: p))
      = Assigned.done (v1.assign_ref i z) := by
  have hr : (Operand.within (Step.entry j :: p) : Operand D).read v1 i = some z := by
    rw [Operand.read, delete_second_get_ne _ i j hj, he]
    exact hz
  rw [json.assign_operand, hidx]
  simp only [is_target_entry_ne j i p hj, Bool.false_eq_true, if_false, hr]

/-- The statement `obj[key] = obj;`: the copy of `obj` reaches the entry whose `pimpl` was
deleted. -/
theorem assign_operand_whole [Zero D] (v v1 : json D) (key : List Char) (i : Nat)
    (hidx : v.operator_index key = Except.ok (v1, i)) (hi : i < v1.dictValue.length) :
    v.assign_operand key (Operand.within []) = Assigned.undefined := by
  have hr : (Operand.within [] : Operand D).read v1 i = none := by
    cases v1 with
    | impl t n b s l d =>
      rw [Operand.read, copy_entries_delete_second d i hi]
  rw [json.assign_operand, hidx]
  simp only [hr]
  rfl

/-- The statement `obj[key] = other;` for an operand below the value of the entry the
assignment writes: `delete pimpl` destroyed it. -/
theorem assign_operand_below [Zero D] (v v1 : json D) (key : List Char) (i : Nat)
    (s : Step) (p : List Step) (hidx : v.operator_index key = Except.ok (v1, i))
    (hi : i < v1.dictValue.length) :
    v.assign_operand key (Operand.within (Step.entry i :: s :: p)) = Assigned.undefined := by
  have hr : (Operand.within (Step.entry i :: s :: p) : Operand D).read v1 i = none := by
    obtain ⟨e, he⟩ : ∃ e, v1.dictValue.get? i = some e :=
      ⟨v1.dictValue.get ⟨i, hi⟩, List.get?_eq_get hi⟩
    rw [Operand.read, delete_second_get_eq, he]
    rfl
  rw [json.assign_operand, hidx]
  simp only [is_target_entry_below, Bool.false_eq_true, if_false, hr]

theorem assign_operand_same [Zero D] (v v1 : json D) (key : List Char) (i : Nat)
    (hidx : v.operator_index key = Except.ok (v1, i)) :
    v.assign_operand key (Operand.within [Step.entry i]) = Assigned.done v1 := by
  rw [json.assign_operand, hidx]
  simp only [Operand.is_target, decide_True, if_true]

theorem assign_operand_outside [Zero D] (v v1 x : json D) (key : List Char) (i : Nat)
    (hidx : v.operator_index key = Except.ok (v1, i)) :
    v.assign_operand key (Operand.outside x) = Assigned.done (v1.assign_ref i x) := by
  rw [json.assign_operand, hidx]
  rfl

end reference_theorems

/-! ## Indexed write and the copy assignment -/

section write_claims

variable {D : Type} [Zero D]

/-- C10 (indexed write, missing key): on a dictionary value none of whose entries has key
`k`, the mutable `operator[]` appends the one entry `(k, Null)` at the end, so that the
entry count grows by one and the earlier entries and the other members are unchanged, and
returns the reference to the value of that last entry.  Assigning through it an operand of
value `x` that is no part of the dictionary object makes the entry `(k, x)`, and a following
indexed read of `k` returns `x`; the same holds for an operand of value `z` in an earlier
entry, and `obj[k] = obj[k]` leaves the entry `(k, Null)`.  On every `LinkedList` that
satisfies the representation invariant, `back()` after `push_back` refers to the node just
appended.  The claim fails on the statement `obj[k] = obj`: `json::operator=` runs
`delete pimpl` on the new entry before it copies `obj`, the copy dereferences the deleted
`pimpl`, and the behaviour is undefined; so it is on an empty Object with the key `k`. -/
theorem indexed_write_missing_key (v x : json D) (k : List Char)
    (ll : LinkedList (List Char × json D))
    (hv : v.is_dictionary = true) (hk : ∀ e ∈ v.dictValue, e.1 ≠ k) (hw : ll.WF) :
    v.operator_index k = Except.ok
      (json.impl v.type v.numberValue v.boolValue v.stringValue v.listValue
        (v.dictValue ++ [(k, json.ctor)]), v.dictValue.length) ∧
    (v.dictValue ++ [(k, (json.ctor : json D))]).length = v.dictValue.length + 1 ∧
    (v.dictValue ++ [(k, (json.ctor : json D))]).get? v.dictValue.length = some (k, json.ctor) ∧
    v.assign_index k x = Except.ok
      (json.impl v.type v.numberValue v.boolValue v.stringValue v.listValue
        (v.dictValue ++ [(k, x)])) ∧
    v.assign_operand k (Operand.outside x) = Assigned.done
      (json.impl v.type v.numberValue v.boolValue v.stringValue v.listValue
        (v.dictValue ++ [(k, x)])) ∧
    (json.impl v.type v.numberValue v.boolValue v.stringValue v.listValue
        (v.dictValue ++ [(k, x)])).operator_index_const k = Except.ok x ∧
    (∃ l1 t, ll.push_back (k, (json.ctor : json D)) = some l1 ∧ l1.back = Except.ok t ∧
      (l1.store[t]?).map Node.data = some (k, json.ctor)) ∧
    (∀ (j : Nat) (p : List Step) (e : List Char × json D) (z : json D),
      v.dictValue.get? j = some e → e.2.descend p = some z →
      v.assign_operand k (Operand.within (Step.entry j :: p)) = Assigned.done
        (json.impl v.type v.numberValue v.boolValue v.stringValue v.listValue
          (v.dictValue ++ [(k, z)]))) ∧
    v.assign_operand k (Operand.within [Step.entry v.dictValue.length]) = Assigned.done
      (json.impl v.type v.numberValue v.boolValue v.stringValue v.listValue
        (v.dictValue ++ [(k, json.ctor)])) ∧
    v.assign_operand k (Operand.within []) = Assigned.undefined ∧
    (json.ctor : json Int).set_dictionary.assign_operand "k".toList (Operand.within [])
      = Assigned.undefined := by
  have hidx : v.operator_index k = Except.ok
      (json.impl v.type v.numberValue v.boolValue v.stringValue v.listValue
        (v.dictValue ++ [(k, json.ctor)]), v.dictValue.length) := by
    cases v with
    | impl t n b s l d =>
      simp only [json.dictValue] at hk
      simp only [json.is_dictionary, json.type] at hv
      simp only [json.operator_index, json.is_dictionary, json.type, hv, json.dictValue,
        find_position_none k d hk, back_position_concat, json.numberValue, json.boolValue,
        json.stringValue, json.listValue]
      rfl
  have htype : v.type = JsonType.Dict := by simpa [json.is_dictionary] using hv
  refine ⟨hidx, by simp, by simp, ?_, ?_, ?_, ?_, ?_, ?_, ?_, rfl⟩
  · rw [json.assign_index, hidx]
    simp only [json.assign_ref, set_second_concat]
  · rw [assign_operand_outside v _ x k _ hidx]
    simp only [json.assign_ref, set_second_concat]
  · have hfind := find_value_first k x v.dictValue [] hk
    cases v with
    | impl t n b s l d =>
      simp only [json.type] at htype
      simp only [json.dictValue] at hfind
      simp only [json.operator_index_const, json.is_dictionary, json.type, htype, json.dictValue,
        hfind, decide_True, Bool.not_true, Bool.false_eq_true, if_false]
  · obtain ⟨l1, h1, hw1, hl1⟩ := LinkedList.push_back_refines ll (k, (json.ctor : json D)) hw
    obtain ⟨t, ht, hdata⟩ := (LinkedList.back_refines l1 hw1).2 (by rw [hl1]; simp)
    refine ⟨l1, t, h1, ht, ?_⟩
    rw [hdata, hl1]; simp
  · intro j p e z he hz
    have hj : j < v.dictValue.length := by
      by_contra hn
      rw [List.get?_eq_none.mpr (Nat.le_of_not_lt hn)] at he
      exact Option.noConfusion he
    have he1 : (json.impl v.type v.numberValue v.boolValue v.stringValue v.listValue
        (v.dictValue ++ [(k, json.ctor)])).dictValue.get? j = some e := by
      rw [json.dictValue, List.get?_eq_getElem?, List.getElem?_append_left hj,
        ← List.get?_eq_getElem?]
      exact he
    rw [assign_operand_sibling v _ k _ j p e z hidx (Nat.ne_of_lt hj) he1 hz]
    simp only [json.assign_ref, set_second_concat]
  · exact assign_operand_same v _ k _ hidx
  · refine assign_operand_whole v _ k _ hidx ?_
    rw [json.dictValue, List.length_append, List.length_singleton]
    exact Nat.lt_succ_self _

/-- Witness of C10: on an Object that holds the key `a`, the statement `obj["x"] = 5` and
the statement `obj["x"] = obj`. -/
theorem indexed_write_missing_key_witness :
    (json.impl JsonType.Dict (0 : Int) false [] [] [("a".toList, json.ctor)]).is_dictionary = true ∧
    (∀ e ∈ (json.impl JsonType.Dict (0 : Int) false [] []
      [("a".toList, json.ctor)]).dictValue, e.1 ≠ "x".toList) ∧
    (LinkedList.ctor : LinkedList (List Char × json Int)).WF ∧
    (json.impl JsonType.Dict (0 : Int) false [] [] [("a".toList, json.ctor)]).assign_operand
        "x".toList (Operand.outside ((json.ctor : json Int).set_number 5))
      = Assigned.done (json.impl JsonType.Dict 0 false [] []
          [("a".toList, json.ctor), ("x".toList, (json.ctor : json Int).set_number 5)]) ∧
    (json.impl JsonType.Dict (0 : Int) false [] [] [("a".toList, json.ctor)]).assign_operand
        "x".toList (Operand.within [])
      = Assigned.undefined :=
  ⟨rfl,
    by
      intro e he
      rw [json.dictValue, List.mem_singleton] at he
      rw [he]
      decide,
    wf_ctor,
    (indexed_write_missing_key
      (json.impl JsonType.Dict (0 : Int) false [] [] [("a".toList, json.ctor)])
      ((json.ctor : json Int).set_number 5) "x".toList LinkedList.ctor rfl
      (by
        intro e he
        rw [json.dictValue, List.mem_singleton] at he
        rw [he]
        decide)
      wf_ctor).2.2.2.2.1,
    (indexed_write_missing_key
      (json.impl JsonType.Dict (0 : Int) false [] [] [("a".toList, json.ctor)])
      ((json.ctor : json Int).set_number 5) "x".toList LinkedList.ctor rfl
      (by
        intro e he
        rw [json.dictValue, List.mem_singleton] at he
        rw [he]
        decide)
      wf_ctor).2.2.2.2.2.2.2.2.2.1⟩

end write_claims

section existing_key_claims

variable {D : Type}

/-- C11 (indexed write, existing key): on a dictionary value in which some entry has key
`k`, the mutable `operator[]` returns the reference to the value of the first entry with
key `k` and changes nothing.  The statement `v[k] = other` with an operand of value `x` that
is no part of `v` changes only the value of that entry: the entries before it, which have
other keys, and the entries after it, among them later entries with key `k`, are unchanged,
as are the entry count, the order of the keys and the other members; the same holds for an
operand of value `z` in another entry, and `v[k] = v[k]` changes nothing.  The claim fails
on an operand below the value of the entry itself, as in `obj["a"] = obj["a"]["b"]`, and on
the operand `v`: `json::operator=` runs `delete pimpl` on the entry before it copies the
operand, which is then destroyed or holds the deleted `pimpl`, and the behaviour is
undefined. -/
theorem indexed_write_existing_key [Zero D] (v x : json D) (k : List Char)
    (hv : v.is_dictionary = true) (hk : ∃ e ∈ v.dictValue, e.1 = k) :
    (∃ pre y post, v.dictValue = pre ++ (k, y) :: post ∧ (∀ e ∈ pre, e.1 ≠ k) ∧
      v.operator_index k = Except.ok (v, pre.length) ∧
      v.assign_index k x = Except.ok
        (json.impl v.type v.numberValue v.boolValue v.stringValue v.listValue
          (pre ++ (k, x) :: post)) ∧
      v.assign_operand k (Operand.outside x) = Assigned.done
        (json.impl v.type v.numberValue v.boolValue v.stringValue v.listValue
          (pre ++ (k, x) :: post)) ∧
      (pre ++ (k, x) :: post).length = v.dictValue.length ∧
      (pre ++ (k, x) :: post).map Prod.fst = v.dictValue.map Prod.fst ∧
      (∀ (j : Nat) (p : List Step) (e : List Char × json D) (z : json D),
        j ≠ pre.length → v.dictValue.get? j = some e → e.2.descend p = some z →
        v.assign_operand k (Operand.within (Step.entry j :: p)) = Assigned.done
          (json.impl v.type v.numberValue v.boolValue v.stringValue v.listValue
            (pre ++ (k, z) :: post))) ∧
      v.assign_operand k (Operand.within [Step.entry pre.length]) = Assigned.done v ∧
      (∀ (s : Step) (p : List Step),
        v.assign_operand k (Operand.within (Step.entry pre.length :: s :: p))
          = Assigned.undefined) ∧
      v.assign_operand k (Operand.within []) = Assigned.undefined) ∧
    (json.impl JsonType.Dict (0 : Int) false [] []
        [("a".toList, json.impl JsonType.Dict 0 false [] []
          [("b".toList, (json.ctor : json Int).set_number 1)])]).assign_operand "a".toList
        (Operand.within [Step.entry 0, Step.entry 0])
      = Assigned.undefined := by
  refine ⟨?_, rfl⟩
  obtain ⟨pre, y, post, hd, hpre⟩ := first_entry_split k v.dictValue hk
  have hidx : v.operator_index k = Except.ok (v, pre.length) := by
    cases v with
    | impl t n b s l d =>
      simp only [json.dictValue] at hd
      simp only [json.is_dictionary, json.type] at hv
      simp only [json.operator_index, json.is_dictionary, json.type, hv, json.dictValue, hd,
        find_position_first k y pre post hpre]
      rfl
  have href : ∀ z : json D, v.assign_ref pre.length z
      = json.impl v.type v.numberValue v.boolValue v.stringValue v.listValue
          (pre ++ (k, z) :: post) := by
    intro z
    cases v with
    | impl t n b s l d =>
      simp only [json.dictValue] at hd
      simp only [json.assign_ref, hd, set_second_first, json.type, json.numberValue,
        json.boolValue, json.stringValue, json.listValue]
  have hlen : pre.length < v.dictValue.length := by
    rw [hd, List.length_append, List.length_cons]
    omega
  refine ⟨pre, y, post, hd, hpre, hidx, ?_, ?_, ?_, ?_, ?_, ?_, ?_, ?_⟩
  · rw [json.assign_index, hidx]
    simp only [href]
  · rw [assign_operand_outside v v x k _ hidx, href]
  · rw [hd]; simp
  · rw [hd]; simp
  · intro j p e z hj he hz
    rw [assign_operand_sibling v v k _ j p e z hidx hj he hz, href]
  · exact assign_operand_same v v k _ hidx
  · intro s p
    exact assign_operand_below v v k _ s p hidx hlen
  · exact assign_operand_whole v v k _ hidx hlen

/-- Witness of C11: an Object with the entries `a`, `b`, `a`, a write of the Number 5 to
`a`, and the statement `obj["a"] = obj`. -/
theorem indexed_write_existing_key_witness :
    (json.impl JsonType.Dict (0 : Int) false [] []
      [("a".toList, json.ctor), ("b".toList, json.ctor),
        ("a".toList, (json.ctor : json Int).set_bool true)]).is_dictionary = true ∧
    (∃ e ∈ (json.impl JsonType.Dict (0 : Int) false [] []
      [("a".toList, json.ctor), ("b".toList, json.ctor),
        ("a".toList, (json.ctor : json Int).set_bool true)]).dictValue, e.1 = "a".toList) ∧
    (∃ pre y post,
      (json.impl JsonType.Dict (0 : Int) false [] []
        [("a".toList, json.ctor), ("b".toList, json.ctor),
          ("a".toList, (json.ctor : json Int).set_bool true)]).dictValue
        = pre ++ ("a".toList, y) :: post ∧
      (∀ e ∈ pre, e.1 ≠ "a".toList) ∧
      (json.impl JsonType.Dict (0 : Int) false [] []
        [("a".toList, json.ctor), ("b".toList, json.ctor),
          ("a".toList, (json.ctor : json Int).set_bool true)]).assign_operand "a".toList
          (Operand.outside ((json.ctor : json Int).set_number 5))
        = Assigned.done (json.impl JsonType.Dict 0 false [] []
            (pre ++ ("a".toList, (json.ctor : json Int).set_number 5) :: post)) ∧
      (json.impl JsonType.Dict (0 : Int) false [] []
        [("a".toList, json.ctor), ("b".toList, json.ctor),
          ("a".toList, (json.ctor : json Int).set_bool true)]).assign_operand "a".toList
          (Operand.within [])
        = Assigned.undefined) :=
  ⟨rfl, ⟨("a".toList, json.ctor), List.mem_cons_self _ _, rfl⟩,
    by
      obtain ⟨⟨pre, y, post, h1, h2, _, _, h5, _, _, _, _, _, h11⟩, _⟩ :=
        indexed_write_existing_key
          (json.impl JsonType.Dict (0 : Int) false [] []
            [("a".toList, json.ctor), ("b".toList, json.ctor),
              ("a".toList, (json.ctor : json Int).set_bool true)])
          ((json.ctor : json Int).set_number 5) "a".toList rfl
          ⟨("a".toList, json.ctor), List.mem_cons_self _ _, rfl⟩
      exact ⟨pre, y, post, h1, h2, h5, h11⟩⟩

end existing_key_claims

/-! ## Mutators and their arguments -/

section residue_claims

variable {D : Type} [Zero D]

/-- C12 (no residual state): each of `set_null`, `set_bool`, `set_number`, `set_list`,
`set_dictionary`, and `set_string` with an argument that is no part of the receiver, is
total, and on every value `v`, whatever its kind and members, it leaves a value with the
same observations (the six predicates, the three typed accessors, the iteration over
elements and over entries, the serialized text, and the indexed read of any key) as the same
mutator leaves on a default-constructed value.  After `set_list` the element sequence is
empty and after `set_dictionary` the entry sequence is empty, also when `v` was a non-empty
Array or Object to which another mutator was applied in between.  The claim fails on
`v.set_string(v.get_string())`: `set_string` runs `clear_data` before it copies from its
reference parameter, so a String `v` ends as the empty String whatever it held, and a
default-constructed value given the same string ends as the String of it; after
`set_string` on the String `abc` with its own payload, `get_string` returns the empty
string.  An argument stored in an element of a List receiver, or in an entry of a Dict
receiver, is destroyed by `clear_data` before it is read. -/
theorem mutators_leave_no_residue (io : DoubleIO D) (v : json D) (b : Bool) (n : D)
    (s k : List Char) (l : List (json D)) (d : List (List Char × json D)) :
    observe io v.set_null = observe io (json.ctor : json D).set_null ∧
    observe io (v.set_bool b) = observe io ((json.ctor : json D).set_bool b) ∧
    observe io (v.set_number n) = observe io ((json.ctor : json D).set_number n) ∧
    observe io (v.set_string s) = observe io ((json.ctor : json D).set_string s) ∧
    v.set_string_ref (StringRef.outside s) = some (v.set_string s) ∧
    observe io v.set_list = observe io (json.ctor : json D).set_list ∧
    observe io v.set_dictionary = observe io (json.ctor : json D).set_dictionary ∧
    v.set_null.operator_index_const k = (json.ctor : json D).set_null.operator_index_const k ∧
    (v.set_bool b).operator_index_const k
      = ((json.ctor : json D).set_bool b).operator_index_const k ∧
    (v.set_number n).operator_index_const k
      = ((json.ctor : json D).set_number n).operator_index_const k ∧
    (v.set_string s).operator_index_const k
      = ((json.ctor : json D).set_string s).operator_index_const k ∧
    v.set_list.operator_index_const k = (json.ctor : json D).set_list.operator_index_const k ∧
    v.set_dictionary.operator_index_const k
      = (json.ctor : json D).set_dictionary.operator_index_const k ∧
    v.set_list.iterate_list = Except.ok [] ∧
    v.set_dictionary.iterate_dictionary = Except.ok [] ∧
    (v.set_number n).set_list.iterate_list = Except.ok [] ∧
    (v.set_string s).set_dictionary.iterate_dictionary = Except.ok [] ∧
    format io v.set_list = "[]".toList ∧
    format io v.set_dictionary = "\x7b\x7d".toList ∧
    (json.impl JsonType.String n b s l d).set_string_ref StringRef.own
      = some (json.impl JsonType.String n b [] l d) ∧
    ((json.ctor : json D).set_string "abc".toList).get_string = Except.ok "abc".toList ∧
    ((json.ctor : json D).set_string "abc".toList).set_string_ref StringRef.own
      = some ((json.ctor : json D).set_string []) ∧
    ((json.ctor : json D).set_string []).get_string = Except.ok [] ∧
    (json.ctor : json D).set_string_ref (StringRef.outside "abc".toList)
      = some ((json.ctor : json D).set_string "abc".toList) ∧
    (json.impl JsonType.List n b s l d).set_string_ref (StringRef.in_list k) = none ∧
    (json.impl JsonType.Dict n b s l d).set_string_ref (StringRef.in_dict k) = none := by
  refine ⟨?_, ?_, ?_, ?_, ?_, ?_, ?_, ?_, ?_, ?_, ?_, ?_, ?_, ?_, ?_, ?_, ?_, ?_, ?_,
    rfl, rfl, rfl, rfl, rfl, rfl, rfl⟩ <;>
  · cases v with
    | impl t n0 b0 s0 l0 d0 => cases t <;> rfl

end residue_claims

/-! ## What a loop of the parser leaves in the destination -/

section loop_destination

variable {D : Type} [Zero D]

end loop_destination

section failure_destination

variable {D : Type} [Zero D]

end failure_destination

end Pel
